import Mathlib

/-!
# A verification development of the `tray` menu tree manager

This file gives a shallow embedding of the menu tree manager of the
`deedles.dev/tray` package: the mutable tree of `MenuItem` nodes owned by a
`Menu`, the local mutation operations (`AddChild` on the menu and on an item,
`Remove`, `MoveBefore`, `SetProps`), and the remote query methods of the
`dbusmenu` adapter (`GetLayout`, `GetGroupProperties`, `GetProperty`), together
with proofs about them.

Modelling conventions:

* Node identities are allocated `1, 2, 3, ...` by `Menu.newItem` and never
  reused; the root is the sentinel identity `0` and is not stored in the node
  map.  All identities and children entries are represented as `Nat` (Go `int`
  values here are always ≥ 0: allocated ids are positive and the only other
  value that ever enters a children slice is the zero produced by
  `slices.Delete`'s tail zeroing).
* A Go `*MenuItem` handle stays usable after the item is deleted from
  `menu.nodes` (`Remove` only deletes the map entry).  The state therefore
  keeps a `heap` of every item ever created, keyed by identity, plus the list
  `nodesIds` of identities currently present in `menu.nodes`.  A handle is
  modelled by its identity, looked up in the heap.
* Go map iteration order is unspecified; `nodesIds` records insertion order as
  a determinization.  All theorems about map iteration below use only
  membership / per-entry facts, never the order.
* `menu.revision` is a Go `uint32` and is modelled as a `Nat` reduced modulo
  `2 ^ 32` at each increment.
* Property values (`map[string]any`) are modelled by the closed union `PVal`
  covering the value shapes the embedded setters store, plus `PVal.vnil` for
  the untyped `nil` interface value that `MenuItemVendorProp` can store.
* Outbound D-Bus signals (`LayoutUpdated`, `ItemsPropertiesUpdated`) are
  recorded in an event trace; `conn.Emit` errors are ignored (they do not
  influence the tree state).
* `handler` fields and the input-event methods are not modelled; no theorem
  below concerns them.
-/

/-- A dynamically-typed property value (`any` in `map[string]any`).  `vnil`
is the untyped `nil` interface value. -/
inductive PVal where
  | s (v : String)
  | b (v : Bool)
  | vnil
deriving DecidableEq, Repr

/-- One `MenuItem` record.  The Go struct also stores its own `id` (here the
heap key), the back pointer `menu`, and a `handler`, none of which carry
state that the embedded operations read. -/
structure MItem where
  parent : Nat
  props : List (String × PVal)
  children : List Nat
deriving DecidableEq, Repr

/-- An outbound notification recorded by `conn.Emit`. -/
inductive Ev where
  | layoutUpdated (revision : Nat) (id : Nat)
  | propsUpdated (id : Nat) (props : List (String × Option PVal))
deriving DecidableEq, Repr

/-- The state of one `Menu`: identity counter `nextId` (`menu.id`), the heap
of all items ever created, the identities currently in `menu.nodes`, the
root's child order (`menu.children`), the `uint32` revision counter, and the
trace of emitted signals. -/
structure MState where
  nextId : Nat
  heap : List (Nat × MItem)
  nodesIds : List Nat
  rootChildren : List Nat
  revision : Nat
  events : List Ev
deriving DecidableEq, Repr

/-- The freshly created `Menu` of `Item.createMenu`. -/
def initState : MState :=
  { nextId := 0, heap := [], nodesIds := [], rootChildren := [], revision := 0, events := [] }

/-- `2 ^ 32`, the modulus of the `uint32` revision counter. -/
def u32Mod : Nat := 4294967296

/-- One `revision++` step on the `uint32` counter. -/
def bumpRev (r : Nat) : Nat := (r + 1) % u32Mod

/-- Association-list lookup, modelling reading a pointer out of a Go map
keyed by identity. -/
def lookupA : List (Nat × MItem) → Nat → Option MItem
  | [], _ => none
  | (k, v) :: rest, i => if k = i then some v else lookupA rest i

/-- Overwrite the record stored at identity `i`, modelling a mutation through
the Go pointer held in the map. -/
def heapUpd : List (Nat × MItem) → Nat → MItem → List (Nat × MItem)
  | [], _, _ => []
  | (k, v) :: rest, i, it =>
      if k = i then (k, it) :: heapUpd rest i it else (k, v) :: heapUpd rest i it

/-- Lookup in the heap of all items ever created: dereferencing a handle. -/
def heapLookup (st : MState) (i : Nat) : Option MItem := lookupA st.heap i

/-- `menu.nodes[i]`: the item is visible only while its identity is in the
node map. -/
def nodesLookup (st : MState) (i : Nat) : Option MItem :=
  if i ∈ st.nodesIds then heapLookup st i else none

/-- Go map assignment `m[k] = v` on a property bag: replace the binding in
place, or append a new one. -/
def propsInsert : List (String × PVal) → String → PVal → List (String × PVal)
  | [], k, v => [(k, v)]
  | (k', v') :: rest, k, v =>
      if k' = k then (k, v) :: rest else (k', v') :: propsInsert rest k v

/-- Go map read `m[k]` on a property bag, distinguishing an absent key from a
stored value. -/
def plookup : List (String × PVal) → String → Option PVal
  | [], _ => none
  | (k', v') :: rest, k => if k' = k then some v' else plookup rest k

/-- `slices.Index`: the first index of `v` in `s`, if any. -/
def listIndex : List Nat → Nat → Option Nat
  | [], _ => none
  | a :: rest, v =>
      if a = v then some 0 else (listIndex rest v).map (· + 1)

/-- `sliceRemove` (util.go): drop the first occurrence of `v`, if present.
This is the length-`n-1` slice returned by `slices.Delete`; the tail zeroing
that `slices.Delete` performs on the underlying array is modelled explicitly
at the one place an aliasing longer view of that array is reused
(`MenuItem.MoveBefore` with equal source and destination parents). -/
def sliceRemove (s : List Nat) (v : Nat) : List Nat :=
  match listIndex s v with
  | none => s
  | some i => s.eraseIdx i

/-- `slices.Insert(s, i, v)` for a single value: the call sites always have
`i ≤ s.length`. -/
def listInsertIdx (s : List Nat) (i : Nat) (v : Nat) : List Nat :=
  s.take i ++ v :: s.drop i

/-- One `MenuItemProp` option passed to `AddChild`/`SetProps`.  `mtype` is
`MenuItemType` (it stores the "type" key and, unlike the other setters, does
not mark it dirty); `vendor` is `MenuItemVendorProp` and can store any value,
including the untyped nil.  `MenuItemHandler` only sets the handler and is
not modelled. -/
inductive PropOp where
  | label (v : String)
  | mtype (v : String)
  | enabled (v : Bool)
  | visible (v : Bool)
  | vendor (vd pr : String) (v : PVal)
deriving DecidableEq, Repr

/-- `vendorPropName`. -/
def vendorPropName (vd pr : String) : String := "x-" ++ vd ++ "-" ++ pr

/-- `menuItemProps.mark`: record a dirty key, deduplicating within one
`applyProps` batch (`slices.Contains` check). -/
def markAdd (dirty : List String) (k : String) : List String :=
  if k ∈ dirty then dirty else dirty ++ [k]

/-- Apply one `MenuItemProp` to the pair (property bag, dirty keys). -/
def applyProp (acc : List (String × PVal) × List String) (p : PropOp) :
    List (String × PVal) × List String :=
  match p with
  | .label v => (propsInsert acc.1 "label" (.s v), markAdd acc.2 "label")
  | .mtype v => (propsInsert acc.1 "type" (.s v), acc.2)
  | .enabled v => (propsInsert acc.1 "enabled" (.b v), markAdd acc.2 "enabled")
  | .visible v => (propsInsert acc.1 "visible" (.b v), markAdd acc.2 "visible")
  | .vendor vd pr v =>
      (propsInsert acc.1 (vendorPropName vd pr) v, markAdd acc.2 (vendorPropName vd pr))

/-- `MenuItem.applyProps`: run the options over the item's bag, collecting
the dirty keys. -/
def applyProps (ps : List PropOp) (props : List (String × PVal)) :
    List (String × PVal) × List String :=
  ps.foldl applyProp (props, [])

/-- The payload of `ItemsPropertiesUpdated`: for each dirty key, the value
currently stored under it in the emitting item's bag (`item.props[change]`;
`none` models the nil a Go map read yields for an absent key). -/
def updatedPayload (props : List (String × PVal)) (dirty : List String) :
    List (String × Option PVal) :=
  dirty.map fun k => (k, plookup props k)

/-- The children list held by an owner: the root's (`owner = 0`) or an
item's. -/
def childrenOf (st : MState) (owner : Nat) : List Nat :=
  if owner = 0 then st.rootChildren
  else match heapLookup st owner with
    | some it => it.children
    | none => []

/-- The record produced by `MenuItem.setChildren`: store the list and
maintain the derived "children-display" property inside the same mutation
("" when the list became empty, "submenu" otherwise). -/
def withChildren (it : MItem) (c : List Nat) : MItem :=
  { it with
    children := c
    props := propsInsert it.props "children-display"
      (.s (if c.isEmpty then "" else "submenu")) }

/-- `setChildren` on the owner: the root variant (`Menu.setChildren`) only
stores the list; the item variant applies `withChildren`. -/
def setChildrenSt (st : MState) (owner : Nat) (c : List Nat) : MState :=
  if owner = 0 then { st with rootChildren := c }
  else match heapLookup st owner with
    | some it => { st with heap := heapUpd st.heap owner (withChildren it c) }
    | none => st

/-- `item.getParent()`: the root when `parent` is the 0 sentinel, otherwise
the owner id if it still resolves in `menu.nodes`.  The result is the owner
identity (`0` = root). -/
def getParentRef (st : MState) (it : MItem) : Option Nat :=
  if it.parent = 0 then some 0
  else if (nodesLookup st it.parent).isSome then some it.parent else none

/-- Set the `parent` field of the item at identity `x`. -/
def setParentSt (st : MState) (x : Nat) (p : Nat) : MState :=
  match heapLookup st x with
  | some it => { st with heap := heapUpd st.heap x ({ it with parent := p }) }
  | none => st

/-- A local mutation, always addressed through a handle identity. -/
inductive Op where
  | addRoot (ps : List PropOp)
  | addChild (x : Nat) (ps : List PropOp)
  | remove (x : Nat)
  | moveBefore (x sib : Nat)
  | setProps (x : Nat) (ps : List PropOp)
deriving DecidableEq, Repr

/-- `Menu.AddChild`: allocate, insert into `menu.nodes`, apply the options to
the child, bump the revision (`updateLayout(menu)` emits scope 0), emit the
child's property delta, then append the child to the root's child order. -/
def stepAddRoot (st : MState) (ps : List PropOp) : MState :=
  let cid := st.nextId + 1
  let a := applyProps ps []
  let rev := bumpRev st.revision
  { nextId := cid
    heap := (cid, { parent := 0, props := a.1, children := [] }) :: st.heap
    nodesIds := st.nodesIds ++ [cid]
    rootChildren := st.rootChildren ++ [cid]
    revision := rev
    events := st.events ++
      [.layoutUpdated rev 0, .propsUpdated cid (updatedPayload a.1 a.2)] }

/-- `MenuItem.AddChild` on the handle `x`: allocate a child with
`parent := x`, apply the options to the child, bump the revision
(`updateLayout(item)` emits scope `x`), emit `item.emitPropertiesUpdated`
(note: the signal carries the PARENT's id and the parent's current values for
the child's dirty keys — read before `setChildren` runs), then
`item.setChildren(append(item.children, child.id))`, which also sets the
parent's "children-display" to "submenu".  The handle works even when `x` has
already been deleted from `menu.nodes`. -/
def stepAddChild (st : MState) (x : Nat) (ps : List PropOp) : MState :=
  match heapLookup st x with
  | none => st
  | some xi =>
      let cid := st.nextId + 1
      let a := applyProps ps []
      let rev := bumpRev st.revision
      let xi' : MItem :=
        { xi with
          children := xi.children ++ [cid]
          props := propsInsert xi.props "children-display" (.s "submenu") }
      { nextId := cid
        heap := heapUpd ((cid, { parent := x, props := a.1, children := [] }) :: st.heap) x xi'
        nodesIds := st.nodesIds ++ [cid]
        rootChildren := st.rootChildren
        revision := rev
        events := st.events ++
          [.layoutUpdated rev x, .propsUpdated x (updatedPayload xi.props a.2)] }

/-- `MenuItem.Remove`: a no-op when `getParent` fails (the parent was itself
removed); otherwise unlink from the parent's order (maintaining the parent's
"children-display"), delete the handle's id from `menu.nodes`, bump the
revision and emit one structural signal scoped to the former parent. -/
def stepRemove (st : MState) (x : Nat) : MState :=
  match heapLookup st x with
  | none => st
  | some xi =>
      match getParentRef st xi with
      | none => st
      | some pown =>
          let st1 := setChildrenSt st pown (sliceRemove (childrenOf st pown) x)
          let st2 := { st1 with nodesIds := st1.nodesIds.erase x }
          let rev := bumpRev st2.revision
          { st2 with revision := rev, events := st2.events ++ [.layoutUpdated rev pown] }

/-- The list a same-parent `MoveBefore` writes back.  `dc` aliases the slice
that `sliceRemove` mutates in place: `slices.Delete` shifts the elements
after the removed index left and zeroes the last slot, so the still-length-n
view `dc` that `slices.Insert` then receives is the shifted list with a
trailing 0. -/
def moveSameList (dc : List Nat) (x i : Nat) : List Nat :=
  listInsertIdx
    (match listIndex dc x with
     | none => dc
     | some jx => dc.eraseIdx jx ++ [0]) i x

/-- `MenuItem.MoveBefore`: a no-op when either parent fails to resolve.
Otherwise compute the insertion index against the destination order, unlink
`x` from the source order and insert it before `sib` (or at the end when
`sib` is not found), update `x.parent`, bump the revision once, and emit one
structural signal per distinct parent (destination first). -/
def stepMoveBefore (st : MState) (x sib : Nat) : MState :=
  match heapLookup st x, heapLookup st sib with
  | some xi, some si =>
      match getParentRef st si, getParentRef st xi with
      | some dstO, some srcO =>
          let dc := childrenOf st dstO
          let i := (listIndex dc sib).getD dc.length
          let st1 :=
            if dstO = srcO then
              setChildrenSt st dstO (moveSameList dc x i)
            else
              let stA := setChildrenSt st srcO (sliceRemove (childrenOf st srcO) x)
              setChildrenSt stA dstO (listInsertIdx dc i x)
          let st2 := setParentSt st1 x dstO
          let rev := bumpRev st2.revision
          let evs :=
            if dstO = srcO then [Ev.layoutUpdated rev dstO]
            else [Ev.layoutUpdated rev dstO, Ev.layoutUpdated rev srcO]
          { st2 with revision := rev, events := st2.events ++ evs }
      | _, _ => st
  | _, _ => st

/-- `MenuItem.SetProps`: apply the options to the item's bag, emit one
`ItemsPropertiesUpdated` carrying exactly the dirty keys (with their freshly
stored values), then `updateLayout(item)`: bump the revision and emit one
structural signal scoped to the item — unconditionally, even when nothing
changed. -/
def stepSetProps (st : MState) (x : Nat) (ps : List PropOp) : MState :=
  match heapLookup st x with
  | none => st
  | some xi =>
      let a := applyProps ps xi.props
      let st1 := { st with heap := heapUpd st.heap x ({ xi with props := a.1 }) }
      let rev := bumpRev st1.revision
      { st1 with
        revision := rev
        events := st1.events ++
          [.propsUpdated x (updatedPayload a.1 a.2), .layoutUpdated rev x] }

/-- Dispatch one operation. -/
def stepOp (st : MState) (op : Op) : MState :=
  match op with
  | .addRoot ps => stepAddRoot st ps
  | .addChild x ps => stepAddChild st x ps
  | .remove x => stepRemove st x
  | .moveBefore x sib => stepMoveBefore st x sib
  | .setProps x ps => stepSetProps st x ps

/-- Run a sequence of operations from the fresh menu. -/
def runOps (ops : List Op) : MState :=
  ops.foldl stepOp initState

/-! ## The `dbusmenu` query adapter -/

/-- The fixed property map the root layout entry always carries
(`buildLayout` with a nil item). -/
def rootProps : List (String × PVal) := [("children-display", PVal.s "submenu")]

/-- One `menuLayout` entry: id, property map, child entries. -/
inductive MenuLayout where
  | mk (id : Nat) (properties : List (String × PVal)) (children : List MenuLayout)
deriving Repr

/-- The id of a layout entry. -/
def MenuLayout.id : MenuLayout → Nat
  | .mk i _ _ => i

/-- The property map of a layout entry. -/
def MenuLayout.properties : MenuLayout → List (String × PVal)
  | .mk _ p _ => p

/-- The child entries of a layout entry. -/
def MenuLayout.children : MenuLayout → List MenuLayout
  | .mk _ _ c => c

/-- `dbusmenu.buildLayout` / `dbusmenu.buildChildren`, with an explicit fuel
argument.  The Go recursion is bounded only by the actual node graph; `none`
models the case where the fuel is insufficient — in particular a recursion
that would never terminate.  The start `x` is `none` for the root (id 0,
fixed `rootProps`) or `some (id, item)` for a node already looked up in
`menu.nodes` by the caller, exactly as `buildChildren` passes the non-nil
pointer down.  `buildChildren` returns no entries at depth exactly 0 (`-1`
decrements forever and means unbounded); ids missing from `menu.nodes` are
skipped.  The property filter `ps` is carried but deliberately ignored: the
production code returns `item.props` wholesale (see the GNOME workaround
comment in the source). -/
def buildLayoutF : Nat → MState → Option (Nat × MItem) → Int → List String → Option MenuLayout
  | 0, _, _, _, _ => none
  | fuel + 1, st, x, depth, ps =>
      let idv : Nat := match x with | none => 0 | some (i, _) => i
      let properties := match x with | none => rootProps | some (_, it) => it.props
      let ids := match x with | none => st.rootChildren | some (_, it) => it.children
      let kids : Option (List MenuLayout) :=
        if depth = 0 then some [] else
          ids.foldr (fun cid acc =>
            match acc with
            | none => none
            | some rest =>
                match nodesLookup st cid with
                | none => some rest
                | some it =>
                    match buildLayoutF fuel st (some (cid, it)) (depth - 1) ps with
                    | none => none
                    | some l => some (l :: rest)) (some [])
      kids.map fun ks => .mk idv properties ks

/-- Fuel that suffices for any state whose reachable part is acyclic: one
level for the root plus at most one per node in `menu.nodes`, plus slack. -/
def layoutFuel (st : MState) : Nat := st.nodesIds.length + 2

/-- `dbusmenu.GetLayout`: always builds from the root — the `parentID`
argument is accepted and ignored by the implementation — and returns the
current revision alongside the snapshot. -/
def GetLayout (st : MState) (_parentID : Nat) (recursionDepth : Int)
    (propertyNames : List String) : Nat × Option MenuLayout :=
  (st.revision, buildLayoutF (layoutFuel st) st none recursionDepth propertyNames)

/-- One `menuProps` reply entry of `GetGroupProperties`. -/
structure MenuProps where
  id : Nat
  properties : List (String × PVal)
deriving DecidableEq, Repr

/-- `dbusmenu.GetGroupProperties`: an empty id list means every node in
`menu.nodes` (map iteration — only membership facts are meaningful);
otherwise the requested ids in order, silently skipping unknown ones.  Every
entry carries the node's full bag: the `propertyNames` filter is carried but
ignored, as in `buildLayout`. -/
def GetGroupProperties (st : MState) (ids : List Nat) (_propertyNames : List String) :
    List MenuProps :=
  let items : List (Nat × MItem) :=
    if ids.isEmpty then
      st.nodesIds.filterMap fun i => (heapLookup st i).map fun it => (i, it)
    else
      ids.filterMap fun i => (nodesLookup st i).map fun it => (i, it)
  items.map fun e => { id := e.1, properties := e.2.props }

/-- The failure cases of `dbusmenu.GetProperty`. -/
inductive LookupError where
  | itemNotFound (id : Nat)
  | propNotFound (name : String)
deriving DecidableEq, Repr

/-- `dbusmenu.GetProperty`: a point lookup that fails (with a D-Bus error,
not a crash) when the id does not resolve in `menu.nodes` or when the Go map
read `item.props[name]` yields nil — which happens both when the key is
absent and when the stored value is the untyped nil. -/
def GetProperty (st : MState) (id : Nat) (name : String) : Except LookupError PVal :=
  match nodesLookup st id with
  | none => .error (.itemNotFound id)
  | some it =>
      match plookup it.props name with
      | none => .error (.propNotFound name)
      | some v => if v = .vnil then .error (.propNotFound name) else .ok v

/-! ## Observation helpers -/

mutual
/-- All `(id, properties)` pairs of a layout tree, in preorder. -/
def layoutEntries : MenuLayout → List (Nat × List (String × PVal))
  | .mk i p cs => (i, p) :: layoutEntriesList cs

/-- `layoutEntries` over a list of layout trees. -/
def layoutEntriesList : List MenuLayout → List (Nat × List (String × PVal))
  | [] => []
  | l :: ls => layoutEntries l ++ layoutEntriesList ls
end

/-- All entry ids of a layout tree, in preorder. -/
def layoutIds (l : MenuLayout) : List Nat := (layoutEntries l).map Prod.fst

/-- All entry ids of a list of layout trees. -/
def layoutIdsList (ls : List MenuLayout) : List Nat := (layoutEntriesList ls).map Prod.fst

/-- The children list a node currently exposes to the traversal (empty when
the id does not resolve in `menu.nodes`). -/
def childList (st : MState) (a : Nat) : List Nat :=
  match nodesLookup st a with
  | some it => it.children
  | none => []

/-- How many times `j` occurs across the children lists of the node-map
members drawn from `l`. -/
def childCount (st : MState) (l : List Nat) (j : Nat) : Nat :=
  (l.map fun a => (childList st a).count j).sum

/-- Total number of occurrences of `j` across all children sequences: the
root's plus those of every node-map member. -/
def occ (st : MState) (j : Nat) : Nat :=
  st.rootChildren.count j + childCount st st.nodesIds j

/-- "`j`'s parent field is `p`": the handle resolves and stores `p`. -/
def parentOfEq (st : MState) (j p : Nat) : Prop :=
  (heapLookup st j).map MItem.parent = some p

instance (st : MState) (j p : Nat) : Decidable (parentOfEq st j p) := by
  unfold parentOfEq; infer_instance

/-- Claim C1 verbatim: every id in any children sequence (the root's or a
node-map member's) resolves in the node map; each node-map member occurs in
exactly one children sequence and its parent field names that sequence's
owner (`0` for the root's); and no id occurs more than once across all the
sequences. -/
def C1Claimed (st : MState) : Prop :=
  (∀ j ∈ st.rootChildren, j ∈ st.nodesIds) ∧
  (∀ a ∈ st.nodesIds, ∀ j ∈ childList st a, j ∈ st.nodesIds) ∧
  (∀ j ∈ st.nodesIds, occ st j = 1) ∧
  (∀ j ∈ st.nodesIds, j ∈ st.rootChildren → parentOfEq st j 0) ∧
  (∀ a ∈ st.nodesIds, ∀ j ∈ childList st a, j ∈ st.nodesIds → parentOfEq st j a) ∧
  (∀ j ∈ st.rootChildren, occ st j ≤ 1) ∧
  (∀ a ∈ st.nodesIds, ∀ j ∈ childList st a, occ st j ≤ 1)

instance (st : MState) : Decidable (C1Claimed st) := by
  unfold C1Claimed; infer_instance

/-- The key a `MenuItemProp` marks dirty, if any (`MenuItemType` stores
without marking). -/
def markKeyOf : PropOp → Option String
  | .label _ => some "label"
  | .mtype _ => none
  | .enabled _ => some "enabled"
  | .visible _ => some "visible"
  | .vendor vd pr _ => some (vendorPropName vd pr)

/-- The dirty-key list an `applyProps` batch produces, characterized purely
by the options' keys (independent of the current property values). -/
def markedKeys (ps : List PropOp) : List String :=
  ps.foldl (fun acc p =>
    match markKeyOf p with
    | none => acc
    | some k => markAdd acc k) []

/-- Reachability through `menu.nodes` starting from a list of candidate
child ids: the ids of `ids` that resolve in the node map, and, recursively,
the resolving ids in the children lists of reached nodes. -/
inductive ReachFrom (st : MState) (ids : List Nat) : Nat → Prop where
  | base {k} : k ∈ ids → (nodesLookup st k).isSome → ReachFrom st ids k
  | step {p it k} : ReachFrom st ids p → nodesLookup st p = some it →
      k ∈ it.children → (nodesLookup st k).isSome → ReachFrom st ids k

/-- A node reachable from the root of the menu tree. -/
def ReachRoot (st : MState) (k : Nat) : Prop := ReachFrom st st.rootChildren k

/-! ## Toolkit lemmas about the embedded primitives -/

theorem lookupA_heapUpd (h : List (Nat × MItem)) (i : Nat) (it : MItem) (j : Nat) :
    lookupA (heapUpd h i it) j =
      if j = i then (lookupA h i).map fun _ => it else lookupA h j := by
  induction h with
  | nil => simp [heapUpd, lookupA]
  | cons e rest ih =>
      obtain ⟨k, v⟩ := e
      by_cases hk : k = i
      · subst hk
        by_cases hj : k = j
        · subst hj
          simp [heapUpd, lookupA]
        · have hj' : ¬j = k := fun hc => hj hc.symm
          simp [heapUpd, lookupA, hj, hj', ih]
      · by_cases hj : k = j
        · subst hj
          simp only [heapUpd, hk, if_false, lookupA, if_pos rfl]
          have hj' : ¬k = i := hk
          simp [hj']
        · simp [heapUpd, lookupA, hk, hj, ih]

theorem heapUpd_keys (h : List (Nat × MItem)) (i : Nat) (it : MItem) :
    (heapUpd h i it).map Prod.fst = h.map Prod.fst := by
  induction h with
  | nil => rfl
  | cons e rest ih =>
      obtain ⟨k, v⟩ := e
      by_cases hk : k = i <;> simp [heapUpd, hk, ih]

theorem lookupA_isSome_iff (h : List (Nat × MItem)) (j : Nat) :
    (lookupA h j).isSome ↔ j ∈ h.map Prod.fst := by
  induction h with
  | nil => simp [lookupA]
  | cons e rest ih =>
      obtain ⟨k, v⟩ := e
      by_cases hk : k = j
      · subst hk; simp [lookupA]
      · have hjk : ¬j = k := fun hc => hk hc.symm
        simp [lookupA, hk, hjk, ih]

theorem lookupA_mem (h : List (Nat × MItem)) (j : Nat) (it : MItem)
    (hl : lookupA h j = some it) : (j, it) ∈ h := by
  induction h with
  | nil => simp [lookupA] at hl
  | cons e rest ih =>
      obtain ⟨k, v⟩ := e
      by_cases hk : k = j
      · subst hk
        simp [lookupA] at hl
        simp [hl]
      · simp [lookupA, hk] at hl
        exact List.mem_cons_of_mem _ (ih hl)

theorem plookup_propsInsert_self (l : List (String × PVal)) (k : String) (v : PVal) :
    plookup (propsInsert l k v) k = some v := by
  induction l with
  | nil => simp [propsInsert, plookup]
  | cons e rest ih =>
      by_cases hk : e.1 = k
      · simp [propsInsert, plookup, hk]
      · simp [propsInsert, plookup, hk, ih]

theorem sliceRemove_nil (v : Nat) : sliceRemove [] v = [] := rfl

theorem sliceRemove_cons (a : Nat) (s : List Nat) (v : Nat) :
    sliceRemove (a :: s) v = if a = v then s else a :: sliceRemove s v := by
  by_cases ha : a = v
  · simp [sliceRemove, listIndex, ha, List.eraseIdx]
  · simp only [sliceRemove, listIndex, ha, if_false]
    cases h : listIndex s v with
    | none => simp
    | some i => simp [List.eraseIdx]

theorem count_sliceRemove (s : List Nat) (v j : Nat) :
    (sliceRemove s v).count j = if j = v then s.count j - 1 else s.count j := by
  induction s with
  | nil => simp [sliceRemove_nil]
  | cons a rest ih =>
      rw [sliceRemove_cons]
      by_cases hav : a = v
      · subst hav
        by_cases hj : j = a
        · subst hj; simp [List.count_cons]
        · have haj : ¬a = j := fun hc => hj hc.symm
          simp [List.count_cons, hj, haj]
      · by_cases hj : j = v
        · subst hj
          have haj : ¬a = j := hav
          simp [List.count_cons, hav, haj, ih]
        · simp [List.count_cons, hav, ih, hj]

theorem mem_sliceRemove_sub {s : List Nat} {v j : Nat} (h : j ∈ sliceRemove s v) : j ∈ s := by
  induction s with
  | nil => simp [sliceRemove_nil] at h
  | cons a rest ih =>
      rw [sliceRemove_cons] at h
      by_cases hav : a = v
      · simp only [hav, if_pos rfl] at h
        exact List.mem_cons_of_mem _ h
      · simp only [hav, if_false, List.mem_cons] at h
        rcases h with h | h
        · simp [h]
        · exact List.mem_cons_of_mem _ (ih h)

theorem sliceRemove_of_not_mem {s : List Nat} {v : Nat} (h : v ∉ s) : sliceRemove s v = s := by
  induction s with
  | nil => rfl
  | cons a rest ih =>
      rw [sliceRemove_cons]
      have hav : a ≠ v := fun hav => h (by rw [← hav]; exact List.mem_cons_self a rest)
      have hvr : v ∉ rest := fun hm => h (List.mem_cons_of_mem _ hm)
      simp [hav, ih hvr]

theorem count_listInsertIdx (s : List Nat) (i v j : Nat) :
    (listInsertIdx s i v).count j = s.count j + if j = v then 1 else 0 := by
  unfold listInsertIdx
  rw [List.count_append, List.count_cons]
  conv_rhs => rw [← List.take_append_drop i s, List.count_append]
  by_cases hj : j = v
  · simp [hj]; omega
  · have : v ≠ j := fun h => hj h.symm
    simp [hj, this]

theorem mem_listInsertIdx {s : List Nat} {i v j : Nat} :
    j ∈ listInsertIdx s i v ↔ j = v ∨ j ∈ s := by
  unfold listInsertIdx
  constructor
  · intro h
    rcases List.mem_append.mp h with h | h
    · exact Or.inr (List.mem_of_mem_take h)
    · rcases List.mem_cons.mp h with h | h
      · exact Or.inl h
      · exact Or.inr (List.mem_of_mem_drop h)
  · intro h
    rcases h with h | h
    · exact List.mem_append.mpr (Or.inr (List.mem_cons.mpr (Or.inl h)))
    · rcases List.mem_append.mp ((List.take_append_drop i s).symm ▸ h) with h | h
      · exact List.mem_append.mpr (Or.inl h)
      · exact List.mem_append.mpr (Or.inr (List.mem_cons_of_mem _ h))

theorem listIndex_none_iff (s : List Nat) (v : Nat) : listIndex s v = none ↔ v ∉ s := by
  induction s with
  | nil => simp [listIndex]
  | cons a rest ih =>
      by_cases ha : a = v
      · subst ha; simp [listIndex]
      · have hva : ¬v = a := fun hc => ha hc.symm
        simp [listIndex, ha, hva, ih]

theorem sliceRemove_found {s : List Nat} {v : Nat} {i : Nat}
    (h : listIndex s v = some i) : sliceRemove s v = s.eraseIdx i := by
  simp [sliceRemove, h]

/-! ## Counting occurrences across children sequences -/

theorem childCount_nil (st : MState) (j : Nat) : childCount st [] j = 0 := rfl

theorem childCount_cons (st : MState) (a : Nat) (l : List Nat) (j : Nat) :
    childCount st (a :: l) j = (childList st a).count j + childCount st l j := by
  simp [childCount]

theorem childCount_append (st : MState) (l l' : List Nat) (j : Nat) :
    childCount st (l ++ l') j = childCount st l j + childCount st l' j := by
  simp [childCount]

theorem childCount_congr {st st' : MState} {l : List Nat} (j : Nat)
    (h : ∀ a ∈ l, childList st' a = childList st a) :
    childCount st' l j = childCount st l j := by
  unfold childCount
  congr 1
  exact List.map_congr_left fun a ha => by rw [h a ha]

theorem childCount_perm {st : MState} {l l' : List Nat} (j : Nat) (h : List.Perm l l') :
    childCount st l j = childCount st l' j := by
  unfold childCount
  exact (h.map _).sum_eq

theorem childCount_le_of_sublist {st : MState} {l l' : List Nat} (j : Nat)
    (h : List.Sublist l l') : childCount st l j ≤ childCount st l' j :=
  List.Sublist.sum_le_sum (h.map _) (by simp)

theorem le_childCount_of_mem {st : MState} {l : List Nat} {a j : Nat}
    (ha : a ∈ l) (hj : j ∈ childList st a) : 1 ≤ childCount st l j := by
  have h1 : 1 ≤ (childList st a).count j := List.count_pos_iff.mpr hj
  calc 1 ≤ (childList st a).count j := h1
    _ ≤ childCount st l j :=
      List.single_le_sum (by simp) _ (List.mem_map_of_mem _ ha)

theorem two_le_childCount {st : MState} {l : List Nat} {a b j : Nat}
    (ha : a ∈ l) (hb : b ∈ l) (hab : a ≠ b)
    (hja : j ∈ childList st a) (hjb : j ∈ childList st b) :
    2 ≤ childCount st l j := by
  have hperm : List.Perm l (a :: l.erase a) := List.perm_cons_erase ha
  rw [childCount_perm j hperm, childCount_cons]
  have hb' : b ∈ l.erase a := List.mem_erase_of_ne (fun h => hab h.symm) |>.mpr hb
  have h1 : 1 ≤ (childList st a).count j := List.count_pos_iff.mpr hja
  have h2 : 1 ≤ childCount st (l.erase a) j := le_childCount_of_mem hb' hjb
  omega

theorem childCount_erase_le {st : MState} {l : List Nat} (a j : Nat) :
    childCount st (l.erase a) j ≤ childCount st l j :=
  childCount_le_of_sublist j (List.erase_sublist a l)

theorem childCount_eq_cons_erase {st : MState} {l : List Nat} {a : Nat} (j : Nat)
    (ha : a ∈ l) :
    childCount st l j = (childList st a).count j + childCount st (l.erase a) j := by
  rw [childCount_perm j (List.perm_cons_erase ha), childCount_cons]

/-- A value strictly above every entry of a list does not occur in it. -/
theorem count_eq_zero_of_bound {l : List Nat} {bound x : Nat}
    (hb : ∀ c ∈ l, c ≤ bound) (hx : bound < x) : l.count x = 0 :=
  List.count_eq_zero.mpr fun hm => absurd (hb x hm) (Nat.not_le.mpr hx)

/-! ## The dirty-key set is value-independent -/

theorem applyProps_dirty_general (ps : List PropOp) :
    ∀ (props : List (String × PVal)) (d : List String),
      (ps.foldl applyProp (props, d)).2 =
        ps.foldl (fun acc p =>
          match markKeyOf p with
          | none => acc
          | some k => markAdd acc k) d := by
  induction ps with
  | nil => intro props d; rfl
  | cons p rest ih =>
      intro props d
      cases p <;> simp [List.foldl_cons, applyProp, markKeyOf] <;> exact ih _ _

/-- The dirty-key list of an `applyProps` batch depends only on the options,
never on the values already stored: `mark` runs unconditionally. -/
theorem applyProps_dirty (ps : List PropOp) (props : List (String × PVal)) :
    (applyProps ps props).2 = markedKeys ps :=
  applyProps_dirty_general ps props []

/-! ## Surgery lemmas for the state-update helpers -/

theorem setChildrenSt_zero (st : MState) (c : List Nat) :
    setChildrenSt st 0 c = { st with rootChildren := c } := by
  simp [setChildrenSt]

theorem setChildrenSt_pos {st : MState} {o : Nat} {it : MItem} (c : List Nat)
    (ho : o ≠ 0) (hit : heapLookup st o = some it) :
    setChildrenSt st o c = { st with heap := heapUpd st.heap o (withChildren it c) } := by
  simp [setChildrenSt, ho, hit]

theorem setParentSt_eq {st : MState} {x : Nat} {it : MItem} (p : Nat)
    (hit : heapLookup st x = some it) :
    setParentSt st x p = { st with heap := heapUpd st.heap x ({ it with parent := p }) } := by
  simp [setParentSt, hit]

theorem mem_heapUpd {i : Nat} {it : MItem} {e : Nat × MItem} :
    ∀ {h : List (Nat × MItem)}, e ∈ heapUpd h i it →
      e ∈ h ∨ (e.2 = it ∧ e.1 ∈ h.map Prod.fst) := by
  intro h
  induction h with
  | nil => intro hm; simp [heapUpd] at hm
  | cons f rest ih =>
      obtain ⟨k, v⟩ := f
      intro hm
      by_cases hk : k = i
      · simp only [heapUpd, hk, if_pos, List.mem_cons] at hm
        rcases hm with hm | hm
        · right; subst hm; simp [hk]
        · rcases ih hm with hm2 | ⟨h1, h2⟩
          · exact Or.inl (List.mem_cons_of_mem _ hm2)
          · exact Or.inr ⟨h1, by simp [h2]⟩
      · simp only [heapUpd, hk, if_false, List.mem_cons] at hm
        rcases hm with hm | hm
        · exact Or.inl (by simp [hm])
        · rcases ih hm with hm2 | ⟨h1, h2⟩
          · exact Or.inl (List.mem_cons_of_mem _ hm2)
          · exact Or.inr ⟨h1, by simp [h2]⟩

/-! ## The structural invariant -/

/-- The structural invariant maintained by every operation: the node map's
id list is duplicate-free and every member dereferences; heap keys are
duplicate-free, positive and bounded by the id counter, as is every children
entry anywhere; every node-map member occurs at most once across all
children sequences; and an occurrence's owner is recorded in the member's
parent field (`0` for the root's sequence). -/
structure TreeInv (st : MState) : Prop where
  nodesNodup : st.nodesIds.Nodup
  nodesMem : ∀ i ∈ st.nodesIds, (heapLookup st i).isSome
  keysNodup : (st.heap.map Prod.fst).Nodup
  keysPos : ∀ k ∈ st.heap.map Prod.fst, 1 ≤ k
  keysBound : ∀ k ∈ st.heap.map Prod.fst, k ≤ st.nextId
  rootBound : ∀ c ∈ st.rootChildren, c ≤ st.nextId
  childBound : ∀ e ∈ st.heap, ∀ c ∈ e.2.children, c ≤ st.nextId
  occLe : ∀ j ∈ st.nodesIds, occ st j ≤ 1
  parentRoot : ∀ j ∈ st.rootChildren, j ∈ st.nodesIds → parentOfEq st j 0
  parentChild : ∀ a ∈ st.nodesIds, ∀ j ∈ childList st a, j ∈ st.nodesIds → parentOfEq st j a

theorem heapLookup_key_mem {st : MState} {j : Nat} {it : MItem}
    (h : heapLookup st j = some it) : j ∈ st.heap.map Prod.fst := by
  exact List.mem_map_of_mem Prod.fst (lookupA_mem _ _ _ h)

theorem TreeInv.nodesPos {st : MState} (hI : TreeInv st) : ∀ i ∈ st.nodesIds, 1 ≤ i := by
  intro i hi
  obtain ⟨it, hit⟩ := Option.isSome_iff_exists.mp (hI.nodesMem i hi)
  exact hI.keysPos i (heapLookup_key_mem hit)

theorem TreeInv.nodesBound {st : MState} (hI : TreeInv st) : ∀ i ∈ st.nodesIds, i ≤ st.nextId := by
  intro i hi
  obtain ⟨it, hit⟩ := Option.isSome_iff_exists.mp (hI.nodesMem i hi)
  exact hI.keysBound i (heapLookup_key_mem hit)

theorem TreeInv.zero_not_nodes {st : MState} (hI : TreeInv st) : 0 ∉ st.nodesIds := by
  intro h
  exact absurd (hI.nodesPos 0 h) (by omega)

theorem TreeInv.heapLookup_bound {st : MState} {j : Nat} {it : MItem} (hI : TreeInv st)
    (h : heapLookup st j = some it) : 1 ≤ j ∧ j ≤ st.nextId :=
  ⟨hI.keysPos j (heapLookup_key_mem h), hI.keysBound j (heapLookup_key_mem h)⟩

theorem TreeInv.childList_bound {st : MState} (hI : TreeInv st) (a : Nat) :
    ∀ c ∈ childList st a, c ≤ st.nextId := by
  intro c hc
  unfold childList at hc
  cases hn : nodesLookup st a with
  | none => simp [hn] at hc
  | some it =>
      simp only [hn] at hc
      have hheap : heapLookup st a = some it := by
        unfold nodesLookup at hn
        by_cases hm : a ∈ st.nodesIds
        · simpa [hm] using hn
        · simp [hm] at hn
      exact hI.childBound _ (lookupA_mem _ _ _ hheap) c hc

theorem nodesLookup_heapLookup {st : MState} {a : Nat} {it : MItem}
    (h : nodesLookup st a = some it) : a ∈ st.nodesIds ∧ heapLookup st a = some it := by
  unfold nodesLookup at h
  by_cases hm : a ∈ st.nodesIds
  · exact ⟨hm, by simpa [hm] using h⟩
  · simp [hm] at h

theorem childList_eq {st : MState} {a : Nat} {it : MItem}
    (h : nodesLookup st a = some it) : childList st a = it.children := by
  simp [childList, h]

theorem childList_of_not_nodes {st : MState} {a : Nat} (h : a ∉ st.nodesIds) :
    childList st a = [] := by
  simp [childList, nodesLookup, h]

theorem inv_init : TreeInv initState := by
  constructor <;> simp [initState, occ, childCount, childList, nodesLookup, heapLookup, lookupA]

/-! ## Frame lemmas: reading components of an updated state -/

theorem heapLookup_comp {st st' : MState} {x : Nat} {nit : MItem}
    (hh : st'.heap = heapUpd st.heap x nit) (j : Nat) :
    heapLookup st' j =
      if j = x then (heapLookup st x).map fun _ => nit else heapLookup st j := by
  simp [heapLookup, hh, lookupA_heapUpd]

theorem nodesLookup_comp {st st' : MState} {x : Nat} {nit : MItem}
    (hh : st'.heap = heapUpd st.heap x nit) (hn : st'.nodesIds = st.nodesIds) (j : Nat) :
    nodesLookup st' j =
      if j = x then (nodesLookup st x).map fun _ => nit else nodesLookup st j := by
  unfold nodesLookup
  rw [hn, heapLookup_comp hh]
  by_cases hj : j = x
  · subst hj
    by_cases hm : j ∈ st.nodesIds <;> simp [hm]
  · simp [hj]

theorem childList_comp {st st' : MState} {x : Nat} {nit : MItem}
    (hh : st'.heap = heapUpd st.heap x nit) (hn : st'.nodesIds = st.nodesIds) (a : Nat) :
    childList st' a =
      if a = x then (if (nodesLookup st x).isSome then nit.children else [])
      else childList st a := by
  unfold childList
  rw [nodesLookup_comp hh hn]
  by_cases ha : a = x
  · subst ha
    cases hnl : nodesLookup st a <;> simp [hnl]
  · simp [ha]

theorem parent_map_comp {st st' : MState} {x : Nat} {nit : MItem}
    (hh : st'.heap = heapUpd st.heap x nit) (j : Nat) :
    (heapLookup st' j).map MItem.parent =
      if j = x then (heapLookup st x).map fun _ => nit.parent
      else (heapLookup st j).map MItem.parent := by
  rw [heapLookup_comp hh]
  by_cases hj : j = x
  · subst hj
    cases hl : heapLookup st j <;> simp [hl]
  · simp [hj]

theorem parentOfEq_comp_preserve {st st' : MState} {x : Nat} {xi nit : MItem}
    (hh : st'.heap = heapUpd st.heap x nit)
    (hx : heapLookup st x = some xi) (hp : nit.parent = xi.parent) (j p : Nat) :
    parentOfEq st' j p ↔ parentOfEq st j p := by
  unfold parentOfEq
  rw [parent_map_comp hh]
  by_cases hj : j = x
  · subst hj
    simp [hx, hp]
  · simp [hj]

theorem heapKeys_comp {st st' : MState} {x : Nat} {nit : MItem}
    (hh : st'.heap = heapUpd st.heap x nit) :
    st'.heap.map Prod.fst = st.heap.map Prod.fst := by
  rw [hh, heapUpd_keys]

/-! ## Invariant preservation -/

theorem inv_stepSetProps {st : MState} (hI : TreeInv st) (x : Nat) (ps : List PropOp) :
    TreeInv (stepSetProps st x ps) := by
  cases hx : heapLookup st x with
  | none => simpa [stepSetProps, hx] using hI
  | some xi =>
      set st' := stepSetProps st x ps with hst'
      have hheap : st'.heap = heapUpd st.heap x ({ xi with props := (applyProps ps xi.props).1 }) := by
        simp [hst', stepSetProps, hx]
      have hnodes : st'.nodesIds = st.nodesIds := by simp [hst', stepSetProps, hx]
      have hroot : st'.rootChildren = st.rootChildren := by simp [hst', stepSetProps, hx]
      have hnext : st'.nextId = st.nextId := by simp [hst', stepSetProps, hx]
      have hcl : ∀ a, childList st' a = childList st a := by
        intro a
        rw [childList_comp hheap hnodes]
        by_cases ha : a = x
        · subst ha
          by_cases hm : a ∈ st.nodesIds
        
          · simp [childList, nodesLookup, hm, hx]
          · simp [childList, nodesLookup, hm, hx]
        · simp [ha]
      have hpar : ∀ j p, parentOfEq st' j p ↔ parentOfEq st j p :=
        parentOfEq_comp_preserve hheap hx rfl
      have hocc : ∀ j, occ st' j = occ st j := by
        intro j
        unfold occ
        rw [hroot, hnodes, childCount_congr j (fun a _ => hcl a)]
      constructor
      · rw [hnodes]; exact hI.nodesNodup
      · intro i hi
        rw [heapLookup_comp hheap]
        by_cases hix : i = x
        · simp [hix, hx]
        · simp only [hix, if_false]
          exact hI.nodesMem i (hnodes ▸ hi)
      · rw [heapKeys_comp hheap]; exact hI.keysNodup
      · rw [heapKeys_comp hheap]; exact hI.keysPos
      · rw [heapKeys_comp hheap, hnext]; exact hI.keysBound
      · rw [hroot, hnext]; exact hI.rootBound
      · intro e he c hc
        rw [hnext]
        rw [hheap] at he
        rcases mem_heapUpd he with he | ⟨h2, _⟩
        · exact hI.childBound e he c hc
        · rw [h2] at hc
          exact hI.childBound _ (lookupA_mem _ _ _ hx) c hc
      · intro j hj
        rw [hocc]
        exact hI.occLe j (hnodes ▸ hj)
      · intro j hj hjn
        rw [hpar]
        exact hI.parentRoot j (hroot ▸ hj) (hnodes ▸ hjn)
      · intro a ha j hj hjn
        rw [hpar]
        rw [hcl] at hj
        exact hI.parentChild a (hnodes ▸ ha) j hj (hnodes ▸ hjn)

theorem childCount_eq_zero {st : MState} {l : List Nat} {j : Nat}
    (h : ∀ a ∈ l, j ∉ childList st a) : childCount st l j = 0 := by
  unfold childCount
  apply List.sum_eq_zero
  intro x hx
  rcases List.mem_map.mp hx with ⟨a, ha, rfl⟩
  exact List.count_eq_zero.mpr (h a ha)

theorem inv_stepAddRoot {st : MState} (hI : TreeInv st) (ps : List PropOp) :
    TreeInv (stepAddRoot st ps) := by
  set cid := st.nextId + 1 with hcid
  set nit : MItem := { parent := 0, props := (applyProps ps []).1, children := [] } with hnit
  set st' := stepAddRoot st ps with hst'
  have hheap : st'.heap = (cid, nit) :: st.heap := by simp [hst', stepAddRoot]
  have hnodes : st'.nodesIds = st.nodesIds ++ [cid] := by simp [hst', stepAddRoot]
  have hroot : st'.rootChildren = st.rootChildren ++ [cid] := by simp [hst', stepAddRoot]
  have hnext : st'.nextId = cid := by simp [hst', stepAddRoot]
  have hlk : ∀ j, heapLookup st' j = if cid = j then some nit else heapLookup st j := by
    intro j
    simp [heapLookup, hheap, lookupA]
  have hcid_not_nodes : cid ∉ st.nodesIds := fun hm =>
    absurd (hI.nodesBound cid hm) (by omega)
  have hcid_not_keys : cid ∉ st.heap.map Prod.fst := fun hm =>
    absurd (hI.keysBound cid hm) (by omega)
  have hcid_not_root : cid ∉ st.rootChildren := fun hm =>
    absurd (hI.rootBound cid hm) (by omega)
  have hcl : ∀ a, a ≠ cid → childList st' a = childList st a := by
    intro a ha
    unfold childList nodesLookup
    rw [hnodes, hlk]
    have : (cid = a) = False := by
      simp; exact fun hc => ha hc.symm
    by_cases hm : a ∈ st.nodesIds <;> simp [hm, this, ha]
  have hclcid : childList st' cid = [] := by
    unfold childList nodesLookup
    rw [hnodes, hlk]
    by_cases hm : cid ∈ st.nodesIds ++ [cid] <;> simp [hm, hnit]
  have hmem' : ∀ j, j ∈ st.nodesIds → j ≠ cid := by
    intro j hj hc
    exact hcid_not_nodes (hc ▸ hj)
  have hocc : ∀ j, occ st' j = occ st j + if cid = j then 1 else 0 := by
    intro j
    unfold occ
    rw [hroot, hnodes, List.count_append, childCount_append, childCount_cons, hclcid,
      childCount_nil, childCount_congr j (fun a ha => hcl a (hmem' a ha))]
    simp [List.count_cons]
    omega
  constructor
  · rw [hnodes]
    refine List.Nodup.append hI.nodesNodup (List.nodup_singleton cid) ?_
    intro a ha hb
    rcases List.mem_singleton.mp hb with rfl
    exact hcid_not_nodes ha
  · intro i hi
    rw [hlk]
    rw [hnodes] at hi
    rcases List.mem_append.mp hi with hi | hi
    · have : cid ≠ i := fun hc => hmem' i hi hc.symm
      simp only [this, if_false]
      exact hI.nodesMem i hi
    · rcases List.mem_singleton.mp hi with rfl
      simp
  · rw [hheap]
    simp only [List.map_cons]
    exact List.nodup_cons.mpr ⟨hcid_not_keys, hI.keysNodup⟩
  · rw [hheap]
    intro k hk
    simp only [List.map_cons, List.mem_cons] at hk
    rcases hk with rfl | hk
    · omega
    · exact hI.keysPos k hk
  · rw [hheap, hnext]
    intro k hk
    simp only [List.map_cons, List.mem_cons] at hk
    rcases hk with rfl | hk
    · omega
    · have := hI.keysBound k hk; omega
  · rw [hroot, hnext]
    intro c hc
    rcases List.mem_append.mp hc with hc | hc
    · have := hI.rootBound c hc; omega
    · rcases List.mem_singleton.mp hc with rfl; omega
  · rw [hheap, hnext]
    intro e he c hc
    rcases List.mem_cons.mp he with rfl | he
    · simp [hnit] at hc
    · have := hI.childBound e he c hc; omega
  · intro j hj
    rw [hocc]
    rw [hnodes] at hj
    rcases List.mem_append.mp hj with hj | hj
    · have hne : cid ≠ j := fun hc => hmem' j hj hc.symm
      simp only [hne, if_false]
      have := hI.occLe j hj; omega
    · rcases List.mem_singleton.mp hj with rfl
      have h0 : st.rootChildren.count cid = 0 :=
        count_eq_zero_of_bound hI.rootBound (by omega)
      have h1 : childCount st st.nodesIds cid = 0 := by
        apply childCount_eq_zero
        intro a ha hmem
        exact absurd (hI.childList_bound a cid hmem) (by omega)
      unfold occ
      simp [h0, h1]
  · intro j hj hjn
    rw [hroot] at hj
    rcases List.mem_append.mp hj with hj | hj
    · have hne : j ≠ cid := fun hc => hcid_not_root (hc ▸ hj)
      have hjn' : j ∈ st.nodesIds := by
        rw [hnodes] at hjn
        rcases List.mem_append.mp hjn with h | h
        · exact h
        · exact absurd (List.mem_singleton.mp h) hne
      unfold parentOfEq
      rw [hlk]
      have : cid ≠ j := fun hc => hne hc.symm
      simp only [this, if_false]
      exact hI.parentRoot j hj hjn'
    · rcases List.mem_singleton.mp hj with rfl
      unfold parentOfEq
      rw [hlk]
      simp [hnit]
  · intro a ha j hj hjn
    rw [hnodes] at ha
    rcases List.mem_append.mp ha with ha | ha
    · have hane : a ≠ cid := hmem' a ha
      rw [hcl a hane] at hj
      have hjb : j ≤ st.nextId := hI.childList_bound a j hj
      have hjne : j ≠ cid := by omega
      have hjn' : j ∈ st.nodesIds := by
        rw [hnodes] at hjn
        rcases List.mem_append.mp hjn with h | h
        · exact h
        · exact absurd (List.mem_singleton.mp h) hjne
      unfold parentOfEq
      rw [hlk]
      have : cid ≠ j := fun hc => hjne hc.symm
      simp only [this, if_false]
      exact hI.parentChild a ha j hj hjn'
    · rcases List.mem_singleton.mp ha with rfl
      rw [hclcid] at hj
      simp at hj

theorem inv_stepAddChild {st : MState} (hI : TreeInv st) (x : Nat) (ps : List PropOp) :
    TreeInv (stepAddChild st x ps) := by
  cases hx : heapLookup st x with
  | none => simpa [stepAddChild, hx] using hI
  | some xi =>
      set cid := st.nextId + 1 with hcid
      set nit : MItem := { parent := x, props := (applyProps ps []).1, children := [] } with hnit
      set xi' : MItem :=
        { xi with
          children := xi.children ++ [cid]
          props := propsInsert xi.props "children-display" (.s "submenu") } with hxi'
      obtain ⟨hx1, hxb⟩ := hI.heapLookup_bound hx
      have hxcid : x ≠ cid := by omega
      set st' := stepAddChild st x ps with hst'
      have hheap : st'.heap = heapUpd ((cid, nit) :: st.heap) x xi' := by
        simp [hst', stepAddChild, hx, hxi', hnit]
      have hnodes : st'.nodesIds = st.nodesIds ++ [cid] := by simp [hst', stepAddChild, hx]
      have hroot : st'.rootChildren = st.rootChildren := by simp [hst', stepAddChild, hx]
      have hnext : st'.nextId = cid := by simp [hst', stepAddChild, hx]
      have hlk : ∀ j, heapLookup st' j =
          if j = x then some xi' else if cid = j then some nit else heapLookup st j := by
        intro j
        have hstep : heapLookup st' j = lookupA (heapUpd ((cid, nit) :: st.heap) x xi') j := by
          rw [heapLookup, hheap]
        have hx' : lookupA st.heap x = some xi := hx
        rw [hstep, lookupA_heapUpd]
        by_cases hj : j = x
        · subst hj
          have hcj : ¬cid = j := fun hc => hxcid hc.symm
          simp [lookupA, hcj, hx']
        · simp only [hj, if_false]
          by_cases hcj : cid = j <;> simp [lookupA, heapLookup, hcj]
      have hcid_not_nodes : cid ∉ st.nodesIds := fun hm =>
        absurd (hI.nodesBound cid hm) (by omega)
      have hmem' : ∀ j, j ∈ st.nodesIds → j ≠ cid := fun j hj hc =>
        hcid_not_nodes (hc ▸ hj)
      have hclcid : childList st' cid = [] := by
        unfold childList nodesLookup
        rw [hnodes, hlk]
        have : ¬cid = x := fun hc => hxcid hc.symm
        by_cases hm : cid ∈ st.nodesIds ++ [cid] <;> simp [hm, this, hnit]
      have hclx : childList st' x = if x ∈ st.nodesIds then xi.children ++ [cid] else [] := by
        unfold childList nodesLookup
        rw [hnodes, hlk]
        by_cases hm : x ∈ st.nodesIds
        · simp [hm, hxi']
        · have : x ∉ st.nodesIds ++ [cid] := by
            intro hc
            rcases List.mem_append.mp hc with hc | hc
            · exact hm hc
            · exact hxcid (List.mem_singleton.mp hc)
          simp [hm, this]
      have hcl : ∀ a, a ≠ cid → a ≠ x → childList st' a = childList st a := by
        intro a hac hax
        unfold childList nodesLookup
        rw [hnodes, hlk]
        have h1 : ¬cid = a := fun hc => hac hc.symm
        by_cases hm : a ∈ st.nodesIds <;> simp [hm, hax, h1, hac]
      have hclxst : x ∈ st.nodesIds → childList st x = xi.children := by
        intro hm
        unfold childList nodesLookup
        simp [hm, hx]
      have hocc : ∀ j, occ st' j =
          occ st j + if cid = j ∧ x ∈ st.nodesIds then 1 else 0 := by
        intro j
        unfold occ
        rw [hroot, hnodes, childCount_append, childCount_cons, hclcid, childCount_nil]
        by_cases hm : x ∈ st.nodesIds
        · rw [childCount_eq_cons_erase j hm, @childCount_eq_cons_erase st st.nodesIds x j hm,
            hclx, hclxst hm]
          have hcc : childCount st' (st.nodesIds.erase x) j =
              childCount st (st.nodesIds.erase x) j := by
            apply childCount_congr
            intro a ha
            have hax : a ≠ x := by
              intro hc
              subst hc
              exact (List.Nodup.mem_erase_iff hI.nodesNodup).mp ha |>.1 rfl
            have hac : a ≠ cid := hmem' a (List.mem_of_mem_erase ha)
            exact hcl a hac hax
          rw [hcc]
          have hsing : List.count j [cid] = if cid = j then 1 else 0 := by
            simp [List.count_cons]
          simp only [hm, if_true, and_true, List.count_append]
          rw [hsing]
          by_cases hj : cid = j
          · simp [hj]
            omega
          · simp [hj]
        · have hcc : childCount st' st.nodesIds j = childCount st st.nodesIds j := by
            apply childCount_congr
            intro a ha
            exact hcl a (hmem' a ha) (fun hc => hm (hc ▸ ha))
          rw [hcc]
          simp [hm]
      have hpm : ∀ j, (heapLookup st' j).map MItem.parent =
          if j = x then some xi.parent else if cid = j then some x
          else (heapLookup st j).map MItem.parent := by
        intro j
        rw [hlk]
        by_cases hj : j = x
        · simp [hj, hxi']
        · simp only [hj, if_false]
          by_cases hcj : cid = j <;> simp [hcj, hnit]
      constructor
      · rw [hnodes]
        refine List.Nodup.append hI.nodesNodup (List.nodup_singleton cid) ?_
        intro a ha hb
        rcases List.mem_singleton.mp hb with rfl
        exact hcid_not_nodes ha
      · intro i hi
        rw [hlk]
        rw [hnodes] at hi
        by_cases hix : i = x
        · simp [hix]
        · simp only [hix, if_false]
          rcases List.mem_append.mp hi with hi | hi
          · have : ¬cid = i := fun hc => hmem' i hi hc.symm
            simp only [this, if_false]
            exact hI.nodesMem i hi
          · rcases List.mem_singleton.mp hi with rfl
            simp
      · rw [hheap, heapUpd_keys]
        simp only [List.map_cons]
        have hcid_not_keys : cid ∉ st.heap.map Prod.fst := fun hm =>
          absurd (hI.keysBound cid hm) (by omega)
        exact List.nodup_cons.mpr ⟨hcid_not_keys, hI.keysNodup⟩
      · rw [hheap, heapUpd_keys]
        intro k hk
        simp only [List.map_cons, List.mem_cons] at hk
        rcases hk with rfl | hk
        · omega
        · exact hI.keysPos k hk
      · rw [hheap, heapUpd_keys, hnext]
        intro k hk
        simp only [List.map_cons, List.mem_cons] at hk
        rcases hk with rfl | hk
        · omega
        · have := hI.keysBound k hk; omega
      · rw [hroot, hnext]
        intro c hc
        have := hI.rootBound c hc; omega
      · rw [hheap, hnext]
        intro e he c hc
        rcases mem_heapUpd he with he | ⟨h2, _⟩
        · rcases List.mem_cons.mp he with rfl | he
          · simp [hnit] at hc
          · have := hI.childBound e he c hc; omega
        · rw [h2, hxi'] at hc
          simp only [List.mem_append, List.mem_singleton] at hc
          rcases hc with hc | rfl
          · have := hI.childBound _ (lookupA_mem _ _ _ hx) c hc; omega
          · omega
      · intro j hj
        rw [hocc]
        rw [hnodes] at hj
        rcases List.mem_append.mp hj with hj | hj
        · have hne : ¬(cid = j ∧ x ∈ st.nodesIds) := fun ⟨hc, _⟩ => hmem' j hj hc.symm
          simp only [hne, if_false]
          have := hI.occLe j hj; omega
        · rcases List.mem_singleton.mp hj with rfl
          have h0 : st.rootChildren.count cid = 0 :=
            count_eq_zero_of_bound hI.rootBound (by omega)
          have h1 : childCount st st.nodesIds cid = 0 := by
            apply childCount_eq_zero
            intro a ha hmem
            exact absurd (hI.childList_bound a cid hmem) (by omega)
          have : occ st cid = 0 := by unfold occ; omega
          rw [this]
          by_cases hm : x ∈ st.nodesIds <;> simp [hm]
      · intro j hj hjn
        rw [hroot] at hj
        have hjb : j ≤ st.nextId := hI.rootBound j hj
        have hjne : j ≠ cid := by omega
        have hjn' : j ∈ st.nodesIds := by
          rw [hnodes] at hjn
          rcases List.mem_append.mp hjn with h | h
          · exact h
          · exact absurd (List.mem_singleton.mp h) hjne
        have hold := hI.parentRoot j hj hjn'
        unfold parentOfEq
        rw [hpm]
        by_cases hjx : j = x
        · subst hjx
          have hold2 : xi.parent = 0 := by
            unfold parentOfEq at hold
            rw [hx] at hold
            simpa using hold
          simp [hold2]
        · have : ¬cid = j := fun hc => hjne hc.symm
          simp only [hjx, if_false, this]
          exact hold
      · intro a ha j hj hjn
        rw [hnodes] at ha
        rcases List.mem_append.mp ha with ha | ha
        · by_cases hax : a = x
          · subst hax
            rw [hclx] at hj
            simp only [ha, if_true] at hj
            rcases List.mem_append.mp hj with hj | hj
            · have hjb : j ≤ st.nextId := by
                have hcx := hclxst ha
                exact hI.childList_bound a j (by rw [hcx]; exact hj)
              have hjne : j ≠ cid := by omega
              have hjn' : j ∈ st.nodesIds := by
                rw [hnodes] at hjn
                rcases List.mem_append.mp hjn with h | h
                · exact h
                · exact absurd (List.mem_singleton.mp h) hjne
              have hold := hI.parentChild a ha j (by rw [hclxst ha]; exact hj) hjn'
              unfold parentOfEq
              rw [hpm]
              by_cases hja : j = a
              · subst hja
                have hold2 : xi.parent = j := by
                  unfold parentOfEq at hold
                  rw [hx] at hold
                  simpa using hold
                simp [hold2]
              · have : ¬cid = j := fun hc => hjne hc.symm
                simp only [hja, if_false, this]
                exact hold
            · rcases List.mem_singleton.mp hj with rfl
              unfold parentOfEq
              rw [hpm]
              have hcx : ¬cid = a := fun hc => hxcid hc.symm
              simp [hxcid, hcx]
          · have hane : a ≠ cid := hmem' a ha
            rw [hcl a hane hax] at hj
            have hjb : j ≤ st.nextId := hI.childList_bound a j hj
            have hjne : j ≠ cid := by omega
            have hjn' : j ∈ st.nodesIds := by
              rw [hnodes] at hjn
              rcases List.mem_append.mp hjn with h | h
              · exact h
              · exact absurd (List.mem_singleton.mp h) hjne
            have hold := hI.parentChild a ha j hj hjn'
            unfold parentOfEq
            rw [hpm]
            by_cases hjx : j = x
            · subst hjx
              have hold2 : xi.parent = a := by
                unfold parentOfEq at hold
                rw [hx] at hold
                simpa using hold
              simp [hold2]
            · have : ¬cid = j := fun hc => hjne hc.symm
              simp only [hjx, if_false, this]
              exact hold
        · rcases List.mem_singleton.mp ha with rfl
          rw [hclcid] at hj
          simp at hj

theorem childCount_mono {st st' : MState} {l : List Nat} (j : Nat)
    (h : ∀ a ∈ l, (childList st' a).count j ≤ (childList st a).count j) :
    childCount st' l j ≤ childCount st l j := by
  unfold childCount
  apply List.sum_le_sum
  intro a ha
  exact h a ha

theorem getParentRef_cases {st : MState} {it : MItem} {pown : Nat}
    (h : getParentRef st it = some pown) :
    (pown = 0 ∧ it.parent = 0) ∨
      (pown = it.parent ∧ pown ≠ 0 ∧ (nodesLookup st it.parent).isSome) := by
  unfold getParentRef at h
  by_cases h0 : it.parent = 0
  · simp [h0] at h
    exact Or.inl ⟨h.symm, h0⟩
  · simp only [h0, if_false] at h
    by_cases hs : (nodesLookup st it.parent).isSome
    · simp [hs] at h
      exact Or.inr ⟨h.symm, by rw [h] at h0; exact h0, hs⟩
    · simp [hs] at h

theorem childrenOf_zero (st : MState) : childrenOf st 0 = st.rootChildren := rfl

theorem childrenOf_pos {st : MState} {p : Nat} {pi : MItem} (hp : p ≠ 0)
    (h : heapLookup st p = some pi) : childrenOf st p = pi.children := by
  simp [childrenOf, hp, h]

theorem inv_stepRemove {st : MState} (hI : TreeInv st) (x : Nat) :
    TreeInv (stepRemove st x) := by
  cases hx : heapLookup st x with
  | none => simpa [stepRemove, hx] using hI
  | some xi =>
      cases hpr : getParentRef st xi with
      | none => simpa [stepRemove, hx, hpr] using hI
      | some pown =>
          set st' := stepRemove st x with hst'
          rcases getParentRef_cases hpr with ⟨rfl, hpz⟩ | ⟨hpe, hpnz, hps⟩
          · -- the parent is the menu root
            have hheap : st'.heap = st.heap := by
              simp [hst', stepRemove, hx, hpr, setChildrenSt_zero]
            have hnodes : st'.nodesIds = st.nodesIds.erase x := by
              simp [hst', stepRemove, hx, hpr, setChildrenSt_zero]
            have hroot : st'.rootChildren = sliceRemove st.rootChildren x := by
              simp [hst', stepRemove, hx, hpr, setChildrenSt_zero, childrenOf_zero]
            have hnext : st'.nextId = st.nextId := by
              simp [hst', stepRemove, hx, hpr, setChildrenSt_zero]
            have hlk : ∀ j, heapLookup st' j = heapLookup st j := by
              intro j; rw [heapLookup, hheap]; rfl
            have hcl : ∀ a ∈ st.nodesIds.erase x, childList st' a = childList st a := by
              intro a ha
              unfold childList nodesLookup
              rw [hnodes, hlk]
              simp [ha, List.mem_of_mem_erase ha]
            have hpar : ∀ j q, parentOfEq st' j q ↔ parentOfEq st j q := by
              intro j q
              unfold parentOfEq
              rw [hlk]
            constructor
            · rw [hnodes]; exact hI.nodesNodup.erase x
            · intro i hi
              rw [hlk]
              exact hI.nodesMem i (List.mem_of_mem_erase (hnodes ▸ hi))
            · rw [hheap]; exact hI.keysNodup
            · rw [hheap]; exact hI.keysPos
            · rw [hheap, hnext]; exact hI.keysBound
            · rw [hroot, hnext]
              intro c hc
              exact hI.rootBound c (mem_sliceRemove_sub hc)
            · rw [hheap, hnext]; exact hI.childBound
            · intro j hj
              rw [hnodes] at hj
              have hjn : j ∈ st.nodesIds := List.mem_of_mem_erase hj
              have h1 : (sliceRemove st.rootChildren x).count j ≤ st.rootChildren.count j := by
                rw [count_sliceRemove]
                by_cases hjx : j = x <;> simp [hjx]
              have h2 : childCount st' (st.nodesIds.erase x) j ≤
                  childCount st st.nodesIds j := by
                calc childCount st' (st.nodesIds.erase x) j
                    = childCount st (st.nodesIds.erase x) j := by
                      exact childCount_congr j hcl
                  _ ≤ childCount st st.nodesIds j := childCount_erase_le x j
              have := hI.occLe j hjn
              unfold occ at this ⊢
              rw [hroot, hnodes]
              omega
            · intro j hj hjn
              rw [hroot] at hj
              rw [hnodes] at hjn
              rw [hpar]
              exact hI.parentRoot j (mem_sliceRemove_sub hj) (List.mem_of_mem_erase hjn)
            · intro a ha j hj hjn
              rw [hnodes] at ha hjn
              rw [hcl a ha] at hj
              rw [hpar]
              exact hI.parentChild a (List.mem_of_mem_erase ha) j hj (List.mem_of_mem_erase hjn)
          · -- the parent is another item, still present in the node map
            obtain ⟨pi, hpi⟩ := Option.isSome_iff_exists.mp hps
            have hpi2 : nodesLookup st pown = some pi := by rw [hpe]; exact hpi
            obtain ⟨hpmem, hpheap⟩ := nodesLookup_heapLookup hpi2
            set newc := sliceRemove pi.children x with hnewc
            set nit := withChildren pi newc with hnit
            have hchOf : childrenOf st pown = pi.children := childrenOf_pos hpnz hpheap
            have hsetch : setChildrenSt st pown (sliceRemove (childrenOf st pown) x) =
                { st with heap := heapUpd st.heap pown nit } := by
              rw [hchOf, ← hnewc, hnit]
              exact setChildrenSt_pos newc hpnz hpheap
            have hheap : st'.heap = heapUpd st.heap pown nit := by
              simp [hst', stepRemove, hx, hpr, hsetch]
            have hnodes : st'.nodesIds = st.nodesIds.erase x := by
              simp [hst', stepRemove, hx, hpr, hsetch]
            have hroot : st'.rootChildren = st.rootChildren := by
              simp [hst', stepRemove, hx, hpr, hsetch]
            have hnext : st'.nextId = st.nextId := by
              simp [hst', stepRemove, hx, hpr, hsetch]
            have hnitch : nit.children = newc := by rw [hnit]; rfl
            have hnitpar : nit.parent = pi.parent := by rw [hnit]; rfl
            have hpar : ∀ j q, parentOfEq st' j q ↔ parentOfEq st j q :=
              parentOfEq_comp_preserve hheap hpheap hnitpar
            have hclst : childList st pown = pi.children := by
              unfold childList
              rw [hpi2]
            have hcl : ∀ a, a ∈ st.nodesIds.erase x → a ≠ pown →
                childList st' a = childList st a := by
              intro a ha hap
              unfold childList nodesLookup
              rw [hnodes, heapLookup_comp hheap]
              simp [ha, List.mem_of_mem_erase ha, hap]
            have hclp : pown ∈ st.nodesIds.erase x →
                childList st' pown = newc := by
              intro hmem
              unfold childList nodesLookup
              rw [hnodes, heapLookup_comp hheap]
              simp [hmem, hpheap, hnitch]
            constructor
            · rw [hnodes]; exact hI.nodesNodup.erase x
            · intro i hi
              rw [heapLookup_comp hheap]
              by_cases hip : i = pown
              · simp [hip, hpheap]
              · simp only [hip, if_false]
                exact hI.nodesMem i (List.mem_of_mem_erase (hnodes ▸ hi))
            · rw [heapKeys_comp hheap]; exact hI.keysNodup
            · rw [heapKeys_comp hheap]; exact hI.keysPos
            · rw [heapKeys_comp hheap, hnext]; exact hI.keysBound
            · rw [hroot, hnext]; exact hI.rootBound
            · rw [hheap, hnext]
              intro e he c hc
              rcases mem_heapUpd he with he | ⟨h2, _⟩
              · exact hI.childBound e he c hc
              · rw [h2, hnit] at hc
                simp only [withChildren] at hc
                exact hI.childBound _ (lookupA_mem _ _ _ hpheap) c
                  (mem_sliceRemove_sub hc)
            · intro j hj
              rw [hnodes] at hj
              have hjn : j ∈ st.nodesIds := List.mem_of_mem_erase hj
              have h2 : childCount st' (st.nodesIds.erase x) j ≤
                  childCount st st.nodesIds j := by
                calc childCount st' (st.nodesIds.erase x) j
                    ≤ childCount st (st.nodesIds.erase x) j := by
                      apply childCount_mono
                      intro a ha
                      by_cases hap : a = pown
                      · subst hap
                        rw [hclp ha, hnewc, count_sliceRemove, hclst]
                        by_cases hjx : j = x <;> simp [hjx]
                      · rw [hcl a ha hap]
                  _ ≤ childCount st st.nodesIds j := childCount_erase_le x j
              have := hI.occLe j hjn
              unfold occ at this ⊢
              rw [hroot, hnodes]
              omega
            · intro j hj hjn
              rw [hroot] at hj
              rw [hnodes] at hjn
              rw [hpar]
              exact hI.parentRoot j hj (List.mem_of_mem_erase hjn)
            · intro a ha j hj hjn
              rw [hnodes] at ha hjn
              rw [hpar]
              by_cases hap : a = pown
              · subst hap
                rw [hclp ha, hnewc] at hj
                have hj2 : j ∈ pi.children := mem_sliceRemove_sub hj
                exact hI.parentChild a (List.mem_of_mem_erase ha) j (by rw [hclst]; exact hj2)
                  (List.mem_of_mem_erase hjn)
              · rw [hcl a ha hap] at hj
                exact hI.parentChild a (List.mem_of_mem_erase ha) j hj
                  (List.mem_of_mem_erase hjn)

/-! ## Locating the unique occurrence of a node-map member -/

theorem childCount_pos_exists {st : MState} {l : List Nat} {x : Nat}
    (h : 1 ≤ childCount st l x) : ∃ a ∈ l, x ∈ childList st a := by
  induction l with
  | nil => simp [childCount_nil] at h
  | cons a rest ih =>
      rw [childCount_cons] at h
      by_cases hm : x ∈ childList st a
      · exact ⟨a, List.mem_cons_self a rest, hm⟩
      · have h0 : (childList st a).count x = 0 := List.count_eq_zero.mpr hm
        rw [h0] at h
        simp only [Nat.zero_add] at h
        obtain ⟨b, hb, hbm⟩ := ih h
        exact ⟨b, List.mem_cons_of_mem _ hb, hbm⟩

theorem parentOfEq_parent {st : MState} {x : Nat} {xi : MItem} {p : Nat}
    (hx : heapLookup st x = some xi) (h : parentOfEq st x p) : xi.parent = p := by
  unfold parentOfEq at h
  rw [hx] at h
  simpa using h

theorem getParentRef_det {st : MState} {x : Nat} {xi : MItem} {o p : Nat}
    (hI : TreeInv st) (hx : heapLookup st x = some xi)
    (ho : getParentRef st xi = some o) (hp : parentOfEq st x p)
    (hpok : p = 0 ∨ p ∈ st.nodesIds) : o = p := by
  have hpar : xi.parent = p := parentOfEq_parent hx hp
  unfold getParentRef at ho
  rcases hpok with rfl | hpm
  · simp [hpar] at ho
    exact ho.symm
  · have hpz : p ≠ 0 := by
      have := hI.nodesPos p hpm
      omega
    have hps : (nodesLookup st p).isSome := by
      unfold nodesLookup
      simp [hpm, hI.nodesMem p hpm]
    rw [hpar] at ho
    simp [hpz, hps] at ho
    exact ho.symm

theorem not_mem_other_list {st : MState} {x : Nat} {xi : MItem} {o a : Nat}
    (hI : TreeInv st) (hx : heapLookup st x = some xi) (hxn : x ∈ st.nodesIds)
    (ho : getParentRef st xi = some o) (ha : a ∈ st.nodesIds) (hao : a ≠ o) :
    x ∉ childList st a := by
  intro hmem
  have hp := hI.parentChild a ha x hmem hxn
  have : o = a := getParentRef_det hI hx ho hp (Or.inr ha)
  exact hao this.symm

theorem not_mem_root_of_src_pos {st : MState} {x : Nat} {xi : MItem} {o : Nat}
    (hI : TreeInv st) (hx : heapLookup st x = some xi) (hxn : x ∈ st.nodesIds)
    (ho : getParentRef st xi = some o) (hoz : o ≠ 0) : x ∉ st.rootChildren := by
  intro hmem
  have hp := hI.parentRoot x hmem hxn
  exact hoz (getParentRef_det hI hx ho hp (Or.inl rfl))

/-- A node-map member with at least one occurrence is in its `getParent`'s
children order. -/
theorem occ_locate {st : MState} {x : Nat} {xi : MItem} {o : Nat}
    (hI : TreeInv st) (hx : heapLookup st x = some xi) (hxn : x ∈ st.nodesIds)
    (ho : getParentRef st xi = some o) (hocc : 1 ≤ occ st x) :
    x ∈ childrenOf st o := by
  unfold occ at hocc
  by_cases hr : x ∈ st.rootChildren
  · have hp := hI.parentRoot x hr hxn
    have hoz : o = 0 := getParentRef_det hI hx ho hp (Or.inl rfl)
    rw [hoz, childrenOf_zero]
    exact hr
  · have h0 : st.rootChildren.count x = 0 := List.count_eq_zero.mpr hr
    rw [h0] at hocc
    simp only [Nat.zero_add] at hocc
    obtain ⟨a, ham, hmem⟩ := childCount_pos_exists hocc
    have hp := hI.parentChild a ham x hmem hxn
    have hoa : o = a := getParentRef_det hI hx ho hp (Or.inr ham)
    subst hoa
    have hoz : o ≠ 0 := by
      have := hI.nodesPos o ham
      omega
    obtain ⟨oi, hoi⟩ := Option.isSome_iff_exists.mp (hI.nodesMem o ham)
    rw [childrenOf_pos hoz hoi]
    rw [childList] at hmem
    unfold nodesLookup at hmem
    simpa [ham, hoi] using hmem

/-! ## Count and membership facts for the same-parent move list -/

theorem moveSameList_count (dc : List Nat) (x i : Nat) (hx1 : 1 ≤ x) (j' : Nat) :
    (moveSameList dc x i).count j' =
      if j' = x then dc.count x
        + (if x ∈ dc then 0 else 1)
      else dc.count j' + (if j' = 0 ∧ x ∈ dc then 1 else 0) := by
  unfold moveSameList
  cases hidx : listIndex dc x with
  | none =>
      have hxm : x ∉ dc := (listIndex_none_iff dc x).mp hidx
      rw [count_listInsertIdx]
      by_cases hj : j' = x
      · subst hj
        have h0 : dc.count j' = 0 := List.count_eq_zero.mpr hxm
        simp [hxm, h0]
      · simp [hj, hxm]
  | some jx =>
      have hxm : x ∈ dc := by
        by_contra hc
        rw [(listIndex_none_iff dc x).mpr hc] at hidx
        exact Option.noConfusion hidx
      have herase : dc.eraseIdx jx = sliceRemove dc x := (sliceRemove_found hidx).symm
      rw [count_listInsertIdx, List.count_append, herase, count_sliceRemove]
      by_cases hj : j' = x
      · subst hj
        have hxz : ¬j' = 0 := by omega
        have hcnt : 1 ≤ dc.count j' := List.count_pos_iff.mpr hxm
        simp [hxm, hxz, List.count_cons]
      · by_cases hj0 : j' = 0
        · subst hj0
          simp [hj, hxm, List.count_cons]
        · have : ¬(0 : Nat) = j' := fun hc => hj0 hc.symm
          simp [hj, hj0, hxm, List.count_cons, this]

theorem moveSameList_mem {dc : List Nat} {x i j' : Nat}
    (h : j' ∈ moveSameList dc x i) : j' = x ∨ j' = 0 ∨ j' ∈ dc := by
  unfold moveSameList at h
  rcases mem_listInsertIdx.mp h with h | h
  · exact Or.inl h
  · cases hidx : listIndex dc x with
    | none =>
        rw [hidx] at h
        exact Or.inr (Or.inr h)
    | some jx =>
        rw [hidx] at h
        rcases List.mem_append.mp h with h | h
        · exact Or.inr (Or.inr ((List.eraseIdx_sublist dc jx).mem h))
        · exact Or.inr (Or.inl (List.mem_singleton.mp h))

/-- The invariant only inspects the counter, heap, node-id list and root
order; revision and event-trace updates preserve it. -/
theorem TreeInv_of_fields {st st' : MState} (hI : TreeInv st)
    (hh : st'.heap = st.heap) (hn : st'.nodesIds = st.nodesIds)
    (hr : st'.rootChildren = st.rootChildren) (hx : st'.nextId = st.nextId) :
    TreeInv st' := by
  have hlk : ∀ j, heapLookup st' j = heapLookup st j := by
    intro j; rw [heapLookup, hh]; rfl
  have hcl : ∀ a, childList st' a = childList st a := by
    intro a
    unfold childList nodesLookup
    rw [hn, hlk]
  have hpar : ∀ j q, parentOfEq st' j q ↔ parentOfEq st j q := by
    intro j q; unfold parentOfEq; rw [hlk]
  have hocc : ∀ j, occ st' j = occ st j := by
    intro j
    unfold occ
    rw [hr, hn, childCount_congr j (fun a _ => hcl a)]
  constructor
  · rw [hn]; exact hI.nodesNodup
  · intro i hi; rw [hlk]; exact hI.nodesMem i (hn ▸ hi)
  · rw [hh]; exact hI.keysNodup
  · rw [hh]; exact hI.keysPos
  · rw [hh, hx]; exact hI.keysBound
  · rw [hr, hx]; exact hI.rootBound
  · rw [hh, hx]; exact hI.childBound
  · intro j hj; rw [hocc]; exact hI.occLe j (hn ▸ hj)
  · intro j hj hjn
    rw [hpar]
    exact hI.parentRoot j (hr ▸ hj) (hn ▸ hjn)
  · intro a ha j hj hjn
    rw [hpar]
    rw [hcl] at hj
    exact hI.parentChild a (hn ▸ ha) j hj (hn ▸ hjn)

theorem count_le_childCount {st : MState} {l : List Nat} {a : Nat} (j : Nat)
    (ha : a ∈ l) : (childList st a).count j ≤ childCount st l j :=
  List.single_le_sum (by simp) _ (List.mem_map_of_mem _ ha)

theorem count_le_occ_root {st : MState} (j : Nat) :
    st.rootChildren.count j ≤ occ st j := by
  unfold occ; omega

theorem count_le_occ_child {st : MState} {a : Nat} (j : Nat) (ha : a ∈ st.nodesIds) :
    (childList st a).count j ≤ occ st j := by
  have := @count_le_childCount st st.nodesIds a j ha
  unfold occ
  omega

theorem childList_eq_of_map {st : MState} (b : Nat) :
    childList st b =
      if b ∈ st.nodesIds then ((heapLookup st b).map MItem.children).getD [] else [] := by
  unfold childList nodesLookup
  by_cases hbm : b ∈ st.nodesIds
  · cases h : heapLookup st b <;> simp [hbm, h]
  · simp [hbm]

/-- A same-parent `MoveBefore` body (list rewrite at the shared parent, then
the parent-field update) preserves the structural invariant. -/
theorem inv_move_same {st : MState} (hI : TreeInv st) {x dstO : Nat} {xi : MItem}
    (hx : heapLookup st x = some xi) (hsrc : getParentRef st xi = some dstO) (i : Nat) :
    TreeInv (setParentSt (setChildrenSt st dstO
      (moveSameList (childrenOf st dstO) x i)) x dstO) := by
  obtain ⟨hx1, hxb⟩ := hI.heapLookup_bound hx
  rcases getParentRef_cases hsrc with ⟨hdz, hpz⟩ | ⟨hpe, hpnz, hps⟩
  · -- the shared parent is the menu root
    subst hdz
    set L := moveSameList (childrenOf st 0) x i with hL
    set nitx : MItem := { xi with parent := 0 } with hnitx
    have hdc : childrenOf st 0 = st.rootChildren := childrenOf_zero st
    have hlk1 : heapLookup { st with rootChildren := L } x = some xi := hx
    set st' := setParentSt (setChildrenSt st 0 L) x 0 with hst'
    have hst2 : st' = { st with rootChildren := L, heap := heapUpd st.heap x nitx } := by
      rw [hst', setChildrenSt_zero, setParentSt_eq 0 hlk1]
    have hheap : st'.heap = heapUpd st.heap x nitx := by rw [hst2]
    have hnodes : st'.nodesIds = st.nodesIds := by rw [hst2]
    have hroot : st'.rootChildren = L := by rw [hst2]
    have hnext : st'.nextId = st.nextId := by rw [hst2]
    have hcl : ∀ a, childList st' a = childList st a := by
      intro a
      rw [childList_comp hheap hnodes]
      by_cases ha : a = x
      · subst ha
        unfold childList
        cases hnl : nodesLookup st a with
        | none => simp [hnl]
        | some u =>
            obtain ⟨ham, hah⟩ := nodesLookup_heapLookup hnl
            rw [hah] at hx
            cases hx
            simp [hnl, hnitx]
      · simp [ha]
    have hpmx : (heapLookup st' x).map MItem.parent = some 0 := by
      rw [parent_map_comp hheap]
      simp [hx, hnitx]
    have hpm : ∀ j, j ≠ x → (heapLookup st' j).map MItem.parent =
        (heapLookup st j).map MItem.parent := by
      intro j hj
      rw [parent_map_comp hheap]
      simp [hj]
    have hocc : ∀ j, occ st' j = L.count j + childCount st st.nodesIds j := by
      intro j
      unfold occ
      rw [hroot, hnodes, childCount_congr j (fun a _ => hcl a)]
    have hcount := moveSameList_count (childrenOf st 0) x i hx1
    constructor
    · rw [hnodes]; exact hI.nodesNodup
    · intro j hj
      rw [heapLookup_comp hheap]
      by_cases hjx : j = x
      · simp [hjx, hx]
      · simp only [hjx, if_false]
        exact hI.nodesMem j (hnodes ▸ hj)
    · rw [heapKeys_comp hheap]; exact hI.keysNodup
    · rw [heapKeys_comp hheap]; exact hI.keysPos
    · rw [heapKeys_comp hheap, hnext]; exact hI.keysBound
    · rw [hroot, hnext]
      intro c hc
      rw [hL] at hc
      rcases moveSameList_mem hc with rfl | rfl | hc
      · exact hxb
      · omega
      · rw [hdc] at hc
        exact hI.rootBound c hc
    · rw [hheap, hnext]
      intro e he c hc
      rcases mem_heapUpd he with he | ⟨h2, _⟩
      · exact hI.childBound e he c hc
      · rw [h2, hnitx] at hc
        exact hI.childBound _ (lookupA_mem _ _ _ hx) c hc
    · intro j hj
      rw [hocc, hL, hcount, hdc]
      have hjn : j ∈ st.nodesIds := hnodes ▸ hj
      by_cases hjx : j = x
      · subst hjx
        by_cases hmem : j ∈ st.rootChildren
        · have := hI.occLe j hjn
          unfold occ at this
          simp [hmem]
          omega
        · have hocc0 : occ st j = 0 := by
            by_contra hc
            have h1 : 1 ≤ occ st j := by omega
            have := occ_locate hI hx hjn hsrc h1
            rw [hdc] at this
            exact hmem this
          unfold occ at hocc0
          have h0 : st.rootChildren.count j = 0 := List.count_eq_zero.mpr hmem
          simp [hmem, h0]
          omega
      · have hj1 : 1 ≤ j := hI.nodesPos j hjn
        have hj0 : ¬(j = 0 ∧ x ∈ st.rootChildren) := fun hcon => by omega
        simp only [hjx, if_false, hj0]
        have := hI.occLe j hjn
        unfold occ at this
        omega
    · intro j hj hjn
      rw [hroot, hL] at hj
      by_cases hjx : j = x
      · subst hjx
        unfold parentOfEq
        exact hpmx
      · rcases moveSameList_mem hj with hc | hc | hc
        · exact absurd hc hjx
        · have := hI.nodesPos j (hnodes ▸ hjn)
          omega
        · unfold parentOfEq
          rw [hpm j hjx]
          rw [hdc] at hc
          exact hI.parentRoot j hc (hnodes ▸ hjn)
    · intro a ha j hj hjn
      rw [hcl] at hj
      have han : a ∈ st.nodesIds := hnodes ▸ ha
      have hjn' : j ∈ st.nodesIds := hnodes ▸ hjn
      by_cases hjx : j = x
      · subst hjx
        have haz : a ≠ 0 := by
          have := hI.nodesPos a han
          omega
        exact absurd hj (not_mem_other_list hI hx hjn' hsrc han haz)
      · unfold parentOfEq
        rw [hpm j hjx]
        exact hI.parentChild a han j hj hjn'
  · -- the shared parent is an item, present in the node map
    obtain ⟨pi, hpi0⟩ := Option.isSome_iff_exists.mp hps
    have hpi : nodesLookup st dstO = some pi := by rw [hpe]; exact hpi0
    obtain ⟨hpmem, hpheap⟩ := nodesLookup_heapLookup hpi
    set L := moveSameList (childrenOf st dstO) x i with hL
    have hdc : childrenOf st dstO = pi.children := childrenOf_pos hpnz hpheap
    have hcld : childList st dstO = pi.children := by
      unfold childList
      rw [hpi]
    have hst1c : setChildrenSt st dstO L =
        { st with heap := heapUpd st.heap dstO (withChildren pi L) } :=
      setChildrenSt_pos L hpnz hpheap
    have h1heap : (setChildrenSt st dstO L).heap = heapUpd st.heap dstO (withChildren pi L) := by
      rw [hst1c]
    have hlkS : ∀ j, heapLookup (setChildrenSt st dstO L) j =
        if j = dstO then some (withChildren pi L) else heapLookup st j := by
      intro j
      rw [heapLookup_comp h1heap]
      by_cases hj : j = dstO
      · simp [hj, hpheap]
      · simp [hj]
    set xi1 : MItem := if x = dstO then withChildren pi L else xi with hxi1
    have hlk1 : heapLookup (setChildrenSt st dstO L) x = some xi1 := by
      rw [hlkS x, hxi1]
      by_cases hxd : x = dstO <;> simp [hxd, hx]
    set nitx : MItem := { xi1 with parent := dstO } with hnitx
    set st' := setParentSt (setChildrenSt st dstO L) x dstO with hst'
    have hst2 : st' = { setChildrenSt st dstO L with
        heap := heapUpd (setChildrenSt st dstO L).heap x nitx } := by
      rw [hst', setParentSt_eq dstO hlk1]
    have hheapmid : st'.heap = heapUpd (setChildrenSt st dstO L).heap x nitx := by
      rw [hst2]
    have hnodes : st'.nodesIds = st.nodesIds := by rw [hst2, hst1c]
    have hroot : st'.rootChildren = st.rootChildren := by rw [hst2, hst1c]
    have hnext : st'.nextId = st.nextId := by rw [hst2, hst1c]
    have hlk2 : ∀ j, heapLookup st' j =
        if j = x then some nitx
        else if j = dstO then some (withChildren pi L) else heapLookup st j := by
      intro j
      rw [heapLookup_comp hheapmid]
      by_cases hj : j = x
      · simp [hj, hlk1]
      · simp only [hj, if_false]
        exact hlkS j
    have hch2 : xi1.children = if x = dstO then L else xi.children := by
      rw [hxi1]
      by_cases hxd : x = dstO <;> simp [hxd, withChildren]
    have hchl : ∀ j, (heapLookup st' j).map MItem.children =
        if j = dstO then some L else (heapLookup st j).map MItem.children := by
      intro j
      rw [hlk2]
      by_cases hjx : j = x
      · by_cases hjd : j = dstO
        · have hxd : x = dstO := by rw [← hjx, hjd]
          simp [hjx, hjd, hnitx, hch2, hxd]
        · have hxd : ¬x = dstO := by rw [← hjx]; exact hjd
          simp [hjx, hjd, hnitx, hch2, hxd, hx]
      · by_cases hjd : j = dstO
        · have hdx : ¬dstO = x := by intro h; exact hjx (by rw [hjd, h])
          simp [hjx, hjd, hdx, withChildren]
        · simp [hjx, hjd]
    have hcl2 : ∀ b, childList st' b = if b = dstO then L else childList st b := by
      intro b
      rw [childList_eq_of_map, @childList_eq_of_map st b, hnodes, hchl]
      by_cases hbd : b = dstO
      · simp [hbd, hpmem]
      · simp [hbd]
    have hpmx : (heapLookup st' x).map MItem.parent = some dstO := by
      rw [hlk2 x]
      simp [hnitx]
    have hpm : ∀ j, j ≠ x → (heapLookup st' j).map MItem.parent =
        (heapLookup st j).map MItem.parent := by
      intro j hj
      rw [hlk2 j]
      by_cases hjd : j = dstO
      · subst hjd
        simp [hj, withChildren, hpheap]
      · simp [hj, hjd]
    have hoccD : ∀ j, occ st' j =
        st.rootChildren.count j + (L.count j + childCount st (st.nodesIds.erase dstO) j) := by
      intro j
      unfold occ
      rw [hroot, hnodes, childCount_eq_cons_erase j hpmem, hcl2]
      simp only [if_pos rfl]
      congr 1
      congr 1
      apply childCount_congr
      intro a ha
      have had : a ≠ dstO := by
        intro hc
        subst hc
        exact (List.Nodup.mem_erase_iff hI.nodesNodup).mp ha |>.1 rfl
      rw [hcl2 a]
      simp [had]
    have hoccS : ∀ j, occ st j =
        st.rootChildren.count j + (pi.children.count j + childCount st (st.nodesIds.erase dstO) j) := by
      intro j
      unfold occ
      rw [childCount_eq_cons_erase j hpmem, hcld]
    have hcount := moveSameList_count (childrenOf st dstO) x i hx1
    constructor
    · rw [hnodes]; exact hI.nodesNodup
    · intro j hj
      rw [hlk2]
      by_cases hjx : j = x
      · simp [hjx]
      · simp only [hjx, if_false]
        by_cases hjd : j = dstO
        · simp [hjd]
        · simp only [hjd, if_false]
          exact hI.nodesMem j (hnodes ▸ hj)
    · rw [hheapmid, heapUpd_keys, h1heap, heapUpd_keys]; exact hI.keysNodup
    · rw [hheapmid, heapUpd_keys, h1heap, heapUpd_keys]; exact hI.keysPos
    · rw [hheapmid, heapUpd_keys, h1heap, heapUpd_keys, hnext]; exact hI.keysBound
    · rw [hroot, hnext]; exact hI.rootBound
    · rw [hheapmid, hnext]
      intro e he c hc
      have hLbound : ∀ c ∈ L, c ≤ st.nextId := by
        intro c2 hc2
        rw [hL] at hc2
        rcases moveSameList_mem hc2 with rfl | rfl | hc2
        · exact hxb
        · omega
        · rw [hdc] at hc2
          exact hI.childBound _ (lookupA_mem _ _ _ hpheap) c2 hc2
      rcases mem_heapUpd he with he | ⟨h2, _⟩
      · rw [h1heap] at he
        rcases mem_heapUpd he with he | ⟨h2, _⟩
        · exact hI.childBound e he c hc
        · rw [h2] at hc
          simp only [withChildren] at hc
          exact hLbound c hc
      · rw [h2, hnitx] at hc
        simp only at hc
        rw [hxi1] at hc
        by_cases hxd : x = dstO
        · rw [if_pos hxd] at hc
          simp only [withChildren] at hc
          exact hLbound c hc
        · rw [if_neg hxd] at hc
          exact hI.childBound _ (lookupA_mem _ _ _ hx) c hc
    · intro j hj
      have hjn : j ∈ st.nodesIds := hnodes ▸ hj
      have hj1 : 1 ≤ j := hI.nodesPos j hjn
      rw [hoccD, hL, hcount, hdc]
      by_cases hjx : j = x
      · subst hjx
        by_cases hmem : j ∈ pi.children
        · have := hI.occLe j hjn
          rw [hoccS] at this
          simp [hmem]
          omega
        · have hocc0 : occ st j = 0 := by
            by_contra hc
            have h1 : 1 ≤ occ st j := by omega
            have := occ_locate hI hx hjn hsrc h1
            rw [hdc] at this
            exact hmem this
          rw [hoccS] at hocc0
          have h0 : pi.children.count j = 0 := List.count_eq_zero.mpr hmem
          simp [hmem, h0]
          omega
      · have hj0 : ¬(j = 0 ∧ x ∈ pi.children) := fun hcon => by omega
        simp only [hjx, if_false, hj0]
        have := hI.occLe j hjn
        rw [hoccS] at this
        omega
    · intro j hj hjn
      rw [hroot] at hj
      have hjn' : j ∈ st.nodesIds := hnodes ▸ hjn
      by_cases hjx : j = x
      · subst hjx
        exact absurd hj (not_mem_root_of_src_pos hI hx hjn' hsrc hpnz)
      · unfold parentOfEq
        rw [hpm j hjx]
        exact hI.parentRoot j hj hjn'
    · intro a ha j hj hjn
      have han : a ∈ st.nodesIds := hnodes ▸ ha
      have hjn' : j ∈ st.nodesIds := hnodes ▸ hjn
      rw [hcl2] at hj
      by_cases had : a = dstO
      · subst had
        rw [if_pos rfl, hL] at hj
        by_cases hjx : j = x
        · subst hjx
          unfold parentOfEq
          exact hpmx
        · rcases moveSameList_mem hj with hc | hc | hc
          · exact absurd hc hjx
          · have := hI.nodesPos j hjn'
            omega
          · unfold parentOfEq
            rw [hpm j hjx]
            rw [hdc] at hc
            exact hI.parentChild a han j (by rw [hcld]; exact hc) hjn'
      · rw [if_neg had] at hj
        by_cases hjx : j = x
        · subst hjx
          exact absurd hj (not_mem_other_list hI hx hjn' hsrc han had)
        · unfold parentOfEq
          rw [hpm j hjx]
          exact hI.parentChild a han j hj hjn'

theorem childrenOf_eq_childList {st : MState} {a : Nat} (ha : a ∈ st.nodesIds)
    (ha0 : a ≠ 0) : childrenOf st a = childList st a := by
  cases h : heapLookup st a <;>
    simp [childrenOf, childList, nodesLookup, ha0, ha, h]

/-- The invariant follows from an abstract characterization of the state a
cross-parent move produces: unchanged ids, counter and heap keys; the source
order with the moved id deleted; the destination order with it inserted; the
moved id reparented to the destination owner; everything else untouched. -/
theorem TreeInv_move_generic {st st' : MState} (hI : TreeInv st)
    {x dstO srcO i : Nat} {xi : MItem}
    (hx : heapLookup st x = some xi) (hsrc : getParentRef st xi = some srcO)
    (hne : dstO ≠ srcO)
    (hdOk : dstO = 0 ∨ dstO ∈ st.nodesIds)
    (hnodes : st'.nodesIds = st.nodesIds)
    (hnext : st'.nextId = st.nextId)
    (hkeys : st'.heap.map Prod.fst = st.heap.map Prod.fst)
    (hsome : ∀ j ∈ st.nodesIds, (heapLookup st' j).isSome)
    (hroot : st'.rootChildren =
      if srcO = 0 then sliceRemove st.rootChildren x
      else if dstO = 0 then listInsertIdx st.rootChildren i x
      else st.rootChildren)
    (hcl : ∀ a, childList st' a =
      if a = srcO ∧ ¬srcO = 0 then sliceRemove (childrenOf st srcO) x
      else if a = dstO ∧ ¬dstO = 0 then listInsertIdx (childrenOf st dstO) i x
      else childList st a)
    (hpmx : (heapLookup st' x).map MItem.parent = some dstO)
    (hpm : ∀ j, j ≠ x → (heapLookup st' j).map MItem.parent =
      (heapLookup st j).map MItem.parent)
    (hcb : ∀ e ∈ st'.heap, ∀ c ∈ e.2.children, c ≤ st.nextId) :
    TreeInv st' := by
  have hxb : x ≤ st.nextId := (hI.heapLookup_bound hx).2
  constructor
  · rw [hnodes]; exact hI.nodesNodup
  · intro j hj
    exact hsome j (hnodes ▸ hj)
  · rw [hkeys]; exact hI.keysNodup
  · rw [hkeys]; exact hI.keysPos
  · rw [hkeys, hnext]; exact hI.keysBound
  · rw [hroot, hnext]
    intro c hc
    by_cases hs0 : srcO = 0
    · rw [if_pos hs0] at hc
      exact hI.rootBound c (mem_sliceRemove_sub hc)
    · rw [if_neg hs0] at hc
      by_cases hd0 : dstO = 0
      · rw [if_pos hd0] at hc
        rcases mem_listInsertIdx.mp hc with rfl | hc
        · exact hxb
        · exact hI.rootBound c hc
      · rw [if_neg hd0] at hc
        exact hI.rootBound c hc
  · rw [hnext]
    exact hcb
  · -- occLe
    intro j hj
    have hjn : j ∈ st.nodesIds := hnodes ▸ hj
    have hle := hI.occLe j hjn
    by_cases hs0 : srcO = 0
    · subst hs0
      have hd0 : dstO ≠ 0 := hne
      have hdm : dstO ∈ st.nodesIds := by
        rcases hdOk with h | h
        · exact absurd h hd0
        · exact h
      have hDd : childrenOf st dstO = childList st dstO := childrenOf_eq_childList hdm hd0
      have hoccS : occ st j = st.rootChildren.count j +
          ((childList st dstO).count j + childCount st (st.nodesIds.erase dstO) j) := by
        unfold occ
        rw [childCount_eq_cons_erase j hdm]
      have hrest : childCount st' (st.nodesIds.erase dstO) j
          = childCount st (st.nodesIds.erase dstO) j := by
        apply childCount_congr
        intro a ha
        have had : a ≠ dstO := ((List.Nodup.mem_erase_iff hI.nodesNodup).mp ha).1
        rw [hcl a]
        simp [had]
      have hoccD : occ st' j = (sliceRemove st.rootChildren x).count j +
          ((listInsertIdx (childrenOf st dstO) i x).count j
            + childCount st (st.nodesIds.erase dstO) j) := by
        unfold occ
        rw [hroot, hnodes, childCount_eq_cons_erase j hdm, hcl dstO, hrest]
        simp [hd0, childrenOf_zero]
      have hc1 : (sliceRemove st.rootChildren x).count j =
          if j = x then st.rootChildren.count j - 1 else st.rootChildren.count j :=
        count_sliceRemove _ _ _
      have hc2 : (listInsertIdx (childrenOf st dstO) i x).count j =
          (childList st dstO).count j + if j = x then 1 else 0 := by
        rw [count_listInsertIdx, hDd]
      rw [hoccD]
      rw [hoccS] at hle
      by_cases hjx : j = x
      · subst hjx
        by_cases h1 : 1 ≤ occ st j
        · have hxm : j ∈ childrenOf st 0 := occ_locate hI hx hjn hsrc h1
          rw [childrenOf_zero] at hxm
          have hxc : 1 ≤ st.rootChildren.count j := List.count_pos_iff.mpr hxm
          simp [hc1, hc2]
          omega
        · have h0 : occ st j = 0 := by omega
          rw [hoccS] at h0
          simp [hc1, hc2]
          omega
      · simp only [hc1, hc2, hjx, if_false]
        omega
    · rcases getParentRef_cases hsrc with ⟨h0, _⟩ | ⟨hpe, hpnz, hps⟩
      · exact absurd h0 hs0
      obtain ⟨si, hsi0⟩ := Option.isSome_iff_exists.mp hps
      have hsi : nodesLookup st srcO = some si := by rw [hpe]; exact hsi0
      obtain ⟨hsm, hsh⟩ := nodesLookup_heapLookup hsi
      have hSd : childrenOf st srcO = childList st srcO := childrenOf_eq_childList hsm hs0
      by_cases hd0 : dstO = 0
      · subst hd0
        have hoccS : occ st j = st.rootChildren.count j +
            ((childList st srcO).count j + childCount st (st.nodesIds.erase srcO) j) := by
          unfold occ
          rw [childCount_eq_cons_erase j hsm]
        have hrest : childCount st' (st.nodesIds.erase srcO) j
            = childCount st (st.nodesIds.erase srcO) j := by
          apply childCount_congr
          intro a ha
          have has : a ≠ srcO := ((List.Nodup.mem_erase_iff hI.nodesNodup).mp ha).1
          rw [hcl a]
          simp [has]
        have hoccD : occ st' j = (listInsertIdx st.rootChildren i x).count j +
            ((sliceRemove (childrenOf st srcO) x).count j
              + childCount st (st.nodesIds.erase srcO) j) := by
          unfold occ
          rw [hroot, hnodes, childCount_eq_cons_erase j hsm, hcl srcO, hrest]
          simp [hs0]
        have hc1 : (sliceRemove (childrenOf st srcO) x).count j =
            if j = x then (childList st srcO).count j - 1
            else (childList st srcO).count j := by
          rw [count_sliceRemove, hSd]
        have hc2 : (listInsertIdx st.rootChildren i x).count j =
            st.rootChildren.count j + if j = x then 1 else 0 :=
          count_listInsertIdx _ _ _ _
        rw [hoccD]
        rw [hoccS] at hle
        by_cases hjx : j = x
        · subst hjx
          by_cases h1 : 1 ≤ occ st j
          · have hxm : j ∈ childrenOf st srcO := occ_locate hI hx hjn hsrc h1
            rw [hSd] at hxm
            have hxc : 1 ≤ (childList st srcO).count j := List.count_pos_iff.mpr hxm
            simp [hc1, hc2]
            omega
          · have h0 : occ st j = 0 := by omega
            rw [hoccS] at h0
            simp [hc1, hc2]
            omega
        · simp only [hc1, hc2, hjx, if_false]
          omega
      · have hdm : dstO ∈ st.nodesIds := by
          rcases hdOk with h | h
          · exact absurd h hd0
          · exact h
        have hDd : childrenOf st dstO = childList st dstO := childrenOf_eq_childList hdm hd0
        have hsd : srcO ≠ dstO := fun h => hne h.symm
        have hsm2 : srcO ∈ st.nodesIds.erase dstO :=
          (List.Nodup.mem_erase_iff hI.nodesNodup).mpr ⟨hsd, hsm⟩
        have hoccS : occ st j = st.rootChildren.count j +
            ((childList st dstO).count j + ((childList st srcO).count j
              + childCount st ((st.nodesIds.erase dstO).erase srcO) j)) := by
          unfold occ
          rw [childCount_eq_cons_erase j hdm, childCount_eq_cons_erase j hsm2]
        have hrest : childCount st' ((st.nodesIds.erase dstO).erase srcO) j
            = childCount st ((st.nodesIds.erase dstO).erase srcO) j := by
          apply childCount_congr
          intro a ha
          have hnd2 : (st.nodesIds.erase dstO).Nodup := hI.nodesNodup.erase dstO
          have has : a ≠ srcO := ((List.Nodup.mem_erase_iff hnd2).mp ha).1
          have had : a ≠ dstO :=
            ((List.Nodup.mem_erase_iff hI.nodesNodup).mp
              ((List.Nodup.mem_erase_iff hnd2).mp ha).2).1
          rw [hcl a]
          simp [has, had]
        have hoccD : occ st' j = st.rootChildren.count j +
            ((listInsertIdx (childrenOf st dstO) i x).count j
              + ((sliceRemove (childrenOf st srcO) x).count j
                + childCount st ((st.nodesIds.erase dstO).erase srcO) j)) := by
          unfold occ
          rw [hroot, hnodes, childCount_eq_cons_erase j hdm, childCount_eq_cons_erase j hsm2,
            hcl dstO, hcl srcO, hrest]
          simp [hs0, hd0, hne, hsd]
        have hc1 : (sliceRemove (childrenOf st srcO) x).count j =
            if j = x then (childList st srcO).count j - 1
            else (childList st srcO).count j := by
          rw [count_sliceRemove, hSd]
        have hc2 : (listInsertIdx (childrenOf st dstO) i x).count j =
            (childList st dstO).count j + if j = x then 1 else 0 := by
          rw [count_listInsertIdx, hDd]
        rw [hoccD]
        rw [hoccS] at hle
        by_cases hjx : j = x
        · subst hjx
          by_cases h1 : 1 ≤ occ st j
          · have hxm : j ∈ childrenOf st srcO := occ_locate hI hx hjn hsrc h1
            rw [hSd] at hxm
            have hxc : 1 ≤ (childList st srcO).count j := List.count_pos_iff.mpr hxm
            simp [hc1, hc2]
            omega
          · have h0 : occ st j = 0 := by omega
            rw [hoccS] at h0
            simp [hc1, hc2]
            omega
        · simp only [hc1, hc2, hjx, if_false]
          omega
  · -- parentRoot
    intro j hj hjn
    have hjn' : j ∈ st.nodesIds := hnodes ▸ hjn
    rw [hroot] at hj
    by_cases hs0 : srcO = 0
    · rw [if_pos hs0] at hj
      by_cases hjx : j = x
      · subst hjx
        have hc0 : (sliceRemove st.rootChildren j).count j = 0 := by
          rw [count_sliceRemove]
          have h1 := @count_le_occ_root st j
          have h2 := hI.occLe j hjn'
          simp
          omega
        exact absurd (List.count_pos_iff.mpr hj) (by omega)
      · unfold parentOfEq
        rw [hpm j hjx]
        exact hI.parentRoot j (mem_sliceRemove_sub hj) hjn'
    · rw [if_neg hs0] at hj
      by_cases hjx : j = x
      · subst hjx
        by_cases hd0 : dstO = 0
        · unfold parentOfEq
          rw [hpmx, hd0]
        · rw [if_neg hd0] at hj
          exact absurd hj (not_mem_root_of_src_pos hI hx hjn' hsrc hs0)
      · have hjr : j ∈ st.rootChildren := by
          by_cases hd0 : dstO = 0
          · rw [if_pos hd0] at hj
            rcases mem_listInsertIdx.mp hj with h | h
            · exact absurd h hjx
            · exact h
          · rw [if_neg hd0] at hj
            exact hj
        unfold parentOfEq
        rw [hpm j hjx]
        exact hI.parentRoot j hjr hjn'
  · -- parentChild
    intro a ha j hj hjn
    have ha' : a ∈ st.nodesIds := hnodes ▸ ha
    have hjn' : j ∈ st.nodesIds := hnodes ▸ hjn
    have haz : a ≠ 0 := by
      have := hI.nodesPos a ha'
      omega
    rw [hcl a] at hj
    by_cases has : a = srcO ∧ ¬srcO = 0
    · rw [if_pos has] at hj
      have hSd : childrenOf st srcO = childList st srcO :=
        childrenOf_eq_childList (has.1 ▸ ha') has.2
      by_cases hjx : j = x
      · subst hjx
        have hc0 : (sliceRemove (childrenOf st srcO) j).count j = 0 := by
          rw [count_sliceRemove, hSd]
          have h1 := @count_le_occ_child st srcO j (has.1 ▸ ha')
          have h2 := hI.occLe j hjn'
          simp
          omega
        exact absurd (List.count_pos_iff.mpr hj) (by omega)
      · unfold parentOfEq
        rw [hpm j hjx, has.1]
        apply hI.parentChild srcO (has.1 ▸ ha') j _ hjn'
        rw [← hSd]
        exact mem_sliceRemove_sub hj
    · rw [if_neg has] at hj
      have hao : a ≠ srcO := by
        intro hc
        by_cases h0 : srcO = 0
        · exact haz (hc.trans h0)
        · exact has ⟨hc, h0⟩
      by_cases had : a = dstO ∧ ¬dstO = 0
      · rw [if_pos had] at hj
        by_cases hjx : j = x
        · subst hjx
          unfold parentOfEq
          rw [hpmx, had.1]
        · have hjd : j ∈ childrenOf st dstO := by
            rcases mem_listInsertIdx.mp hj with h | h
            · exact absurd h hjx
            · exact h
          have hDd : childrenOf st dstO = childList st dstO :=
            childrenOf_eq_childList (had.1 ▸ ha') had.2
          unfold parentOfEq
          rw [hpm j hjx, had.1]
          apply hI.parentChild dstO (had.1 ▸ ha') j _ hjn'
          rw [← hDd]
          exact hjd
      · rw [if_neg had] at hj
        by_cases hjx : j = x
        · subst hjx
          exact absurd hj (not_mem_other_list hI hx hjn' hsrc ha' hao)
        · unfold parentOfEq
          rw [hpm j hjx]
          exact hI.parentChild a ha' j hj hjn'

/-- A cross-parent `MoveBefore` body (delete from the source order, insert
into the destination order snapshot, then the parent-field update) preserves
the structural invariant. -/
theorem inv_move_cross {st : MState} (hI : TreeInv st) {x dstO srcO : Nat} {xi : MItem}
    (hx : heapLookup st x = some xi) (hsrc : getParentRef st xi = some srcO)
    (hdst : dstO = 0 ∨ (nodesLookup st dstO).isSome) (hne : dstO ≠ srcO) (i : Nat) :
    TreeInv (setParentSt (setChildrenSt
      (setChildrenSt st srcO (sliceRemove (childrenOf st srcO) x))
      dstO (listInsertIdx (childrenOf st dstO) i x)) x dstO) := by
  have hxb : x ≤ st.nextId := (hI.heapLookup_bound hx).2
  have hdOk : dstO = 0 ∨ dstO ∈ st.nodesIds := by
    rcases hdst with h | h
    · exact Or.inl h
    · obtain ⟨di, hdi⟩ := Option.isSome_iff_exists.mp h
      exact Or.inr (nodesLookup_heapLookup hdi).1
  by_cases hs0 : srcO = 0
  · -- source order is the root's
    subst hs0
    have hd0 : dstO ≠ 0 := hne
    have hds : (nodesLookup st dstO).isSome := by
      rcases hdst with h | h
      · exact absurd h hd0
      · exact h
    obtain ⟨di, hdi⟩ := Option.isSome_iff_exists.mp hds
    obtain ⟨hdm, hdh⟩ := nodesLookup_heapLookup hdi
    set SL := sliceRemove (childrenOf st 0) x with hSL
    set DL := listInsertIdx (childrenOf st dstO) i x with hDL
    set stA := setChildrenSt st 0 SL with hstA
    have hstAe : stA = { st with rootChildren := SL } := setChildrenSt_zero st SL
    have hAheap : stA.heap = st.heap := by rw [hstAe]
    have hAlk : ∀ j, heapLookup stA j = heapLookup st j := by
      intro j
      unfold heapLookup
      rw [hAheap]
    have hAdh : heapLookup stA dstO = some di := by rw [hAlk]; exact hdh
    set stB := setChildrenSt stA dstO DL with hstB
    have hstBe : stB = { stA with heap := heapUpd stA.heap dstO (withChildren di DL) } :=
      setChildrenSt_pos DL hd0 hAdh
    have hBheap : stB.heap = heapUpd stA.heap dstO (withChildren di DL) := by rw [hstBe]
    have hBlk : ∀ j, heapLookup stB j =
        if j = dstO then some (withChildren di DL) else heapLookup st j := by
      intro j
      rw [heapLookup_comp hBheap j]
      by_cases hj : j = dstO
      · simp [hj, hAdh]
      · simp [hj, hAlk j]
    set xi1 : MItem := if x = dstO then withChildren di DL else xi with hxi1
    have hBx : heapLookup stB x = some xi1 := by
      rw [hBlk x, hxi1]
      by_cases hxd : x = dstO <;> simp [hxd, hx]
    set nitx : MItem := { xi1 with parent := dstO } with hnitx
    set st' := setParentSt stB x dstO with hst'
    have hstPe : st' = { stB with heap := heapUpd stB.heap x nitx } := setParentSt_eq dstO hBx
    have hPheap : st'.heap = heapUpd stB.heap x nitx := by rw [hstPe]
    have hlk : ∀ j, heapLookup st' j =
        if j = x then some nitx
        else if j = dstO then some (withChildren di DL) else heapLookup st j := by
      intro j
      rw [heapLookup_comp hPheap j]
      by_cases hj : j = x
      · simp [hj, hBx]
      · simp only [hj, if_false]
        exact hBlk j
    have hnodes : st'.nodesIds = st.nodesIds := by rw [hstPe, hstBe, hstAe]
    have hnext : st'.nextId = st.nextId := by rw [hstPe, hstBe, hstAe]
    have hroot2 : st'.rootChildren = SL := by rw [hstPe, hstBe, hstAe]
    have hkeys : st'.heap.map Prod.fst = st.heap.map Prod.fst := by
      rw [hPheap, heapUpd_keys, hBheap, heapUpd_keys, hAheap]
    have hch2 : xi1.children = if x = dstO then DL else xi.children := by
      rw [hxi1]
      by_cases hxd : x = dstO <;> simp [hxd, withChildren]
    have hchl : ∀ j, (heapLookup st' j).map MItem.children =
        if j = dstO then some DL else (heapLookup st j).map MItem.children := by
      intro j
      rw [hlk j]
      by_cases hjx : j = x
      · by_cases hjd : j = dstO
        · have hxd : x = dstO := by rw [← hjx, hjd]
          simp [hjx, hjd, hnitx, hch2, hxd]
        · have hxd : ¬x = dstO := by rw [← hjx]; exact hjd
          simp [hjx, hjd, hnitx, hch2, hxd, hx]
      · by_cases hjd : j = dstO
        · have hdx : ¬dstO = x := by intro h; exact hjx (by rw [hjd, h])
          simp [hjx, hjd, hdx, withChildren]
        · simp [hjx, hjd]
    have hsomeG : ∀ j ∈ st.nodesIds, (heapLookup st' j).isSome := by
      intro j hj
      rw [hlk j]
      by_cases hjx : j = x
      · simp [hjx]
      · rw [if_neg hjx]
        by_cases hjd : j = dstO
        · rw [if_pos hjd]
          simp
        · rw [if_neg hjd]
          exact hI.nodesMem j hj
    have hrootG : st'.rootChildren =
        if (0:Nat) = 0 then sliceRemove st.rootChildren x
        else if dstO = 0 then listInsertIdx st.rootChildren i x
        else st.rootChildren := by
      rw [hroot2]
      simp [hSL, childrenOf_zero]
    have hclG : ∀ a, childList st' a =
        if a = 0 ∧ ¬(0:Nat) = 0 then sliceRemove (childrenOf st 0) x
        else if a = dstO ∧ ¬dstO = 0 then listInsertIdx (childrenOf st dstO) i x
        else childList st a := by
      intro a
      by_cases had : a = dstO
      · subst had
        rw [childList_eq_of_map, hnodes, hchl]
        simp [hdm, hd0, hDL]
      · have he : childList st' a = childList st a := by
          rw [childList_eq_of_map, @childList_eq_of_map st a, hnodes, hchl]
          simp [had]
        rw [he]
        simp [had]
    have hpmxG : (heapLookup st' x).map MItem.parent = some dstO := by
      rw [hlk x]
      simp [hnitx]
    have hpmG : ∀ j, j ≠ x → (heapLookup st' j).map MItem.parent =
        (heapLookup st j).map MItem.parent := by
      intro j hj
      rw [hlk j, if_neg hj]
      by_cases hjd : j = dstO
      · rw [if_pos hjd, hjd, hdh]
        simp [withChildren]
      · rw [if_neg hjd]
    have hcbG : ∀ e ∈ st'.heap, ∀ c ∈ e.2.children, c ≤ st.nextId := by
      intro e he c hc
      have hDLb : ∀ c2 ∈ DL, c2 ≤ st.nextId := by
        intro c2 hc2
        rw [hDL] at hc2
        rcases mem_listInsertIdx.mp hc2 with rfl | hc2
        · exact hxb
        · rw [childrenOf_pos hd0 hdh] at hc2
          exact hI.childBound _ (lookupA_mem _ _ _ hdh) c2 hc2
      rw [hPheap] at he
      rcases mem_heapUpd he with he | ⟨h2, _⟩
      · rw [hBheap] at he
        rcases mem_heapUpd he with he | ⟨h2, _⟩
        · rw [hAheap] at he
          exact hI.childBound e he c hc
        · rw [h2] at hc
          simp only [withChildren] at hc
          exact hDLb c hc
      · rw [h2, hnitx] at hc
        simp only at hc
        rw [hxi1] at hc
        by_cases hxd : x = dstO
        · rw [if_pos hxd] at hc
          simp only [withChildren] at hc
          exact hDLb c hc
        · rw [if_neg hxd] at hc
          exact hI.childBound _ (lookupA_mem _ _ _ hx) c hc
    exact TreeInv_move_generic hI hx hsrc hne hdOk hnodes hnext hkeys hsomeG hrootG hclG
      hpmxG hpmG hcbG
  · rcases getParentRef_cases hsrc with ⟨h0, _⟩ | ⟨hpe, hpnz, hps⟩
    · exact absurd h0 hs0
    obtain ⟨si, hsi0⟩ := Option.isSome_iff_exists.mp hps
    have hsi : nodesLookup st srcO = some si := by rw [hpe]; exact hsi0
    obtain ⟨hsm, hsh⟩ := nodesLookup_heapLookup hsi
    set SL := sliceRemove (childrenOf st srcO) x with hSL
    set stA := setChildrenSt st srcO SL with hstA
    have hstAe : stA = { st with heap := heapUpd st.heap srcO (withChildren si SL) } :=
      setChildrenSt_pos SL hs0 hsh
    have hAheap : stA.heap = heapUpd st.heap srcO (withChildren si SL) := by rw [hstAe]
    have hAlk : ∀ j, heapLookup stA j =
        if j = srcO then some (withChildren si SL) else heapLookup st j := by
      intro j
      rw [heapLookup_comp hAheap j]
      by_cases hj : j = srcO
      · simp [hj, hsh]
      · simp [hj]
    by_cases hd0 : dstO = 0
    · -- destination order is the root's
      subst hd0
      set DL := listInsertIdx (childrenOf st 0) i x with hDL
      set stB := setChildrenSt stA 0 DL with hstB
      have hstBe : stB = { stA with rootChildren := DL } := setChildrenSt_zero stA DL
      have hBheap : stB.heap = stA.heap := by rw [hstBe]
      have hBlk : ∀ j, heapLookup stB j =
          if j = srcO then some (withChildren si SL) else heapLookup st j := by
        intro j
        have hje : heapLookup stB j = heapLookup stA j := by
          unfold heapLookup
          rw [hBheap]
        rw [hje]
        exact hAlk j
      set xi1 : MItem := if x = srcO then withChildren si SL else xi with hxi1
      have hBx : heapLookup stB x = some xi1 := by
        rw [hBlk x, hxi1]
        by_cases hxs : x = srcO <;> simp [hxs, hx]
      set nitx : MItem := { xi1 with parent := 0 } with hnitx
      set st' := setParentSt stB x 0 with hst'
      have hstPe : st' = { stB with heap := heapUpd stB.heap x nitx } := setParentSt_eq 0 hBx
      have hPheap : st'.heap = heapUpd stB.heap x nitx := by rw [hstPe]
      have hlk : ∀ j, heapLookup st' j =
          if j = x then some nitx
          else if j = srcO then some (withChildren si SL) else heapLookup st j := by
        intro j
        rw [heapLookup_comp hPheap j]
        by_cases hj : j = x
        · simp [hj, hBx]
        · simp only [hj, if_false]
          exact hBlk j
      have hnodes : st'.nodesIds = st.nodesIds := by rw [hstPe, hstBe, hstAe]
      have hnext : st'.nextId = st.nextId := by rw [hstPe, hstBe, hstAe]
      have hroot2 : st'.rootChildren = DL := by rw [hstPe, hstBe]
      have hkeys : st'.heap.map Prod.fst = st.heap.map Prod.fst := by
        rw [hPheap, heapUpd_keys, hBheap, hAheap, heapUpd_keys]
      have hch2 : xi1.children = if x = srcO then SL else xi.children := by
        rw [hxi1]
        by_cases hxs : x = srcO <;> simp [hxs, withChildren]
      have hchl : ∀ j, (heapLookup st' j).map MItem.children =
          if j = srcO then some SL else (heapLookup st j).map MItem.children := by
        intro j
        rw [hlk j]
        by_cases hjx : j = x
        · by_cases hjs : j = srcO
          · have hxs : x = srcO := by rw [← hjx, hjs]
            simp [hjx, hjs, hnitx, hch2, hxs]
          · have hxs : ¬x = srcO := by rw [← hjx]; exact hjs
            simp [hjx, hjs, hnitx, hch2, hxs, hx]
        · by_cases hjs : j = srcO
          · have hsx : ¬srcO = x := by intro h; exact hjx (by rw [hjs, h])
            simp [hjx, hjs, hsx, withChildren]
          · simp [hjx, hjs]
      have hsomeG : ∀ j ∈ st.nodesIds, (heapLookup st' j).isSome := by
        intro j hj
        rw [hlk j]
        by_cases hjx : j = x
        · simp [hjx]
        · by_cases hjs : j = srcO
          · rw [if_neg hjx, if_pos hjs]
            simp
          · simp only [hjx, hjs, if_false]
            exact hI.nodesMem j hj
      have hrootG : st'.rootChildren =
          if srcO = 0 then sliceRemove st.rootChildren x
          else if (0:Nat) = 0 then listInsertIdx st.rootChildren i x
          else st.rootChildren := by
        rw [hroot2]
        simp [hs0, hDL, childrenOf_zero]
      have hclG : ∀ a, childList st' a =
          if a = srcO ∧ ¬srcO = 0 then sliceRemove (childrenOf st srcO) x
          else if a = 0 ∧ ¬(0:Nat) = 0 then listInsertIdx (childrenOf st 0) i x
          else childList st a := by
        intro a
        by_cases has : a = srcO
        · subst has
          rw [childList_eq_of_map, hnodes, hchl]
          simp [hsm, hs0, hSL]
        · have he : childList st' a = childList st a := by
            rw [childList_eq_of_map, @childList_eq_of_map st a, hnodes, hchl]
            simp [has]
          rw [he]
          simp [has]
      have hpmxG : (heapLookup st' x).map MItem.parent = some (0:Nat) := by
        rw [hlk x]
        simp [hnitx]
      have hpmG : ∀ j, j ≠ x → (heapLookup st' j).map MItem.parent =
          (heapLookup st j).map MItem.parent := by
        intro j hj
        rw [hlk j, if_neg hj]
        by_cases hjs : j = srcO
        · rw [if_pos hjs, hjs, hsh]
          simp [withChildren]
        · rw [if_neg hjs]
      have hcbG : ∀ e ∈ st'.heap, ∀ c ∈ e.2.children, c ≤ st.nextId := by
        intro e he c hc
        have hSLb : ∀ c2 ∈ SL, c2 ≤ st.nextId := by
          intro c2 hc2
          rw [hSL] at hc2
          have hmem := mem_sliceRemove_sub hc2
          rw [childrenOf_pos hs0 hsh] at hmem
          exact hI.childBound _ (lookupA_mem _ _ _ hsh) c2 hmem
        rw [hPheap] at he
        rcases mem_heapUpd he with he | ⟨h2, _⟩
        · rw [hBheap, hAheap] at he
          rcases mem_heapUpd he with he | ⟨h2, _⟩
          · exact hI.childBound e he c hc
          · rw [h2] at hc
            simp only [withChildren] at hc
            exact hSLb c hc
        · rw [h2, hnitx] at hc
          simp only at hc
          rw [hxi1] at hc
          by_cases hxs : x = srcO
          · rw [if_pos hxs] at hc
            simp only [withChildren] at hc
            exact hSLb c hc
          · rw [if_neg hxs] at hc
            exact hI.childBound _ (lookupA_mem _ _ _ hx) c hc
      exact TreeInv_move_generic hI hx hsrc hne hdOk hnodes hnext hkeys hsomeG hrootG hclG
        hpmxG hpmG hcbG
    · -- both owners are items
      have hds : (nodesLookup st dstO).isSome := by
        rcases hdst with h | h
        · exact absurd h hd0
        · exact h
      obtain ⟨di, hdi⟩ := Option.isSome_iff_exists.mp hds
      obtain ⟨hdm, hdh⟩ := nodesLookup_heapLookup hdi
      set DL := listInsertIdx (childrenOf st dstO) i x with hDL
      have hAdh : heapLookup stA dstO = some di := by
        rw [hAlk dstO, if_neg hne]
        exact hdh
      set stB := setChildrenSt stA dstO DL with hstB
      have hstBe : stB = { stA with heap := heapUpd stA.heap dstO (withChildren di DL) } :=
        setChildrenSt_pos DL hd0 hAdh
      have hBheap : stB.heap = heapUpd stA.heap dstO (withChildren di DL) := by rw [hstBe]
      have hBlk : ∀ j, heapLookup stB j =
          if j = dstO then some (withChildren di DL)
          else if j = srcO then some (withChildren si SL) else heapLookup st j := by
        intro j
        rw [heapLookup_comp hBheap j]
        by_cases hjd : j = dstO
        · simp [hjd, hAdh]
        · simp only [hjd, if_false]
          exact hAlk j
      set xi1 : MItem := if x = dstO then withChildren di DL
        else if x = srcO then withChildren si SL else xi with hxi1
      have hBx : heapLookup stB x = some xi1 := by
        rw [hBlk x, hxi1]
        by_cases hxd : x = dstO
        · rw [if_pos hxd, if_pos hxd]
        · rw [if_neg hxd, if_neg hxd]
          by_cases hxs : x = srcO
          · rw [if_pos hxs, if_pos hxs]
          · rw [if_neg hxs, if_neg hxs, hx]
      set nitx : MItem := { xi1 with parent := dstO } with hnitx
      set st' := setParentSt stB x dstO with hst'
      have hstPe : st' = { stB with heap := heapUpd stB.heap x nitx } := setParentSt_eq dstO hBx
      have hPheap : st'.heap = heapUpd stB.heap x nitx := by rw [hstPe]
      have hlk : ∀ j, heapLookup st' j =
          if j = x then some nitx
          else if j = dstO then some (withChildren di DL)
          else if j = srcO then some (withChildren si SL) else heapLookup st j := by
        intro j
        rw [heapLookup_comp hPheap j]
        by_cases hj : j = x
        · simp [hj, hBx]
        · simp only [hj, if_false]
          exact hBlk j
      have hnodes : st'.nodesIds = st.nodesIds := by rw [hstPe, hstBe, hstAe]
      have hnext : st'.nextId = st.nextId := by rw [hstPe, hstBe, hstAe]
      have hroot2 : st'.rootChildren = st.rootChildren := by rw [hstPe, hstBe, hstAe]
      have hkeys : st'.heap.map Prod.fst = st.heap.map Prod.fst := by
        rw [hPheap, heapUpd_keys, hBheap, heapUpd_keys, hAheap, heapUpd_keys]
      have hch2 : xi1.children = if x = dstO then DL
          else if x = srcO then SL else xi.children := by
        rw [hxi1]
        by_cases hxd : x = dstO
        · rw [if_pos hxd, if_pos hxd]
          simp [withChildren]
        · rw [if_neg hxd, if_neg hxd]
          by_cases hxs : x = srcO
          · rw [if_pos hxs, if_pos hxs]
            simp [withChildren]
          · rw [if_neg hxs, if_neg hxs]
      have hchl : ∀ j, (heapLookup st' j).map MItem.children =
          if j = dstO then some DL
          else if j = srcO then some SL
          else (heapLookup st j).map MItem.children := by
        intro j
        rw [hlk j]
        by_cases hjx : j = x
        · by_cases hjd : j = dstO
          · have hxd : x = dstO := by rw [← hjx, hjd]
            simp [hjx, hjd, hnitx, hch2, hxd]
          · have hxd : ¬x = dstO := by rw [← hjx]; exact hjd
            by_cases hjs : j = srcO
            · have hxs : x = srcO := by rw [← hjx, hjs]
              have hsd : ¬srcO = dstO := by rw [← hxs]; exact hxd
              simp [hjx, hjd, hjs, hnitx, hch2, hxd, hxs, hsd]
            · have hxs : ¬x = srcO := by rw [← hjx]; exact hjs
              simp [hjx, hjd, hjs, hnitx, hch2, hxd, hxs, hx]
        · rw [if_neg hjx]
          by_cases hjd : j = dstO
          · rw [if_pos hjd, if_pos hjd]
            simp [withChildren]
          · rw [if_neg hjd, if_neg hjd]
            by_cases hjs : j = srcO
            · rw [if_pos hjs, if_pos hjs]
              simp [withChildren]
            · rw [if_neg hjs, if_neg hjs]
      have hsomeG : ∀ j ∈ st.nodesIds, (heapLookup st' j).isSome := by
        intro j hj
        rw [hlk j]
        by_cases hjx : j = x
        · simp [hjx]
        · rw [if_neg hjx]
          by_cases hjd : j = dstO
          · rw [if_pos hjd]
            simp
          · rw [if_neg hjd]
            by_cases hjs : j = srcO
            · rw [if_pos hjs]
              simp
            · rw [if_neg hjs]
              exact hI.nodesMem j hj
      have hrootG : st'.rootChildren =
          if srcO = 0 then sliceRemove st.rootChildren x
          else if dstO = 0 then listInsertIdx st.rootChildren i x
          else st.rootChildren := by
        rw [hroot2]
        simp [hs0, hd0]
      have hclG : ∀ a, childList st' a =
          if a = srcO ∧ ¬srcO = 0 then sliceRemove (childrenOf st srcO) x
          else if a = dstO ∧ ¬dstO = 0 then listInsertIdx (childrenOf st dstO) i x
          else childList st a := by
        intro a
        by_cases had : a = dstO
        · subst had
          rw [childList_eq_of_map, hnodes, hchl]
          simp [hdm, hd0, hne, hDL]
        · by_cases has : a = srcO
          · subst has
            rw [childList_eq_of_map, hnodes, hchl]
            simp [hsm, hs0, hSL, had]
          · have he : childList st' a = childList st a := by
              rw [childList_eq_of_map, @childList_eq_of_map st a, hnodes, hchl]
              simp [had, has]
            rw [he]
            simp [had, has]
      have hpmxG : (heapLookup st' x).map MItem.parent = some dstO := by
        rw [hlk x]
        simp [hnitx]
      have hpmG : ∀ j, j ≠ x → (heapLookup st' j).map MItem.parent =
          (heapLookup st j).map MItem.parent := by
        intro j hj
        rw [hlk j, if_neg hj]
        by_cases hjd : j = dstO
        · rw [if_pos hjd, hjd, hdh]
          simp [withChildren]
        · rw [if_neg hjd]
          by_cases hjs : j = srcO
          · rw [if_pos hjs, hjs, hsh]
            simp [withChildren]
          · rw [if_neg hjs]
      have hcbG : ∀ e ∈ st'.heap, ∀ c ∈ e.2.children, c ≤ st.nextId := by
        intro e he c hc
        have hSLb : ∀ c2 ∈ SL, c2 ≤ st.nextId := by
          intro c2 hc2
          rw [hSL] at hc2
          have hmem := mem_sliceRemove_sub hc2
          rw [childrenOf_pos hs0 hsh] at hmem
          exact hI.childBound _ (lookupA_mem _ _ _ hsh) c2 hmem
        have hDLb : ∀ c2 ∈ DL, c2 ≤ st.nextId := by
          intro c2 hc2
          rw [hDL] at hc2
          rcases mem_listInsertIdx.mp hc2 with rfl | hc2
          · exact hxb
          · rw [childrenOf_pos hd0 hdh] at hc2
            exact hI.childBound _ (lookupA_mem _ _ _ hdh) c2 hc2
        rw [hPheap] at he
        rcases mem_heapUpd he with he | ⟨h2, _⟩
        · rw [hBheap] at he
          rcases mem_heapUpd he with he | ⟨h2, _⟩
          · rw [hAheap] at he
            rcases mem_heapUpd he with he | ⟨h2, _⟩
            · exact hI.childBound e he c hc
            · rw [h2] at hc
              simp only [withChildren] at hc
              exact hSLb c hc
          · rw [h2] at hc
            simp only [withChildren] at hc
            exact hDLb c hc
        · rw [h2, hnitx] at hc
          simp only at hc
          rw [hxi1] at hc
          by_cases hxd : x = dstO
          · rw [if_pos hxd] at hc
            simp only [withChildren] at hc
            exact hDLb c hc
          · rw [if_neg hxd] at hc
            by_cases hxs : x = srcO
            · rw [if_pos hxs] at hc
              simp only [withChildren] at hc
              exact hSLb c hc
            · rw [if_neg hxs] at hc
              exact hI.childBound _ (lookupA_mem _ _ _ hx) c hc
      exact TreeInv_move_generic hI hx hsrc hne hdOk hnodes hnext hkeys hsomeG hrootG hclG
        hpmxG hpmG hcbG

/-- `MenuItem.MoveBefore` preserves the structural invariant. -/
theorem inv_stepMoveBefore {st : MState} (hI : TreeInv st) (x sib : Nat) :
    TreeInv (stepMoveBefore st x sib) := by
  unfold stepMoveBefore
  cases hx : heapLookup st x with
  | none =>
      cases hsb : heapLookup st sib <;> exact hI
  | some xi =>
      cases hsb : heapLookup st sib with
      | none => exact hI
      | some si =>
          dsimp only
          cases hgd : getParentRef st si with
          | none =>
              cases hgs : getParentRef st xi <;> exact hI
          | some dstO =>
              cases hgs : getParentRef st xi with
              | none => exact hI
              | some srcO =>
                  dsimp only
                  by_cases hds : dstO = srcO
                  · rw [if_pos hds]
                    have hgs2 : getParentRef st xi = some dstO := by
                      rw [hds]
                      exact hgs
                    have h2 := inv_move_same hI hx hgs2
                      ((listIndex (childrenOf st dstO) sib).getD (childrenOf st dstO).length)
                    exact TreeInv_of_fields h2 rfl rfl rfl rfl
                  · rw [if_neg hds]
                    have hdok : dstO = 0 ∨ (nodesLookup st dstO).isSome := by
                      rcases getParentRef_cases hgd with ⟨h0, _⟩ | ⟨hpe, hpnz, hps⟩
                      · exact Or.inl h0
                      · right
                        rw [hpe]
                        exact hps
                    have h2 := inv_move_cross hI hx hgs hdok hds
                      ((listIndex (childrenOf st dstO) sib).getD (childrenOf st dstO).length)
                    exact TreeInv_of_fields h2 rfl rfl rfl rfl

/-- Each operation preserves the structural invariant. -/
theorem inv_stepOp {st : MState} (hI : TreeInv st) (op : Op) :
    TreeInv (stepOp st op) := by
  cases op with
  | addRoot ps => exact inv_stepAddRoot hI ps
  | addChild x ps => exact inv_stepAddChild hI x ps
  | remove x => exact inv_stepRemove hI x
  | moveBefore x sib => exact inv_stepMoveBefore hI x sib
  | setProps x ps => exact inv_stepSetProps hI x ps

/-- Every state reachable by running operations from the fresh menu satisfies
the structural invariant. -/
theorem inv_runOps (ops : List Op) : TreeInv (runOps ops) := by
  unfold runOps
  induction ops using List.reverseRecOn with
  | nil => exact inv_init
  | append_singleton l op ih =>
      rw [List.foldl_append]
      exact inv_stepOp ih op

/-! ## The children traversal, factored as in `dbusmenu.buildChildren` -/

/-- `dbusmenu.buildChildren`: fold the candidate ids, skipping ids that do
not resolve in `menu.nodes` and recursing (via `buildLayout`) into those
that do. -/
def buildChildrenF (fuel : Nat) (st : MState) (ids : List Nat) (depth : Int)
    (ps : List String) : Option (List MenuLayout) :=
  ids.foldr (fun cid acc =>
    match acc with
    | none => none
    | some rest =>
        match nodesLookup st cid with
        | none => some rest
        | some it =>
            match buildLayoutF fuel st (some (cid, it)) depth ps with
            | none => none
            | some l => some (l :: rest)) (some [])

theorem buildLayoutF_succ (fuel : Nat) (st : MState) (x : Option (Nat × MItem))
    (depth : Int) (ps : List String) :
    buildLayoutF (fuel + 1) st x depth ps =
      (if depth = 0 then some [] else
        buildChildrenF fuel st
          (match x with | none => st.rootChildren | some (_, it) => it.children)
          (depth - 1) ps).map fun ks =>
        MenuLayout.mk
          (match x with | none => 0 | some (i, _) => i)
          (match x with | none => rootProps | some (_, it) => it.props) ks := by
  cases x with
  | none => rfl
  | some p => rfl

theorem layoutIdsList_nil : layoutIdsList [] = [] := rfl

theorem layoutIdsList_cons (l : MenuLayout) (ls : List MenuLayout) :
    layoutIdsList (l :: ls) = layoutIds l ++ layoutIdsList ls := by
  cases l with
  | mk i p cs =>
      simp [layoutIdsList, layoutIds, layoutEntriesList, layoutEntries]

theorem layoutIds_mk (i : Nat) (p : List (String × PVal)) (cs : List MenuLayout) :
    layoutIds (MenuLayout.mk i p cs) = i :: layoutIdsList cs := by
  simp [layoutIds, layoutEntries, layoutIdsList]

/-! ## Reachability facts -/

theorem ReachFrom.isSomeNL {st : MState} {ids : List Nat} {k : Nat}
    (h : ReachFrom st ids k) : (nodesLookup st k).isSome := by
  cases h with
  | base _ hs => exact hs
  | step _ _ _ hs => exact hs

theorem ReachFrom.memNodes {st : MState} {ids : List Nat} {k : Nat}
    (h : ReachFrom st ids k) : k ∈ st.nodesIds := by
  obtain ⟨it, hit⟩ := Option.isSome_iff_exists.mp h.isSomeNL
  exact (nodesLookup_heapLookup hit).1

theorem ReachFrom_nil {st : MState} {k : Nat} : ¬ReachFrom st [] k := by
  intro h
  induction h with
  | base hm _ => simp at hm
  | step _ _ _ _ ih => exact ih

theorem ReachFrom_mono {st : MState} {ids ids2 : List Nat} {k : Nat}
    (hsub : ∀ j ∈ ids, j ∈ ids2) (h : ReachFrom st ids k) : ReachFrom st ids2 k := by
  induction h with
  | base hm hs => exact .base (hsub _ hm) hs
  | step _ hp hm hs ih => exact .step ih hp hm hs

theorem ReachFrom_cons_elim {st : MState} {c : Nat} {r : List Nat} {k : Nat}
    (h : ReachFrom st (c :: r) k) : ReachFrom st [c] k ∨ ReachFrom st r k := by
  induction h with
  | base hm hs =>
      rcases List.mem_cons.mp hm with rfl | hm
      · exact Or.inl (.base (List.mem_singleton.mpr rfl) hs)
      · exact Or.inr (.base hm hs)
  | step _ hp hm hs ih =>
      rcases ih with ih | ih
      · exact Or.inl (.step ih hp hm hs)
      · exact Or.inr (.step ih hp hm hs)

theorem ReachFrom_cons_iff {st : MState} {c : Nat} {r : List Nat} {k : Nat} :
    ReachFrom st (c :: r) k ↔ ReachFrom st [c] k ∨ ReachFrom st r k := by
  constructor
  · exact ReachFrom_cons_elim
  · intro h
    rcases h with h | h
    · exact ReachFrom_mono (by intro j hj; simp at hj; simp [hj]) h
    · exact ReachFrom_mono (by intro j hj; simp [hj]) h

theorem ReachFrom_single_unres {st : MState} {c k : Nat}
    (hc : nodesLookup st c = none) : ¬ReachFrom st [c] k := by
  intro h
  induction h with
  | base hm hs =>
      rw [List.mem_singleton.mp hm, hc] at hs
      simp at hs
  | step _ _ _ _ ih => exact ih

theorem ReachFrom_childList {st : MState} {c k : Nat} {it : MItem}
    (hc : nodesLookup st c = some it) (h : ReachFrom st it.children k) :
    ReachFrom st [c] k := by
  induction h with
  | base hm hs =>
      exact .step (.base (List.mem_singleton.mpr rfl) (by simp [hc])) hc hm hs
  | step _ hp hm hs ih => exact .step ih hp hm hs

theorem ReachFrom_single_iff {st : MState} {c k : Nat} {it : MItem}
    (hc : nodesLookup st c = some it) :
    ReachFrom st [c] k ↔ k = c ∨ ReachFrom st it.children k := by
  constructor
  · intro h
    induction h with
    | base hm _ => exact Or.inl (List.mem_singleton.mp hm)
    | step hr hp hm hs ih =>
        rcases ih with rfl | ih
        · rename_i p it2 k2
          rw [hc] at hp
          cases hp
          exact Or.inr (.base hm hs)
        · exact Or.inr (.step ih hp hm hs)
  · intro h
    rcases h with rfl | h
    · exact .base (List.mem_singleton.mpr rfl) (by simp [hc])
    · exact ReachFrom_childList hc h

/-- An id with no occurrence in any children sequence is unreachable from
the root. -/
theorem not_reach_of_occ_zero {st : MState} {k : Nat} (h : occ st k = 0) :
    ¬ReachRoot st k := by
  intro hr
  cases hr with
  | base hm _ =>
      have := List.count_pos_iff.mpr hm
      unfold occ at h
      omega
  | step hp hpl hm hs =>
      rename_i p it2
      have hpm := nodesLookup_heapLookup hpl
      have hcl : k ∈ childList st p := by
        rw [childList_eq hpl]
        exact hm
      have h1 := le_childCount_of_mem hpm.1 hcl
      unfold occ at h
      omega

theorem count_le_cons (a j : Nat) (l : List Nat) : l.count j ≤ (a :: l).count j := by
  by_cases h : j = a <;> simp [List.count_cons, h]

/-- The children fold: with enough fuel, on a state satisfying the
structural invariant, the traversal of a candidate list succeeds and its
output ids are exactly the ids reachable from the candidates, each exactly
once.  `A` is the ghost set of not-yet-visited node-map members. -/
theorem buildChildren_ok {st : MState} (ps : List String) :
    ∀ (fuel : Nat) (A ids : List Nat) (d : Int), d < 0 →
      A.Nodup → (∀ a ∈ A, a ∈ st.nodesIds) →
      (∀ j, (nodesLookup st j).isSome → ids.count j + childCount st A j ≤ 1) →
      (∀ j ∈ ids, (nodesLookup st j).isSome → j ∈ A) →
      (∀ a ∈ A, ∀ j ∈ childList st a, (nodesLookup st j).isSome → j ∈ A) →
      A.length < fuel →
      ∃ ls, buildChildrenF fuel st ids d ps = some ls ∧
        (∀ k, k ∈ layoutIdsList ls ↔ ReachFrom st ids k) ∧
        (layoutIdsList ls).Nodup ∧
        (∀ k ∈ layoutIdsList ls, k ∈ A) := by
  intro fuel
  induction fuel with
  | zero =>
      intro A ids d _ _ _ _ _ _ hf
      omega
  | succ f ihf =>
      intro A ids d hd hAnd hAsub
      induction ids with
      | nil =>
          intro H1 H2 H3 hf
          refine ⟨[], rfl, ?_, ?_, ?_⟩
          · intro k
            rw [layoutIdsList_nil]
            simp only [List.not_mem_nil, false_iff]
            exact ReachFrom_nil
          · rw [layoutIdsList_nil]
            exact List.nodup_nil
          · intro k hk
            rw [layoutIdsList_nil] at hk
            simp at hk
      | cons cid rest ihr =>
          intro H1 H2 H3 hf
          have H1r : ∀ j, (nodesLookup st j).isSome →
              rest.count j + childCount st A j ≤ 1 := by
            intro j hj
            have h1 := H1 j hj
            have h2 := count_le_cons cid j rest
            omega
          have H2r : ∀ j ∈ rest, (nodesLookup st j).isSome → j ∈ A := by
            intro j hj
            exact H2 j (List.mem_cons_of_mem _ hj)
          obtain ⟨ls1, hfold1, hiff1, hnd1, hsubA1⟩ := ihr H1r H2r H3 hf
          have hstep0 : buildChildrenF (f + 1) st (cid :: rest) d ps =
              match buildChildrenF (f + 1) st rest d ps with
              | none => none
              | some rest2 =>
                  match nodesLookup st cid with
                  | none => some rest2
                  | some it =>
                      match buildLayoutF (f + 1) st (some (cid, it)) d ps with
                      | none => none
                      | some l => some (l :: rest2) := rfl
          rw [hfold1] at hstep0
          cases hcid : nodesLookup st cid with
          | none =>
              rw [hcid] at hstep0
              refine ⟨ls1, hstep0, ?_, hnd1, hsubA1⟩
              intro k
              rw [hiff1 k]
              constructor
              · intro h
                exact ReachFrom_cons_iff.mpr (Or.inr h)
              · intro h
                rcases ReachFrom_cons_elim h with h | h
                · exact absurd h (ReachFrom_single_unres hcid)
                · exact h
          | some it =>
              have hstep1 : buildChildrenF (f + 1) st (cid :: rest) d ps =
                  match buildLayoutF (f + 1) st (some (cid, it)) d ps with
                  | none => none
                  | some l => some (l :: ls1) := by
                rw [hstep0, hcid]
              have hcidSome : (nodesLookup st cid).isSome := by simp [hcid]
              have hcidA : cid ∈ A := H2 cid (List.mem_cons_self cid rest) hcidSome
              have hcidN : cid ∈ st.nodesIds := hAsub cid hcidA
              have hcl : childList st cid = it.children := childList_eq hcid
              have hcnt1 : 1 ≤ (cid :: rest).count cid := by
                rw [List.count_cons_self]
                exact Nat.le_add_left 1 _
              have hnotcid : ∀ a ∈ A, cid ∉ childList st a := by
                intro a ha hc
                have h1 := le_childCount_of_mem ha hc
                have h2 := H1 cid hcidSome
                omega
              have hcid_not_rest : ¬ReachFrom st rest cid := by
                intro hr
                cases hr with
                | base hm hs =>
                    have hr1 : 1 ≤ rest.count cid := List.count_pos_iff.mpr hm
                    have hc2 : (cid :: rest).count cid = rest.count cid + 1 :=
                      List.count_cons_self cid rest
                    have := H1 cid hcidSome
                    omega
                | step hp hpl hm hs =>
                    rename_i p it2
                    have hpA : p ∈ A := hsubA1 p ((hiff1 p).mpr hp)
                    exact hnotcid p hpA (by rw [childList_eq hpl]; exact hm)
              have hcidnotvis : cid ∉ layoutIdsList ls1 :=
                fun hc => hcid_not_rest ((hiff1 cid).mp hc)
              set B1 : List Nat := A.filter (fun k => decide (k ∉ layoutIdsList ls1)) with hB1
              have hB1mem : ∀ k, k ∈ B1 ↔ k ∈ A ∧ k ∉ layoutIdsList ls1 := by
                intro k
                rw [hB1]
                simp [List.mem_filter]
              have hB1sub : List.Sublist B1 A := List.filter_sublist A
              have hB1nd : B1.Nodup := hAnd.sublist hB1sub
              have hcidB1 : cid ∈ B1 := (hB1mem cid).mpr ⟨hcidA, hcidnotvis⟩
              set A2 : List Nat := B1.erase cid with hA2
              have hA2sub : List.Sublist A2 (A.erase cid) := hB1sub.erase cid
              have hA2mem : ∀ a, a ∈ A2 ↔ a ≠ cid ∧ a ∈ A ∧ a ∉ layoutIdsList ls1 := by
                intro a
                rw [hA2, List.Nodup.mem_erase_iff hB1nd, hB1mem]
              have hA2nd : A2.Nodup := hB1nd.erase cid
              have hA2nodes : ∀ a ∈ A2, a ∈ st.nodesIds :=
                fun a ha => hAsub a ((hA2mem a).mp ha).2.1
              have hccA : ∀ j, childCount st A j =
                  (childList st cid).count j + childCount st (A.erase cid) j :=
                fun j => childCount_eq_cons_erase j hcidA
              have hccA2le : ∀ j, childCount st A2 j ≤ childCount st (A.erase cid) j :=
                fun j => childCount_le_of_sublist j hA2sub
              have H1c : ∀ j, (nodesLookup st j).isSome →
                  it.children.count j + childCount st A2 j ≤ 1 := by
                intro j hj
                have h1 := H1 j hj
                have h2 := hccA j
                have h3 := hccA2le j
                have h4 : (childList st cid).count j = it.children.count j := by rw [hcl]
                omega
              have hnotrest : ∀ a ∈ A, ∀ j, (nodesLookup st j).isSome →
                  j ∈ childList st a → a ∉ layoutIdsList ls1 →
                  j ∉ layoutIdsList ls1 := by
                intro a ha j hj hjc hanot hjin
                have hreach : ReachFrom st rest j := (hiff1 j).mp hjin
                cases hreach with
                | base hm hs =>
                    have hr1 : 1 ≤ rest.count j := List.count_pos_iff.mpr hm
                    have hcc : 1 ≤ childCount st A j := le_childCount_of_mem ha hjc
                    have hc2 := count_le_cons cid j rest
                    have := H1 j hj
                    omega
                | step hp hpl hm hs =>
                    rename_i p it2
                    have hpvis : p ∈ layoutIdsList ls1 := (hiff1 p).mpr hp
                    have hpA : p ∈ A := hsubA1 p hpvis
                    by_cases hpa : p = a
                    · exact hanot (hpa ▸ hpvis)
                    · have h2 := two_le_childCount hpA ha hpa
                        (by rw [childList_eq hpl]; exact hm) hjc
                      have := H1 j hj
                      omega
              have H2c : ∀ j ∈ it.children, (nodesLookup st j).isSome → j ∈ A2 := by
                intro j hj hjs
                have hjc : j ∈ childList st cid := by rw [hcl]; exact hj
                have hjA : j ∈ A := H3 cid hcidA j hjc hjs
                have hjne : j ≠ cid := fun h => hnotcid cid hcidA (h ▸ hjc)
                have hjnot : j ∉ layoutIdsList ls1 :=
                  hnotrest cid hcidA j hjs hjc hcidnotvis
                exact (hA2mem j).mpr ⟨hjne, hjA, hjnot⟩
              have H3c : ∀ a ∈ A2, ∀ j ∈ childList st a,
                  (nodesLookup st j).isSome → j ∈ A2 := by
                intro a ha j hjc hjs
                obtain ⟨hane, haA, hanot⟩ := (hA2mem a).mp ha
                have hjA : j ∈ A := H3 a haA j hjc hjs
                have hjne : j ≠ cid := fun h => hnotcid a haA (h ▸ hjc)
                have hjnot : j ∉ layoutIdsList ls1 := hnotrest a haA j hjs hjc hanot
                exact (hA2mem j).mpr ⟨hjne, hjA, hjnot⟩
              have hfc : A2.length < f := by
                have h1 : A2.length ≤ (A.erase cid).length := hA2sub.length_le
                have h2 : (A.erase cid).length = A.length - 1 :=
                  List.length_erase_of_mem hcidA
                have h3 : 0 < A.length := List.length_pos_of_mem hcidA
                omega
              have hd1 : d - 1 < 0 := by omega
              obtain ⟨ls2, hfold2, hiff2, hnd2, hsubA2⟩ :=
                ihf A2 it.children (d - 1) hd1 hA2nd hA2nodes H1c H2c H3c hfc
              have hbl : buildLayoutF (f + 1) st (some (cid, it)) d ps =
                  some (MenuLayout.mk cid it.props ls2) := by
                rw [buildLayoutF_succ]
                rw [if_neg (by omega : ¬d = 0)]
                simp [hfold2]
              rw [hbl] at hstep1
              have hids : layoutIdsList (MenuLayout.mk cid it.props ls2 :: ls1) =
                  cid :: (layoutIdsList ls2 ++ layoutIdsList ls1) := by
                rw [layoutIdsList_cons, layoutIds_mk]
                simp
              refine ⟨MenuLayout.mk cid it.props ls2 :: ls1, hstep1, ?_, ?_, ?_⟩
              · intro k
                rw [hids]
                constructor
                · intro hk
                  rcases List.mem_cons.mp hk with rfl | hk
                  · exact ReachFrom_cons_iff.mpr
                      (Or.inl ((ReachFrom_single_iff hcid).mpr (Or.inl rfl)))
                  · rcases List.mem_append.mp hk with hk | hk
                    · exact ReachFrom_cons_iff.mpr
                        (Or.inl ((ReachFrom_single_iff hcid).mpr (Or.inr ((hiff2 k).mp hk))))
                    · exact ReachFrom_cons_iff.mpr (Or.inr ((hiff1 k).mp hk))
                · intro hk
                  rcases ReachFrom_cons_elim hk with hk | hk
                  · rcases (ReachFrom_single_iff hcid).mp hk with rfl | hk
                    · exact List.mem_cons_self _ _
                    · exact List.mem_cons_of_mem _
                        (List.mem_append.mpr (Or.inl ((hiff2 k).mpr hk)))
                  · exact List.mem_cons_of_mem _
                      (List.mem_append.mpr (Or.inr ((hiff1 k).mpr hk)))
              · rw [hids]
                refine List.nodup_cons.mpr ⟨?_, ?_⟩
                · intro hc
                  rcases List.mem_append.mp hc with hc | hc
                  · exact ((hA2mem cid).mp (hsubA2 cid hc)).1 rfl
                  · exact hcidnotvis hc
                · refine List.Nodup.append hnd2 hnd1 ?_
                  intro k hk2 hk1
                  exact ((hA2mem k).mp (hsubA2 k hk2)).2.2 hk1
              · intro k hk
                rw [hids] at hk
                rcases List.mem_cons.mp hk with rfl | hk
                · exact hcidA
                · rcases List.mem_append.mp hk with hk | hk
                  · exact ((hA2mem k).mp (hsubA2 k hk)).2.1
                  · exact hsubA1 k hk

theorem nodesLookup_isSome_mem {st : MState} {j : Nat}
    (h : (nodesLookup st j).isSome) : j ∈ st.nodesIds := by
  unfold nodesLookup at h
  by_cases hm : j ∈ st.nodesIds
  · exact hm
  · rw [if_neg hm] at h
    simp at h

/-- On an invariant state, a root `buildLayout` with a negative (unbounded)
depth succeeds within the fuel `layoutFuel`, and its snapshot lists the root
and exactly the root-reachable nodes, each once. -/
theorem getLayout_root_ok {st : MState} (hI : TreeInv st) {d : Int} (hd : d < 0)
    (ps : List String) :
    ∃ ls, buildLayoutF (layoutFuel st) st none d ps =
        some (MenuLayout.mk 0 rootProps ls) ∧
      (∀ k, k ∈ layoutIds (MenuLayout.mk 0 rootProps ls) ↔ (k = 0 ∨ ReachRoot st k)) ∧
      (layoutIds (MenuLayout.mk 0 rootProps ls)).Nodup := by
  have H1 : ∀ j, (nodesLookup st j).isSome →
      st.rootChildren.count j + childCount st st.nodesIds j ≤ 1 := by
    intro j hj
    have hjm := nodesLookup_isSome_mem hj
    have := hI.occLe j hjm
    unfold occ at this
    omega
  have H2 : ∀ j ∈ st.rootChildren, (nodesLookup st j).isSome → j ∈ st.nodesIds :=
    fun j _ hj => nodesLookup_isSome_mem hj
  have H3 : ∀ a ∈ st.nodesIds, ∀ j ∈ childList st a,
      (nodesLookup st j).isSome → j ∈ st.nodesIds :=
    fun a _ j _ hj => nodesLookup_isSome_mem hj
  have hfuel : st.nodesIds.length < st.nodesIds.length + 1 := by omega
  obtain ⟨ls, hfold, hiff, hnd, _⟩ :=
    buildChildren_ok ps (st.nodesIds.length + 1) st.nodesIds st.rootChildren
      (d - 1) (by omega) hI.nodesNodup (fun a ha => ha) H1 H2 H3 hfuel
  refine ⟨ls, ?_, ?_, ?_⟩
  · have hfe : layoutFuel st = (st.nodesIds.length + 1) + 1 := rfl
    rw [hfe, buildLayoutF_succ, if_neg (by omega : ¬d = 0)]
    simp [hfold]
  · intro k
    rw [layoutIds_mk, List.mem_cons, hiff k]
    rfl
  · rw [layoutIds_mk]
    refine List.nodup_cons.mpr ⟨?_, hnd⟩
    intro hc
    have hr : ReachRoot st 0 := (hiff 0).mp hc
    exact hI.zero_not_nodes hr.memNodes

/-- Every entry of a produced layout is either the start entry or carries
the full property bag of a node-map member. -/
theorem buildLayoutF_entries :
    ∀ (fuel : Nat) (st : MState) (x : Option (Nat × MItem)) (d : Int)
      (ps : List String) (l : MenuLayout),
      buildLayoutF fuel st x d ps = some l →
      ∀ pr ∈ layoutEntries l,
        pr = ((match x with | none => 0 | some p => p.1),
              (match x with | none => rootProps | some p => p.2.props)) ∨
        ∃ it2, nodesLookup st pr.1 = some it2 ∧ pr.2 = it2.props := by
  intro fuel
  induction fuel with
  | zero =>
      intro st x d ps l h
      simp [buildLayoutF] at h
  | succ f ih =>
      intro st x d ps l h
      have hq : ∀ (ids : List Nat) (d2 : Int) (ks : List MenuLayout),
          buildChildrenF f st ids d2 ps = some ks →
          ∀ pr ∈ layoutEntriesList ks,
            ∃ it2, nodesLookup st pr.1 = some it2 ∧ pr.2 = it2.props := by
        intro ids
        induction ids with
        | nil =>
            intro d2 ks hks pr hpr
            have h0 : buildChildrenF f st [] d2 ps = some [] := rfl
            rw [h0] at hks
            cases hks
            simp [layoutEntriesList] at hpr
        | cons cid rest ihr =>
            intro d2 ks hks pr hpr
            have h0 : buildChildrenF f st (cid :: rest) d2 ps =
                match buildChildrenF f st rest d2 ps with
                | none => none
                | some rest2 =>
                    match nodesLookup st cid with
                    | none => some rest2
                    | some it2 =>
                        match buildLayoutF f st (some (cid, it2)) d2 ps with
                        | none => none
                        | some l2 => some (l2 :: rest2) := rfl
            cases hrest : buildChildrenF f st rest d2 ps with
            | none =>
                have hee : buildChildrenF f st (cid :: rest) d2 ps = none := by
                  rw [h0, hrest]
                rw [hee] at hks
                exact absurd hks (by simp)
            | some rs =>
                cases hcid : nodesLookup st cid with
                | none =>
                    have hee : buildChildrenF f st (cid :: rest) d2 ps = some rs := by
                      rw [h0, hrest, hcid]
                    rw [hee] at hks
                    simp at hks
                    rw [← hks] at hpr
                    exact ihr d2 rs hrest pr hpr
                | some it2 =>
                    have hks2 : buildChildrenF f st (cid :: rest) d2 ps =
                        match buildLayoutF f st (some (cid, it2)) d2 ps with
                        | none => none
                        | some l2 => some (l2 :: rs) := by
                      rw [h0, hrest, hcid]
                    rw [hks2] at hks
                    cases hbl2 : buildLayoutF f st (some (cid, it2)) d2 ps with
                    | none =>
                        rw [hbl2] at hks
                        exact absurd hks (by simp)
                    | some l2 =>
                        rw [hbl2] at hks
                        simp at hks
                        rw [← hks] at hpr
                        have hEc : layoutEntriesList (l2 :: rs) =
                            layoutEntries l2 ++ layoutEntriesList rs := rfl
                        rw [hEc] at hpr
                        rcases List.mem_append.mp hpr with hpr | hpr
                        · rcases ih st (some (cid, it2)) d2 ps l2 hbl2 pr hpr with heq | hex
                          · exact ⟨it2, by rw [heq]; exact hcid, by rw [heq]⟩
                          · exact hex
                        · exact ihr d2 rs hrest pr hpr
      cases x with
      | none =>
          rw [buildLayoutF_succ] at h
          dsimp only at h
          by_cases hd : d = 0
          · rw [if_pos hd] at h
            simp at h
            subst h
            intro pr hpr
            have hE : layoutEntries (MenuLayout.mk 0 rootProps []) = [(0, rootProps)] := rfl
            rw [hE] at hpr
            exact Or.inl (List.mem_singleton.mp hpr)
          · rw [if_neg hd] at h
            cases hks : buildChildrenF f st st.rootChildren (d - 1) ps with
            | none =>
                rw [hks] at h
                exact absurd h (by simp)
            | some ks =>
                rw [hks] at h
                simp at h
                subst h
                intro pr hpr
                have hE : layoutEntries (MenuLayout.mk 0 rootProps ks) =
                    (0, rootProps) :: layoutEntriesList ks := rfl
                rw [hE] at hpr
                rcases List.mem_cons.mp hpr with heq | hpr
                · exact Or.inl heq
                · exact Or.inr (hq st.rootChildren (d - 1) ks hks pr hpr)
      | some p =>
          obtain ⟨i, it⟩ := p
          rw [buildLayoutF_succ] at h
          dsimp only at h
          by_cases hd : d = 0
          · rw [if_pos hd] at h
            simp at h
            subst h
            intro pr hpr
            have hE : layoutEntries (MenuLayout.mk i it.props []) = [(i, it.props)] := rfl
            rw [hE] at hpr
            exact Or.inl (List.mem_singleton.mp hpr)
          · rw [if_neg hd] at h
            cases hks : buildChildrenF f st it.children (d - 1) ps with
            | none =>
                rw [hks] at h
                exact absurd h (by simp)
            | some ks =>
                rw [hks] at h
                simp at h
                subst h
                intro pr hpr
                have hE : layoutEntries (MenuLayout.mk i it.props ks) =
                    (i, it.props) :: layoutEntriesList ks := rfl
                rw [hE] at hpr
                rcases List.mem_cons.mp hpr with heq | hpr
                · exact Or.inl heq
                · exact Or.inr (hq it.children (d - 1) ks hks pr hpr)

/-- Every id of a produced layout is the start id, or a node-map member with
at least one occurrence in a children sequence. -/
theorem buildLayoutF_ids_occ :
    ∀ (fuel : Nat) (st : MState) (x : Option (Nat × MItem)) (d : Int)
      (ps : List String) (l : MenuLayout),
      (∀ p, x = some p → nodesLookup st p.1 = some p.2) →
      buildLayoutF fuel st x d ps = some l →
      ∀ k ∈ layoutIds l,
        k = (match x with | none => 0 | some p => p.1) ∨
        (k ∈ st.nodesIds ∧ 1 ≤ occ st k) := by
  intro fuel
  induction fuel with
  | zero =>
      intro st x d ps l _ h
      simp [buildLayoutF] at h
  | succ f ih =>
      intro st x d ps l hx h
      have hq : ∀ (ids : List Nat) (d2 : Int) (ks : List MenuLayout),
          (∀ j ∈ ids, (nodesLookup st j).isSome → j ∈ st.nodesIds ∧ 1 ≤ occ st j) →
          buildChildrenF f st ids d2 ps = some ks →
          ∀ k ∈ layoutIdsList ks, k ∈ st.nodesIds ∧ 1 ≤ occ st k := by
        intro ids
        induction ids with
        | nil =>
            intro d2 ks _ hks k hk
            have h0 : buildChildrenF f st [] d2 ps = some [] := rfl
            rw [h0] at hks
            cases hks
            rw [layoutIdsList_nil] at hk
            simp at hk
        | cons cid rest ihr =>
            intro d2 ks hids ihks k hk
            have hidsr : ∀ j ∈ rest, (nodesLookup st j).isSome →
                j ∈ st.nodesIds ∧ 1 ≤ occ st j :=
              fun j hj => hids j (List.mem_cons_of_mem _ hj)
            have h0 : buildChildrenF f st (cid :: rest) d2 ps =
                match buildChildrenF f st rest d2 ps with
                | none => none
                | some rest2 =>
                    match nodesLookup st cid with
                    | none => some rest2
                    | some it2 =>
                        match buildLayoutF f st (some (cid, it2)) d2 ps with
                        | none => none
                        | some l2 => some (l2 :: rest2) := rfl
            cases hrest : buildChildrenF f st rest d2 ps with
            | none =>
                have hee : buildChildrenF f st (cid :: rest) d2 ps = none := by
                  rw [h0, hrest]
                rw [hee] at ihks
                exact absurd ihks (by simp)
            | some rs =>
                cases hcid : nodesLookup st cid with
                | none =>
                    have hee : buildChildrenF f st (cid :: rest) d2 ps = some rs := by
                      rw [h0, hrest, hcid]
                    rw [hee] at ihks
                    simp at ihks
                    rw [← ihks] at hk
                    exact ihr d2 rs hidsr hrest k hk
                | some it2 =>
                    have hks2 : buildChildrenF f st (cid :: rest) d2 ps =
                        match buildLayoutF f st (some (cid, it2)) d2 ps with
                        | none => none
                        | some l2 => some (l2 :: rs) := by
                      rw [h0, hrest, hcid]
                    rw [hks2] at ihks
                    cases hbl2 : buildLayoutF f st (some (cid, it2)) d2 ps with
                    | none =>
                        rw [hbl2] at ihks
                        exact absurd ihks (by simp)
                    | some l2 =>
                        rw [hbl2] at ihks
                        simp at ihks
                        rw [← ihks, layoutIdsList_cons] at hk
                        rcases List.mem_append.mp hk with hk | hk
                        · rcases ih st (some (cid, it2)) d2 ps l2
                            (fun p hp => by cases hp; exact hcid) hbl2 k hk with heq | hmm
                          · exact heq ▸ hids cid (List.mem_cons_self cid rest) (by simp [hcid])
                          · exact hmm
                        · exact ihr d2 rs hidsr hrest k hk
      cases x with
      | none =>
          rw [buildLayoutF_succ] at h
          dsimp only at h
          by_cases hd : d = 0
          · rw [if_pos hd] at h
            simp at h
            subst h
            intro k hk
            rw [layoutIds_mk, layoutIdsList_nil] at hk
            simp at hk
            exact Or.inl hk
          · rw [if_neg hd] at h
            cases hks : buildChildrenF f st st.rootChildren (d - 1) ps with
            | none =>
                rw [hks] at h
                exact absurd h (by simp)
            | some ks =>
                rw [hks] at h
                simp at h
                subst h
                intro k hk
                rw [layoutIds_mk] at hk
                rcases List.mem_cons.mp hk with rfl | hk
                · exact Or.inl rfl
                · refine Or.inr (hq st.rootChildren (d - 1) ks ?_ hks k hk)
                  intro j hj hjs
                  refine ⟨nodesLookup_isSome_mem hjs, ?_⟩
                  have := List.count_pos_iff.mpr hj
                  unfold occ
                  omega
      | some pxy =>
          obtain ⟨i, it⟩ := pxy
          have hres : nodesLookup st i = some it := hx (i, it) rfl
          rw [buildLayoutF_succ] at h
          dsimp only at h
          by_cases hd : d = 0
          · rw [if_pos hd] at h
            simp at h
            subst h
            intro k hk
            rw [layoutIds_mk, layoutIdsList_nil] at hk
            simp at hk
            exact Or.inl hk
          · rw [if_neg hd] at h
            cases hks : buildChildrenF f st it.children (d - 1) ps with
            | none =>
                rw [hks] at h
                exact absurd h (by simp)
            | some ks =>
                rw [hks] at h
                simp at h
                subst h
                intro k hk
                rw [layoutIds_mk] at hk
                rcases List.mem_cons.mp hk with rfl | hk
                · exact Or.inl rfl
                · refine Or.inr (hq it.children (d - 1) ks ?_ hks k hk)
                  intro j hj hjs
                  refine ⟨nodesLookup_isSome_mem hjs, ?_⟩
                  have him := (nodesLookup_heapLookup hres).1
                  have hcc := le_childCount_of_mem him
                    (by rw [childList_eq hres]; exact hj)
                  unfold occ
                  omega

/-! ## Revision bookkeeping -/

theorem setChildrenSt_revision (st : MState) (o : Nat) (c : List Nat) :
    (setChildrenSt st o c).revision = st.revision := by
  by_cases ho : o = 0
  · simp [setChildrenSt, ho]
  · cases h : heapLookup st o <;> simp [setChildrenSt, ho, h]

theorem setParentSt_revision (st : MState) (x p : Nat) :
    (setParentSt st x p).revision = st.revision := by
  cases h : heapLookup st x <;> simp [setParentSt, h]

/-! ## Claim C1 -/

/-- C1 (counterexample): after `[AddChild(root), AddChild(1), Remove(1)]`
the state violates the claimed full consistency: node 2 survives in the node
map but occurs in no children sequence (the removed node's descendants are
orphaned, not cascaded). -/
theorem C1_counterexample :
    ¬C1Claimed (runOps [Op.addRoot [], Op.addChild 1 [], Op.remove 1]) := by
  decide

/-- C1 (amended): for every operation sequence from the fresh menu, the
consistency that actually holds is one-sided: every node-map member occurs at
most once across all children sequences (root's included), and every
occurrence of a node-map member records its owner in the member's parent
field (`0` for the root's sequence).  Membership of every listed id in the
node map, and the existence of an occurrence for every member — the other
half of the claim — fail (see the counterexample). -/
theorem C1_amended_consistency (ops : List Op) :
    (∀ j ∈ (runOps ops).nodesIds, occ (runOps ops) j ≤ 1) ∧
    (∀ j ∈ (runOps ops).rootChildren, j ∈ (runOps ops).nodesIds →
      parentOfEq (runOps ops) j 0) ∧
    (∀ a ∈ (runOps ops).nodesIds, ∀ j ∈ childList (runOps ops) a,
      j ∈ (runOps ops).nodesIds → parentOfEq (runOps ops) j a) := by
  have hI := inv_runOps ops
  exact ⟨hI.occLe, hI.parentRoot, hI.parentChild⟩

/-! ## Claim C2 -/

theorem runOps_append (l : List Op) (op : Op) :
    runOps (l ++ [op]) = stepOp (runOps l) op := by
  unfold runOps
  rw [List.foldl_append]
  rfl

theorem replicate_addRoot_revision (n : Nat) :
    (runOps (List.replicate n (Op.addRoot []))).revision = n % u32Mod := by
  induction n with
  | zero => rfl
  | succ m ih =>
      rw [List.replicate_succ', runOps_append]
      show (stepAddRoot (runOps (List.replicate m (Op.addRoot []))) []).revision = _
      unfold stepAddRoot
      dsimp only
      rw [ih]
      unfold bumpRev
      rw [Nat.mod_add_mod]

/-- C2 (counterexample): the revision is a `uint32` and wraps: after
`2 ^ 32` root insertions it reads 0, strictly below its value after a single
insertion — the counter is not non-decreasing over extensions of an
operation sequence. -/
theorem C2_counterexample :
    (runOps (List.replicate u32Mod (Op.addRoot []))).revision = 0 ∧
    (runOps (List.replicate u32Mod (Op.addRoot []))).revision <
      (runOps (List.replicate 1 (Op.addRoot []))).revision := by
  have h1 := replicate_addRoot_revision u32Mod
  have h2 := replicate_addRoot_revision 1
  rw [Nat.mod_self] at h1
  constructor
  · exact h1
  · rw [h1, h2]
    norm_num [u32Mod]

/-- C2 (amended): each applicable mutation advances the `uint32` revision by
exactly one modulo `2 ^ 32` — in particular `MoveBefore` bumps it exactly
once even when it touches two distinct parents.  (As a `uint32` it wraps to
0 after `2 ^ 32` bumps, so it is not globally non-decreasing.) -/
theorem C2_amended_revision :
    (∀ (st : MState) (ps : List PropOp),
      (stepAddRoot st ps).revision = (st.revision + 1) % u32Mod) ∧
    (∀ (st : MState) (x : Nat) (ps : List PropOp), (heapLookup st x).isSome →
      (stepAddChild st x ps).revision = (st.revision + 1) % u32Mod) ∧
    (∀ (st : MState) (x : Nat) (xi : MItem), heapLookup st x = some xi →
      (getParentRef st xi).isSome →
      (stepRemove st x).revision = (st.revision + 1) % u32Mod) ∧
    (∀ (st : MState) (x sib : Nat) (xi si : MItem),
      heapLookup st x = some xi → heapLookup st sib = some si →
      (getParentRef st si).isSome → (getParentRef st xi).isSome →
      (stepMoveBefore st x sib).revision = (st.revision + 1) % u32Mod) ∧
    (∀ (st : MState) (x : Nat) (ps : List PropOp), (heapLookup st x).isSome →
      (stepSetProps st x ps).revision = (st.revision + 1) % u32Mod) := by
  refine ⟨fun st ps => rfl, ?_, ?_, ?_, ?_⟩
  · intro st x ps hx
    obtain ⟨xi, hxi⟩ := Option.isSome_iff_exists.mp hx
    unfold stepAddChild
    rw [hxi]
    rfl
  · intro st x xi hx hp
    obtain ⟨pown, hpown⟩ := Option.isSome_iff_exists.mp hp
    unfold stepRemove
    rw [hx]
    dsimp only
    rw [hpown]
    dsimp only
    rw [setChildrenSt_revision]
    rfl
  · intro st x sib xi si hx hsb hgd hgs
    obtain ⟨dstO, hdst⟩ := Option.isSome_iff_exists.mp hgd
    obtain ⟨srcO, hsrc⟩ := Option.isSome_iff_exists.mp hgs
    unfold stepMoveBefore
    rw [hx, hsb]
    dsimp only
    rw [hdst, hsrc]
    dsimp only
    rw [setParentSt_revision]
    by_cases hds : dstO = srcO
    · rw [if_pos hds, setChildrenSt_revision]
      rfl
    · rw [if_neg hds, setChildrenSt_revision, setChildrenSt_revision]
      rfl
  · intro st x ps hx
    obtain ⟨xi, hxi⟩ := Option.isSome_iff_exists.mp hx
    unfold stepSetProps
    rw [hxi]
    rfl

/-- Witness for the amended C2 statement at a concrete two-node state. -/
theorem C2_amended_revision_witness :
    ((heapLookup (runOps [Op.addRoot [], Op.addRoot []]) 1).isSome ∧
      (stepAddChild (runOps [Op.addRoot [], Op.addRoot []]) 1 []).revision =
        ((runOps [Op.addRoot [], Op.addRoot []]).revision + 1) % u32Mod) ∧
    (heapLookup (runOps [Op.addRoot [], Op.addRoot []]) 1 =
        some { parent := 0, props := [], children := [] } ∧
      (stepRemove (runOps [Op.addRoot [], Op.addRoot []]) 1).revision =
        ((runOps [Op.addRoot [], Op.addRoot []]).revision + 1) % u32Mod) ∧
    ((stepMoveBefore (runOps [Op.addRoot [], Op.addRoot []]) 1 2).revision =
        ((runOps [Op.addRoot [], Op.addRoot []]).revision + 1) % u32Mod) ∧
    ((stepSetProps (runOps [Op.addRoot [], Op.addRoot []]) 1
        [PropOp.label "a"]).revision =
        ((runOps [Op.addRoot [], Op.addRoot []]).revision + 1) % u32Mod) := by
  refine ⟨⟨by decide, C2_amended_revision.2.1 _ 1 [] (by decide)⟩,
    ⟨by decide, C2_amended_revision.2.2.1 _ 1
      { parent := 0, props := [], children := [] } (by decide) (by decide)⟩,
    C2_amended_revision.2.2.2.1 _ 1 2
      { parent := 0, props := [], children := [] }
      { parent := 0, props := [], children := [] }
      (by decide) (by decide) (by decide) (by decide),
    C2_amended_revision.2.2.2.2 _ 1 [PropOp.label "a"] (by decide)⟩

/-! ## Claim C3 -/

/-- C3: building with `recursionDepth` exactly 0 yields the starting node's
own entry carrying an empty children list (for any state, any filter, either
start); and building with the unbounded sentinel depth `-1` from the root of
any reachable state succeeds and yields a snapshot in which every node
reachable from the starting root appears exactly once (the id list is the
root plus exactly the root-reachable node ids, without duplicates). -/
theorem C3_depth_semantics :
    (∀ (st : MState) (fuel : Nat) (x : Option (Nat × MItem)) (ps : List String),
      buildLayoutF (fuel + 1) st x 0 ps =
        some (MenuLayout.mk
          (match x with | none => 0 | some p => p.1)
          (match x with | none => rootProps | some p => p.2.props) [])) ∧
    (∀ (ops : List Op) (ps : List String),
      ∃ l, (GetLayout (runOps ops) 0 (-1) ps).2 = some l ∧
        (∀ k, k ∈ layoutIds l ↔ (k = 0 ∨ ReachRoot (runOps ops) k)) ∧
        (layoutIds l).Nodup) := by
  constructor
  · intro st fuel x ps
    rw [buildLayoutF_succ, if_pos rfl]
    cases x with
    | none => rfl
    | some p => rfl
  · intro ops ps
    obtain ⟨ls, hfold, hiff, hnd⟩ :=
      getLayout_root_ok (inv_runOps ops) (by norm_num : (-1 : Int) < 0) ps
    exact ⟨MenuLayout.mk 0 rootProps ls, by simp [GetLayout, hfold], hiff, hnd⟩

/-! ## Claim C4 -/

/-- C4 (counterexample): with two root nodes, asking `GetLayout` for the
subtree of node 2 returns the snapshot of the whole tree: its top entry is
the root 0, not 2, and it includes node 1, which is not under node 2. -/
theorem C4_counterexample :
    ((GetLayout (runOps [Op.addRoot [], Op.addRoot []]) 2 (-1) []).2).map layoutIds =
      some [0, 1, 2] ∧
    ¬(((GetLayout (runOps [Op.addRoot [], Op.addRoot []]) 2 (-1) []).2).map
        MenuLayout.id = some 2) := by
  decide

/-- C4 (amended): `GetLayout` ignores its `parentID` argument entirely — the
reply for any `parentID` is the reply for the root sentinel 0, and its first
component is always the current revision. -/
theorem C4_amended_parentID_ignored (st : MState) (pid : Nat) (rd : Int)
    (pn : List String) :
    GetLayout st pid rd pn = GetLayout st 0 rd pn ∧
    (GetLayout st pid rd pn).1 = st.revision :=
  ⟨rfl, rfl⟩

/-! ## Claim C5 -/

/-- C5 (counterexample): storing `label := "a"` on a node whose label is
already `"a"` still emits an `ItemsPropertiesUpdated` with the key in its
payload (the setter marks unconditionally; there is no equality check), plus
the unconditional structural signal. -/
theorem C5_counterexample :
    ((heapLookup (runOps [Op.addRoot [PropOp.label "a"]]) 1).map
        (fun it => plookup it.props "label") = some (some (PVal.s "a"))) ∧
    (stepSetProps (runOps [Op.addRoot [PropOp.label "a"]]) 1
        [PropOp.label "a"]).events =
      (runOps [Op.addRoot [PropOp.label "a"]]).events ++
        [Ev.propsUpdated 1 [("label", some (PVal.s "a"))],
         Ev.layoutUpdated 2 1] := by
  decide

/-- C5 (amended): the dirty-key set of a `SetProps` batch is exactly the
keys the options mark, independent of the stored values — an assignment
whose value equals the current one still produces its key in the payload of
the emitted `ItemsPropertiesUpdated`, followed by the unconditional
structural signal. -/
theorem C5_amended_dirty_keys (st : MState) (x : Nat) (xi : MItem) (ps : List PropOp)
    (hx : heapLookup st x = some xi) :
    (stepSetProps st x ps).events = st.events ++
      [Ev.propsUpdated x (updatedPayload (applyProps ps xi.props).1 (markedKeys ps)),
       Ev.layoutUpdated (bumpRev st.revision) x] := by
  unfold stepSetProps
  rw [hx]
  dsimp only
  rw [applyProps_dirty]

/-- Witness for the amended C5 statement: re-storing the current label. -/
theorem C5_amended_dirty_keys_witness :
    heapLookup (runOps [Op.addRoot [PropOp.label "a"]]) 1 =
      some { parent := 0, props := [("label", PVal.s "a")], children := [] } ∧
    (stepSetProps (runOps [Op.addRoot [PropOp.label "a"]]) 1
        [PropOp.label "a"]).events =
      (runOps [Op.addRoot [PropOp.label "a"]]).events ++
        [Ev.propsUpdated 1 (updatedPayload
          (applyProps [PropOp.label "a"]
            [("label", PVal.s "a")]).1 (markedKeys [PropOp.label "a"])),
         Ev.layoutUpdated (bumpRev (runOps [Op.addRoot [PropOp.label "a"]]).revision) 1] :=
  ⟨by decide,
    C5_amended_dirty_keys (runOps [Op.addRoot [PropOp.label "a"]]) 1
      { parent := 0, props := [("label", PVal.s "a")], children := [] }
      [PropOp.label "a"] (by decide)⟩

/-! ## Claim C6 -/

/-- C6 (counterexample): a vendor property stored with the untyped nil value
is present in the node's bag, yet `GetProperty` reports the NotFound-style
error for it — the error condition is not "id unknown or key absent". -/
theorem C6_counterexample :
    ((heapLookup (runOps [Op.addRoot [PropOp.vendor "v" "p" PVal.vnil]]) 1).map
        (fun it => plookup it.props "x-v-p") = some (some PVal.vnil)) ∧
    1 ∈ (runOps [Op.addRoot [PropOp.vendor "v" "p" PVal.vnil]]).nodesIds ∧
    GetProperty (runOps [Op.addRoot [PropOp.vendor "v" "p" PVal.vnil]]) 1 "x-v-p" =
      Except.error (LookupError.propNotFound "x-v-p") := by
  refine ⟨by decide, by decide, ?_⟩
  rfl

/-- C6 (amended): `GetProperty` succeeds with the stored value exactly when
the id resolves in the node map, the key is present in that node's bag, and
the stored value is not the untyped nil; in every other case — id unknown,
key absent, or value nil — it fails with the corresponding NotFound-style
error (never a crash). -/
theorem C6_amended_getProperty (st : MState) (id : Nat) (name : String) :
    (∀ v, GetProperty st id name = Except.ok v ↔
      ∃ it, nodesLookup st id = some it ∧ plookup it.props name = some v ∧
        v ≠ PVal.vnil) ∧
    (nodesLookup st id = none →
      GetProperty st id name = Except.error (LookupError.itemNotFound id)) ∧
    (∀ it, nodesLookup st id = some it →
      plookup it.props name = none ∨ plookup it.props name = some PVal.vnil →
      GetProperty st id name = Except.error (LookupError.propNotFound name)) := by
  refine ⟨?_, ?_, ?_⟩
  · intro v
    unfold GetProperty
    cases hn : nodesLookup st id with
    | none =>
        constructor
        · intro h
          exact Except.noConfusion h
        · rintro ⟨it, hit, _⟩
          exact Option.noConfusion hit
    | some it =>
        dsimp only
        cases hp : plookup it.props name with
        | none =>
            constructor
            · intro h
              exact Except.noConfusion h
            · rintro ⟨it2, hit2, hp2, _⟩
              cases hit2
              rw [hp] at hp2
              exact Option.noConfusion hp2
        | some v2 =>
            dsimp only
            by_cases hv : v2 = PVal.vnil
            · rw [if_pos hv]
              constructor
              · intro h
                exact Except.noConfusion h
              · rintro ⟨it2, hit2, hp2, hv2⟩
                cases hit2
                rw [hp] at hp2
                cases hp2
                exact absurd hv hv2
            · rw [if_neg hv]
              constructor
              · intro h
                cases h
                exact ⟨it, rfl, hp, hv⟩
              · rintro ⟨it2, hit2, hp2, hv2⟩
                cases hit2
                rw [hp] at hp2
                cases hp2
                rfl
  · intro hn
    unfold GetProperty
    rw [hn]
  · intro it hit hbad
    unfold GetProperty
    rw [hit]
    dsimp only
    rcases hbad with hb | hb
    · rw [hb]
    · rw [hb]
      dsimp only
      rw [if_pos rfl]

/-! ## Claim C7 -/

/-- C7: in any reachable state, `AddChild` on an item handle with an empty
children list stores "submenu" under the parent's "children-display" key in
the same mutation that appends the child; and `Remove` of the sole child of
an item parent stores "" (the cleared marker) under the parent's
"children-display" key in the same mutation that empties the list. -/
theorem C7_children_display :
    (∀ (ops : List Op) (x : Nat) (xi : MItem) (ps : List PropOp),
      heapLookup (runOps ops) x = some xi → xi.children = [] →
      (heapLookup (stepAddChild (runOps ops) x ps) x).map
          (fun it => plookup it.props "children-display") =
        some (some (PVal.s "submenu"))) ∧
    (∀ (ops : List Op) (x pown : Nat) (xi : MItem),
      heapLookup (runOps ops) x = some xi →
      getParentRef (runOps ops) xi = some pown → pown ≠ 0 →
      childrenOf (runOps ops) pown = [x] →
      (heapLookup (stepRemove (runOps ops) x) pown).map
          (fun it => plookup it.props "children-display") =
        some (some (PVal.s ""))) := by
  constructor
  · intro ops x xi ps hx hemp
    have hI := inv_runOps ops
    set st := runOps ops with hst
    have hxb : x ≤ st.nextId := (hI.heapLookup_bound hx).2
    have hne : ¬st.nextId + 1 = x := by omega
    unfold stepAddChild
    rw [hx]
    dsimp only
    unfold heapLookup
    dsimp only
    rw [lookupA_heapUpd]
    rw [if_pos rfl]
    unfold lookupA
    rw [if_neg hne]
    have hx2 : lookupA st.heap x = some xi := hx
    rw [hx2]
    simp [plookup_propsInsert_self]
  · intro ops x pown xi hx hp hpz hch
    have hI := inv_runOps ops
    set st := runOps ops with hst
    rcases getParentRef_cases hp with ⟨h0, _⟩ | ⟨hpe, hpnz, hps⟩
    · exact absurd h0 hpz
    obtain ⟨pi, hpi0⟩ := Option.isSome_iff_exists.mp hps
    have hpi : nodesLookup st pown = some pi := by rw [hpe]; exact hpi0
    obtain ⟨hpm, hph⟩ := nodesLookup_heapLookup hpi
    have hsr : sliceRemove (childrenOf st pown) x = [] := by
      rw [hch]
      simp [sliceRemove, listIndex, List.eraseIdx]
    unfold stepRemove
    rw [hx]
    dsimp only
    rw [hp]
    dsimp only
    rw [hsr, setChildrenSt_pos [] hpz hph]
    dsimp only
    unfold heapLookup
    dsimp only
    rw [lookupA_heapUpd, if_pos rfl]
    have hph2 : lookupA st.heap pown = some pi := hph
    rw [hph2]
    simp [withChildren, plookup_propsInsert_self]

/-- Witness for C7: adding a first child to a fresh root node, and removing
the sole child of a one-child parent. -/
theorem C7_children_display_witness :
    (heapLookup (runOps [Op.addRoot []]) 1 =
        some { parent := 0, props := [], children := [] } ∧
      (heapLookup (stepAddChild (runOps [Op.addRoot []]) 1 []) 1).map
          (fun it => plookup it.props "children-display") =
        some (some (PVal.s "submenu"))) ∧
    (heapLookup (runOps [Op.addRoot [], Op.addChild 1 []]) 2 =
        some { parent := 1, props := [], children := [] } ∧
      childrenOf (runOps [Op.addRoot [], Op.addChild 1 []]) 1 = [2] ∧
      (heapLookup (stepRemove (runOps [Op.addRoot [], Op.addChild 1 []]) 2) 1).map
          (fun it => plookup it.props "children-display") =
        some (some (PVal.s ""))) := by
  refine ⟨⟨by decide, ?_⟩, by decide, by decide, ?_⟩
  · exact C7_children_display.1 [Op.addRoot []] 1
      { parent := 0, props := [], children := [] } [] (by decide) (by decide)
  · exact C7_children_display.2 [Op.addRoot [], Op.addChild 1 []] 2 1
      { parent := 1, props := [], children := [] } (by decide) (by decide)
      (by decide) (by decide)

/-! ## Claim C8 -/

/-- C8: every reply entry of `GetGroupProperties` carries the node's complete
property bag for any filter (and the filter argument does not influence the
reply at all); and every non-root entry of any `GetLayout` snapshot, for any
filter, carries the complete bag of the node it names. -/
theorem C8_full_property_bags :
    (∀ (st : MState) (ids : List Nat) (pn pn2 : List String),
      GetGroupProperties st ids pn = GetGroupProperties st ids pn2) ∧
    (∀ (st : MState) (ids : List Nat) (pn : List String) (e : MenuProps),
      e ∈ GetGroupProperties st ids pn →
      ∃ it, nodesLookup st e.id = some it ∧ e.properties = it.props) ∧
    (∀ (st : MState) (pid : Nat) (d : Int) (pn : List String) (l : MenuLayout),
      (GetLayout st pid d pn).2 = some l →
      ∀ pr ∈ layoutEntries l, pr.1 ≠ 0 →
      ∃ it, nodesLookup st pr.1 = some it ∧ pr.2 = it.props) := by
  refine ⟨fun st ids pn pn2 => rfl, ?_, ?_⟩
  · intro st ids pn e he
    unfold GetGroupProperties at he
    dsimp only at he
    rcases List.mem_map.mp he with ⟨pr, hpr, hee⟩
    by_cases hids : ids.isEmpty
    · rw [if_pos hids] at hpr
      rcases List.mem_filterMap.mp hpr with ⟨i, him, hmap⟩
      cases hh : heapLookup st i with
      | none => rw [hh] at hmap; exact absurd hmap (by simp)
      | some it =>
          rw [hh] at hmap
          simp at hmap
          refine ⟨it, ?_, ?_⟩
          · rw [← hee, ← hmap]
            dsimp only
            unfold nodesLookup
            rw [if_pos him]
            exact hh
          · rw [← hee, ← hmap]
    · rw [if_neg hids] at hpr
      rcases List.mem_filterMap.mp hpr with ⟨i, him, hmap⟩
      cases hh : nodesLookup st i with
      | none => rw [hh] at hmap; exact absurd hmap (by simp)
      | some it =>
          rw [hh] at hmap
          simp at hmap
          refine ⟨it, ?_, ?_⟩
          · rw [← hee, ← hmap]
            exact hh
          · rw [← hee, ← hmap]
  · intro st pid d pn l hl pr hpr hnz
    have := buildLayoutF_entries (layoutFuel st) st none d pn l hl pr hpr
    rcases this with heq | hex
    · exact absurd (by rw [heq]) hnz
    · exact hex

/-- Witness for C8 on a one-node state, with a non-trivial filter. -/
theorem C8_full_property_bags_witness :
    ({ id := 1, properties := [("label", PVal.s "a")] } ∈
        GetGroupProperties (runOps [Op.addRoot [PropOp.label "a"]]) [] ["enabled"] ∧
      ∃ it, nodesLookup (runOps [Op.addRoot [PropOp.label "a"]])
          (MenuProps.id { id := 1, properties := [("label", PVal.s "a")] }) = some it ∧
        MenuProps.properties { id := 1, properties := [("label", PVal.s "a")] } = it.props) ∧
    ((GetLayout (runOps [Op.addRoot [PropOp.label "a"]]) 0 (-1) ["enabled"]).2 =
        some (MenuLayout.mk 0 rootProps
          [MenuLayout.mk 1 [("label", PVal.s "a")] []]) ∧
      (1, [("label", PVal.s "a")]) ∈ layoutEntries (MenuLayout.mk 0 rootProps
          [MenuLayout.mk 1 [("label", PVal.s "a")] []]) ∧
      ∃ it, nodesLookup (runOps [Op.addRoot [PropOp.label "a"]]) 1 = some it ∧
        [("label", PVal.s "a")] = it.props) := by
  refine ⟨⟨by decide, ?_⟩, ⟨by rfl, by decide, ?_⟩⟩
  · exact C8_full_property_bags.2.1 (runOps [Op.addRoot [PropOp.label "a"]]) []
      ["enabled"] { id := 1, properties := [("label", PVal.s "a")] } (by decide)
  · exact C8_full_property_bags.2.2 (runOps [Op.addRoot [PropOp.label "a"]]) 0 (-1)
      ["enabled"] (MenuLayout.mk 0 rootProps [MenuLayout.mk 1 [("label", PVal.s "a")] []])
      (by rfl) (1, [("label", PVal.s "a")]) (by decide) (by decide)

/-! ## Claim C9 -/

/-- C9: whenever `GetLayout` returns a snapshot, its top entry has id 0 and
carries exactly the fixed map {"children-display": "submenu"} — independent
of the tree's stored state; and on every reachable state (a root with no
children included) the unbounded-depth snapshot does exist. -/
theorem C9_root_entry_fixed :
    (∀ (st : MState) (pid : Nat) (d : Int) (pn : List String) (l : MenuLayout),
      (GetLayout st pid d pn).2 = some l → l.id = 0 ∧ l.properties = rootProps) ∧
    (∀ (ops : List Op) (pid : Nat) (pn : List String),
      ∃ l, (GetLayout (runOps ops) pid (-1) pn).2 = some l) := by
  constructor
  · intro st pid d pn l hl
    have hl2 : buildLayoutF (layoutFuel st) st none d pn = some l := hl
    have hfe : layoutFuel st = (st.nodesIds.length + 1) + 1 := rfl
    rw [hfe, buildLayoutF_succ] at hl2
    dsimp only at hl2
    by_cases hd : d = 0
    · rw [if_pos hd] at hl2
      simp at hl2
      subst hl2
      exact ⟨rfl, rfl⟩
    · rw [if_neg hd] at hl2
      cases hks : buildChildrenF (st.nodesIds.length + 1) st st.rootChildren
          (d - 1) pn with
      | none =>
          rw [hks] at hl2
          exact absurd hl2 (by simp)
      | some ks =>
          rw [hks] at hl2
          simp at hl2
          subst hl2
          exact ⟨rfl, rfl⟩
  · intro ops pid pn
    obtain ⟨ls, hfold, _, _⟩ :=
      getLayout_root_ok (inv_runOps ops) (by norm_num : (-1 : Int) < 0) pn
    exact ⟨MenuLayout.mk 0 rootProps ls, hfold⟩

/-- Witness for C9: the empty menu at depth 0, and a one-node menu at the
unbounded depth. -/
theorem C9_root_entry_fixed_witness :
    ((GetLayout initState 0 0 []).2 = some (MenuLayout.mk 0 rootProps []) ∧
      (MenuLayout.mk 0 rootProps []).id = 0 ∧
      (MenuLayout.mk 0 rootProps []).properties = rootProps) ∧
    ∃ l, (GetLayout (runOps [Op.addRoot []]) 5 (-1) []).2 = some l := by
  refine ⟨⟨rfl, ?_⟩, C9_root_entry_fixed.2 [Op.addRoot []] 5 []⟩
  exact C9_root_entry_fixed.1 initState 0 0 [] (MenuLayout.mk 0 rootProps []) rfl

/-! ## Claim C10 -/

/-- C10: `AddChild` on a handle whose id has been removed from the node map
still succeeds: the fresh id joins the node map with its parent field naming
the removed id, it is absent from every `GetLayout` snapshot (any depth, any
filter, any `parentID`), and `GetGroupProperties` with the empty id list
still reports it. -/
theorem C10_removed_handle_addChild (ops : List Op) (x : Nat) (xi : MItem)
    (ps : List PropOp) (hx : heapLookup (runOps ops) x = some xi)
    (hxn : x ∉ (runOps ops).nodesIds) :
    ((runOps ops).nextId + 1) ∈ (stepAddChild (runOps ops) x ps).nodesIds ∧
    parentOfEq (stepAddChild (runOps ops) x ps) ((runOps ops).nextId + 1) x ∧
    (∀ (pid : Nat) (d : Int) (pn : List String) (l : MenuLayout),
      (GetLayout (stepAddChild (runOps ops) x ps) pid d pn).2 = some l →
      ((runOps ops).nextId + 1) ∉ layoutIds l) ∧
    (∃ e ∈ GetGroupProperties (stepAddChild (runOps ops) x ps) [] [],
      MenuProps.id e = (runOps ops).nextId + 1) := by
  have hI := inv_runOps ops
  set st := runOps ops with hst
  set cid := st.nextId + 1 with hcid
  set nit : MItem := { parent := x, props := (applyProps ps []).1, children := [] }
    with hnit
  set xi' : MItem :=
    { xi with
      children := xi.children ++ [cid]
      props := propsInsert xi.props "children-display" (.s "submenu") } with hxi'
  obtain ⟨hx1, hxb⟩ := hI.heapLookup_bound hx
  have hxcid : x ≠ cid := by omega
  set st2 := stepAddChild st x ps with hst2
  have hheap : st2.heap = heapUpd ((cid, nit) :: st.heap) x xi' := by
    simp [hst2, stepAddChild, hx, hxi', hnit]
  have hnodes : st2.nodesIds = st.nodesIds ++ [cid] := by simp [hst2, stepAddChild, hx]
  have hroot : st2.rootChildren = st.rootChildren := by simp [hst2, stepAddChild, hx]
  have hlk : ∀ j, heapLookup st2 j =
      if j = x then some xi' else if cid = j then some nit else heapLookup st j := by
    intro j
    have hstep : heapLookup st2 j = lookupA (heapUpd ((cid, nit) :: st.heap) x xi') j := by
      rw [heapLookup, hheap]
    have hx2 : lookupA st.heap x = some xi := hx
    rw [hstep, lookupA_heapUpd]
    by_cases hj : j = x
    · subst hj
      have hcj : ¬cid = j := fun hc => hxcid hc.symm
      simp [lookupA, hcj, hx2]
    · simp only [hj, if_false]
      by_cases hcj : cid = j <;> simp [lookupA, heapLookup, hcj]
  have hcid_not_nodes : cid ∉ st.nodesIds := fun hm =>
    absurd (hI.nodesBound cid hm) (by omega)
  have hcidmem : cid ∈ st2.nodesIds := by
    rw [hnodes]
    exact List.mem_append.mpr (Or.inr (List.mem_singleton.mpr rfl))
  have hlkcid : heapLookup st2 cid = some nit := by
    rw [hlk cid]
    have hne2 : ¬cid = x := fun hc => hxcid hc.symm
    simp [hne2]
  have hpar : parentOfEq st2 cid x := by
    unfold parentOfEq
    rw [hlkcid]
    simp [hnit]
  have hclcid : childList st2 cid = [] := by
    unfold childList nodesLookup
    rw [hnodes, hlk]
    have hne2 : ¬cid = x := fun hc => hxcid hc.symm
    by_cases hm : cid ∈ st.nodesIds ++ [cid] <;> simp [hm, hne2, hnit]
  have hcl : ∀ a, a ∈ st.nodesIds → childList st2 a = childList st a := by
    intro a ham
    have hax : a ≠ x := fun hc => hxn (hc ▸ ham)
    have hac2 : ¬cid = a := fun hc => hcid_not_nodes (hc ▸ ham)
    have ha2 : ¬a = cid := fun hc => hac2 hc.symm
    unfold childList nodesLookup
    rw [hnodes, hlk]
    simp [ham, hax, hac2, ha2]
  have hocc0 : occ st2 cid = 0 := by
    unfold occ
    rw [hroot, hnodes, childCount_append, childCount_cons, hclcid, childCount_nil]
    have h1 : st.rootChildren.count cid = 0 :=
      count_eq_zero_of_bound hI.rootBound (by omega)
    have h2 : childCount st2 st.nodesIds cid = 0 := by
      apply childCount_eq_zero
      intro a ha
      rw [hcl a ha]
      intro hmem
      have := hI.childList_bound a cid hmem
      omega
    simp [h1, h2]
  refine ⟨hcidmem, hpar, ?_, ?_⟩
  · intro pid d pn l hl hmem
    have hl2 : buildLayoutF (layoutFuel st2) st2 none d pn = some l := hl
    have := buildLayoutF_ids_occ (layoutFuel st2) st2 none d pn l
      (fun p hp => Option.noConfusion hp) hl2 cid hmem
    rcases this with h0 | ⟨_, hge⟩
    · have h0b : cid = 0 := h0
      omega
    · rw [hocc0] at hge
      omega
  · refine ⟨{ id := cid, properties := nit.props }, ?_, rfl⟩
    unfold GetGroupProperties
    dsimp only
    rw [if_pos List.isEmpty_nil]
    apply List.mem_map.mpr
    refine ⟨(cid, nit), ?_, rfl⟩
    apply List.mem_filterMap.mpr
    refine ⟨cid, hcidmem, ?_⟩
    rw [hlkcid]
    rfl

/-- Witness for C10: the handle of a removed root node gains a child. -/
theorem C10_removed_handle_addChild_witness :
    (heapLookup (runOps [Op.addRoot [], Op.remove 1]) 1 =
        some { parent := 0, props := [], children := [] } ∧
      1 ∉ (runOps [Op.addRoot [], Op.remove 1]).nodesIds) ∧
    (((runOps [Op.addRoot [], Op.remove 1]).nextId + 1) ∈
        (stepAddChild (runOps [Op.addRoot [], Op.remove 1]) 1 []).nodesIds ∧
      parentOfEq (stepAddChild (runOps [Op.addRoot [], Op.remove 1]) 1 [])
        ((runOps [Op.addRoot [], Op.remove 1]).nextId + 1) 1 ∧
      (∀ (pid : Nat) (d : Int) (pn : List String) (l : MenuLayout),
        (GetLayout (stepAddChild (runOps [Op.addRoot [], Op.remove 1]) 1 []) pid d pn).2 =
          some l →
        ((runOps [Op.addRoot [], Op.remove 1]).nextId + 1) ∉ layoutIds l) ∧
      (∃ e ∈ GetGroupProperties (stepAddChild (runOps [Op.addRoot [], Op.remove 1]) 1 []) [] [],
        MenuProps.id e = (runOps [Op.addRoot [], Op.remove 1]).nextId + 1)) :=
  ⟨⟨by decide, by decide⟩,
    C10_removed_handle_addChild [Op.addRoot [], Op.remove 1] 1
      { parent := 0, props := [], children := [] } [] (by decide) (by decide)⟩

/-- Witness for the amended C1 statement at a concrete two-level tree. -/
theorem C1_amended_consistency_witness :
    occ (runOps [Op.addRoot [], Op.addChild 1 []]) 2 ≤ 1 ∧
    (2 ∈ (runOps [Op.addRoot [], Op.addChild 1 []]).nodesIds →
        parentOfEq (runOps [Op.addRoot [], Op.addChild 1 []]) 2 1) := by
  constructor
  · exact (C1_amended_consistency [Op.addRoot [], Op.addChild 1 []]).1 2 (by decide)
  · exact fun hm => (C1_amended_consistency [Op.addRoot [], Op.addChild 1 []]).2.2
      1 (by decide) 2 (by decide) hm

/-- Witness for C3 at a concrete one-node tree and a concrete depth-0 call. -/
theorem C3_depth_semantics_witness :
    buildLayoutF 1 initState none 0 [] = some (MenuLayout.mk 0 rootProps []) ∧
    (∃ l, (GetLayout (runOps [Op.addRoot []]) 0 (-1) []).2 = some l ∧
      (∀ k, k ∈ layoutIds l ↔ (k = 0 ∨ ReachRoot (runOps [Op.addRoot []]) k)) ∧
      (layoutIds l).Nodup) :=
  ⟨C3_depth_semantics.1 initState 0 none [], C3_depth_semantics.2 [Op.addRoot []] []⟩

/-- Witness for the amended C4 statement at a concrete call. -/
theorem C4_amended_parentID_ignored_witness :
    GetLayout (runOps [Op.addRoot []]) 3 (-1) [] =
      GetLayout (runOps [Op.addRoot []]) 0 (-1) [] ∧
    (GetLayout (runOps [Op.addRoot []]) 3 (-1) []).1 =
      (runOps [Op.addRoot []]).revision :=
  C4_amended_parentID_ignored (runOps [Op.addRoot []]) 3 (-1) []

/-- Witness for the amended C6 statement: a successful lookup, an unknown
id, and a nil-valued key, all on concrete states. -/
theorem C6_amended_getProperty_witness :
    GetProperty (runOps [Op.addRoot [PropOp.label "a"]]) 1 "label" =
      Except.ok (PVal.s "a") ∧
    GetProperty (runOps [Op.addRoot []]) 5 "label" =
      Except.error (LookupError.itemNotFound 5) ∧
    GetProperty (runOps [Op.addRoot [PropOp.vendor "v" "p" PVal.vnil]]) 1 "x-v-p" =
      Except.error (LookupError.propNotFound "x-v-p") := by
  refine ⟨?_, ?_, ?_⟩
  · exact ((C6_amended_getProperty (runOps [Op.addRoot [PropOp.label "a"]]) 1
      "label").1 (PVal.s "a")).mpr
      ⟨{ parent := 0, props := [("label", PVal.s "a")], children := [] },
        by decide, by decide, by decide⟩
  · exact (C6_amended_getProperty (runOps [Op.addRoot []]) 5 "label").2.1 (by decide)
  · exact (C6_amended_getProperty (runOps [Op.addRoot [PropOp.vendor "v" "p" PVal.vnil]])
      1 "x-v-p").2.2
      { parent := 0, props := [("x-v-p", PVal.vnil)], children := [] }
      (by decide) (Or.inr (by decide))
